import Mathlib

/-! westarver/template: the template expansion engine of `parse.go`.

A shallow embedding of the scanning state machine of `parse.go`:
the cursor primitives (`next`, `peek`, `backup`, `skipws`, `insert`,
`toNextDelim`), the tokenizer (`getNextWord`, `getToDelim`), the scanning
states and the six directive handlers, followed by theorems about them.

Go strings are byte sequences, so a string is a list of bytes here and the
cursor moves by the width of the UTF-8 sequence that `utf8.DecodeRuneInString`
decodes. The operating environment, the clipboard, the command runner and the
file system are the fields of a `World`.
-/

namespace Westarver

/-! ## Go strings and the library functions the engine calls -/

/-- A Go `byte`. -/
abbrev Byte := Fin 256

/-- A Go `string`: an immutable sequence of bytes. -/
abbrev Str := List Byte

/-- A Go `rune` (`int32`); the engine also stores the sentinel `eof = -1` in it. -/
abbrev Rune := Int

/-- The byte with the given value (values are reduced modulo 256). -/
def byteOf (n : Nat) : Byte := ⟨n % 256, Nat.mod_lt _ (by decide)⟩

/-- The constant `utf8.RuneError`, U+FFFD. -/
def RuneError : Rune := 0xFFFD

/-- Go's conversion `string(r)` of one rune: its UTF-8 encoding, and the encoding of
U+FFFD for a value that is no Unicode scalar value (negative, a surrogate, too large). -/
def encodeRune (r : Rune) : Str :=
  if r < 0 ∨ 0x10FFFF < r ∨ (0xD800 ≤ r ∧ r ≤ 0xDFFF) then [byteOf 0xEF, byteOf 0xBF, byteOf 0xBD]
  else
    let n := r.toNat
    if n < 0x80 then [byteOf n]
    else if n < 0x800 then [byteOf (0xC0 + n / 64), byteOf (0x80 + n % 64)]
    else if n < 0x10000 then
      [byteOf (0xE0 + n / 4096), byteOf (0x80 + n / 64 % 64), byteOf (0x80 + n % 64)]
    else
      [byteOf (0xF0 + n / 262144), byteOf (0x80 + n / 4096 % 64), byteOf (0x80 + n / 64 % 64),
        byteOf (0x80 + n % 64)]

/-- Go's conversion `string(rs)` of a rune slice. -/
def runesToString (rs : List Rune) : Str := rs.flatMap encodeRune

/-- The bytes of a string literal (its UTF-8 encoding). -/
def bytesOf (s : String) : Str := runesToString (s.toList.map fun c => (c.toNat : Int))

/-- Lowest second byte `utf8.DecodeRuneInString` accepts after the first byte `s0`
(the `lo` of the accept range of `s0`). -/
def acceptLo (s0 : Nat) : Nat :=
  if s0 = 0xE0 then 0xA0 else if s0 = 0xF0 then 0x90 else 0x80

/-- Highest second byte `utf8.DecodeRuneInString` accepts after the first byte `s0`
(the `hi` of the accept range of `s0`). -/
def acceptHi (s0 : Nat) : Nat :=
  if s0 = 0xED then 0x9F else if s0 = 0xF4 then 0x8F else 0xBF

/-- The continuation-byte test `locb ≤ b ≤ hicb` of package `utf8`. -/
def isCont (b : Nat) : Bool := 0x80 ≤ b && b ≤ 0xBF

/-- Go's `utf8.DecodeRuneInString`: the first rune of `s` and its width in bytes;
`(RuneError, 0)` for the empty string and `(RuneError, 1)` for an invalid or
truncated encoding. -/
def DecodeRuneInString : Str → Rune × Nat
  | [] => (RuneError, 0)
  | s0 :: rest =>
    if s0.val < 0x80 then ((s0.val : Int), 1)
    else if s0.val < 0xC2 then (RuneError, 1)
    else if s0.val < 0xE0 then
      match rest with
      | s1 :: _ =>
        if acceptLo s0.val ≤ s1.val ∧ s1.val ≤ acceptHi s0.val then
          (((s0.val % 32 * 64 + s1.val % 64 : Nat) : Int), 2)
        else (RuneError, 1)
      | _ => (RuneError, 1)
    else if s0.val < 0xF0 then
      match rest with
      | s1 :: s2 :: _ =>
        if acceptLo s0.val ≤ s1.val ∧ s1.val ≤ acceptHi s0.val ∧ isCont s2.val then
          (((s0.val % 16 * 4096 + s1.val % 64 * 64 + s2.val % 64 : Nat) : Int), 3)
        else (RuneError, 1)
      | _ => (RuneError, 1)
    else if s0.val < 0xF5 then
      match rest with
      | s1 :: s2 :: s3 :: _ =>
        if acceptLo s0.val ≤ s1.val ∧ s1.val ≤ acceptHi s0.val ∧ isCont s2.val
            ∧ isCont s3.val then
          (((s0.val % 8 * 262144 + s1.val % 64 * 4096 + s2.val % 64 * 64 + s3.val % 64 : Nat)
            : Int), 4)
        else (RuneError, 1)
      | _ => (RuneError, 1)
    else (RuneError, 1)

/-- Go's `unicode.IsSpace`: the Unicode White_Space property. -/
def IsSpace (r : Rune) : Bool :=
  (9 ≤ r && r ≤ 13) || r == 32 || r == 0x85 || r == 0xA0 || r == 0x1680
    || (0x2000 ≤ r && r ≤ 0x200A) || r == 0x2028 || r == 0x2029 || r == 0x202F
    || r == 0x205F || r == 0x3000

/-- Go's `strings.HasPrefix`. -/
def HasPrefix (s pre : Str) : Bool := pre.isPrefixOf s

/-- Go's `strings.Index`: the index of the first occurrence of `substr` in `s`,
or `-1` when there is none. -/
def Index : Str → Str → Int
  | [], substr => if substr.isEmpty then 0 else -1
  | c :: s, substr =>
    if HasPrefix (c :: s) substr then 0
    else
      let i := Index s substr
      if i < 0 then -1 else i + 1

/-- Go's `strings.Contains`, which is `Index(s, substr) >= 0`. -/
def Contains (s substr : Str) : Bool := 0 ≤ Index s substr

/-- The helper `trimLeftByte` of package `strings`: drop every leading `c`. -/
def trimLeftByte (s : Str) (c : Byte) : Str := s.dropWhile (· == c)

/-- The helper `trimRightByte` of package `strings`: drop every trailing `c`. -/
def trimRightByte (s : Str) (c : Byte) : Str := (s.reverse.dropWhile (· == c)).reverse

/-- Go's `strings.Trim(s, cutset)` for a cutset of one ASCII byte `c`, the only way
the engine calls it: every leading and every trailing `c` is removed. -/
def Trim (s : Str) (c : Byte) : Str := trimLeftByte (trimRightByte s c) c

/-! ## Constants -/

/-- The constant `defExt`. -/
def defExt : Str := bytesOf ".exec"

/-- The constant `LBrc`, a raw string literal: the four characters backslash, 1, 2, 3. -/
def LBrc : Str := bytesOf "\\123"

/-- The constant `RBrc`, a raw string literal: the four characters backslash, 1, 2, 5. -/
def RBrc : Str := bytesOf "\\125"

/-- The constant `eof`. -/
def eof : Rune := -1

/-- The constant `newline`. -/
def newline : Rune := 10

/-- The constant `leftDelim = LBrc + LBrc`. -/
def leftDelim : Str := LBrc ++ LBrc

/-- The constant `rightDelim = RBrc + RBrc`. -/
def rightDelim : Str := RBrc ++ RBrc

/-! ## The expansion context -/

/-- The type `scanfunc`: a scanning state, named after the Go function it stands for.
The nil `scanfunc` is `none : Option scanfunc`. -/
inductive scanfunc where
  | scanText | scanForFunc | scanToEnd | scanComment
  | clipFunc | envFunc | execFunc | fileFunc | varFunc | letFunc
  deriving DecidableEq, Repr

/-- The struct `template`. The Go maps `vars` and `funcs` are association lists read
from the front; a missing key reads as the zero value. -/
structure template where
  text : Str
  expanded : Str
  vars : List (Str × Str)
  funcs : List (Str × scanfunc)
  pos : Nat
  i : Int
  width : Nat
  line : Int
  deriving DecidableEq, Repr

/-- The collaborators of the engine: `os.Getenv`, the error test of
`clipboard.Init()` (`clipInit` is true when it returned no error),
`clipboard.Read(clipboard.FmtText)`, the captured output of
`script.Exec(cmd).String()` and `os.ReadFile` (`none` when it returned an error). -/
structure World where
  getenv : Str → Str
  clipInit : Bool
  clipRead : Str
  exec : Str → Str
  readFile : Str → Option Str

namespace template

/-- The method `next`. -/
def next (t : template) : Rune × template :=
  if t.pos ≥ t.text.length then (eof, { t with width := 0 })
  else
    let rw := DecodeRuneInString (t.text.drop t.pos)
    let t1 := { t with width := rw.2, pos := t.pos + rw.2 }
    if rw.1 = newline then (rw.1, { t1 with line := t1.line + 1 }) else (rw.1, t1)

/-- The method `peek`. -/
def peek (t : template) : Rune × template :=
  if t.pos ≥ t.text.length then (eof, { t with width := 0 })
  else ((DecodeRuneInString (t.text.drop t.pos)).1, t)

/-- The method `backup`. The byte `t.text[t.pos]` is read only when `t.width == 1`. -/
def backup (t : template) : template :=
  let t1 := { t with pos := t.pos - t.width }
  if t1.width = 1 ∧ t1.text.get? t1.pos = some (byteOf 10) then { t1 with line := t1.line - 1 }
  else t1

/-- The loop of `skipws`, for at most `fuel` characters. -/
def skipwsLoop : Nat → template → template
  | 0, t => t
  | fuel + 1, t =>
    let rt := t.next
    if !IsSpace rt.1 then rt.2.backup else skipwsLoop fuel rt.2

/-- The method `skipws`. Every turn of its loop but the last consumes at least one
byte, so `len(text) + 1` turns are enough. -/
def skipws (t : template) : template := skipwsLoop (t.text.length + 1) t

/-- The method `puts`. -/
def puts (t : template) (word : Str) : template := { t with expanded := t.expanded ++ word }

/-- The method `storeVar`. -/
def storeVar (t : template) (v val : Str) : template := { t with vars := (v, val) :: t.vars }

/-- The method `getVar`. -/
def getVar (t : template) (v : Str) : Str := (t.vars.lookup v).getD []

/-- The method `Pos`. -/
def Pos (t : template) : Nat := t.pos

/-- The method `insert`. -/
def insert (t : template) (s : Str) : template :=
  let lhs := t.text.take t.Pos
  let rhs := t.text.drop t.Pos
  { t with text := lhs ++ s ++ rhs }

/-- The loop `for j := pos; j < pos+i; j++ { ret = append(ret, t.next()) }` of
`toNextDelim`, which runs `i` times. -/
def toNextDelimLoop : Nat → template → List Rune → List Rune × template
  | 0, t, ret => (ret, t)
  | i + 1, t, ret => toNextDelimLoop i t.next.2 (ret ++ [t.next.1])

/-- The method `toNextDelim`: the string, the position result and the context. -/
def toNextDelim (t : template) (delim : Str) : Str × Int × template :=
  if Contains (t.text.drop t.Pos) delim then
    let i := Index (t.text.drop t.Pos) delim
    let rt := toNextDelimLoop i.toNat t []
    (runesToString rt.1, (rt.2.Pos : Int), rt.2)
  else (t.text.drop t.Pos, eof, t)

end template

/-- The loop `for i := 0; i < len(delim); i++ { _ = t.next(); n++ }` of `getToDelim`. -/
def getToDelimLoop : Nat → Int → template → Int × template
  | 0, n, t => (n, t)
  | k + 1, n, t => getToDelimLoop k (n + 1) t.next.2

/-- The function `getToDelim`. -/
def getToDelim (t : template) (delim : Str) : Str × Int × template :=
  let r := t.toNextDelim delim
  let nt := getToDelimLoop delim.length r.2.1 r.2.2
  (r.1, nt.1, nt.2)

/-- The loop of `getNextWord`, for at most `fuel` turns. -/
def getNextWordLoop : Nat → template → List Rune → List Rune × template
  | 0, t, ret => (ret, t)
  | fuel + 1, t, ret =>
    let r := t.next.1
    let t1 := t.next.2
    if r = eof then (ret, t1)
    else if IsSpace r then (ret, t1.backup)
    else if r = 47 ∧ t1.peek.1 = 42 then
      (ret ++ [r, t1.peek.2.next.1], t1.peek.2.next.2)
    else if r = 47 then getNextWordLoop fuel t1.peek.2 (ret ++ [r])
    else if r = 125 ∧ t1.peek.1 = 125 then (ret, t1.peek.2.backup)
    else if r = 125 then getNextWordLoop fuel t1.peek.2 (ret ++ [r])
    else getNextWordLoop fuel t1 (ret ++ [r])

/-- The function `getNextWord`. Every turn of its loop that does not leave it
consumes at least one byte, so `len(text) + 1` turns are enough. -/
def getNextWord (t : template) : Str × template :=
  let t1 := t.skipws
  let rt := getNextWordLoop (t1.text.length + 1) t1 []
  (runesToString rt.1, rt.2)

/-! ## Scanning states and directive handlers -/

/-- The function `scanText`. -/
def scanText (t : template) : Option scanfunc × template :=
  let r := getToDelim t leftDelim
  let t1 := r.2.2.puts r.1
  if r.2.1 > 0 then (some scanfunc.scanForFunc, t1) else (none, t1)

/-- The function `scanForFunc`. -/
def scanForFunc (t : template) : Option scanfunc × template :=
  let r := getNextWord t
  if r.1 = bytesOf "/*" then (some scanfunc.scanComment, r.2)
  else (r.2.funcs.lookup r.1, r.2)

/-- The function `scanToEnd`. -/
def scanToEnd (t : template) : Option scanfunc × template :=
  (some scanfunc.scanText, (getToDelim t rightDelim).2.2)

/-- The function `scanComment`. -/
def scanComment (t : template) : Option scanfunc × template := scanToEnd t

/-- The function `clipFunc`. -/
def clipFunc (w : World) (t : template) : Option scanfunc × template :=
  if w.clipInit then
    let clip := bytesOf "//---------------\n" ++ w.clipRead
    if clip.length = 0 then (some scanfunc.scanToEnd, t.puts (bytesOf "clipboard"))
    else (some scanfunc.scanToEnd, t.puts clip)
  else (some scanfunc.scanToEnd, t)

/-- The function `envFunc`. -/
def envFunc (w : World) (t : template) : Option scanfunc × template :=
  let r := getNextWord t
  let word := r.1
  if word.length = 0 then (some scanfunc.scanToEnd, r.2)
  else if !HasPrefix word (bytesOf "$") then (some scanfunc.scanToEnd, r.2.puts word)
  else
    let en := w.getenv (word.drop 1)
    if en.length = 0 then (some scanfunc.scanToEnd, r.2.puts word)
    else (some scanfunc.scanToEnd, r.2.puts en)

/-- The function `execFunc`. -/
def execFunc (w : World) (t : template) : Option scanfunc × template :=
  let r := getToDelim t rightDelim
  let cmd := r.1
  if cmd.length > 0 then
    (some scanfunc.scanText, r.2.2.insert (Trim (w.exec cmd) (byteOf 10)))
  else (some scanfunc.scanText, r.2.2)

/-- The function `fileFunc`. -/
def fileFunc (w : World) (t : template) : Option scanfunc × template :=
  let r := getNextWord t
  let t1 := (getToDelim r.2 rightDelim).2.2
  match w.readFile r.1 with
  | none => (none, t1)
  | some f => (some scanfunc.scanText, t1.insert f)

/-- The function `letFunc`. -/
def letFunc (t : template) : Option scanfunc × template :=
  let r := getNextWord t
  let d := getToDelim r.2 rightDelim
  (some scanfunc.scanText, d.2.2.storeVar r.1 (Trim d.1 (byteOf 32)))

/-- The function `varFunc`. -/
def varFunc (t : template) : Option scanfunc × template :=
  let r := getNextWord t
  let val := r.2.getVar r.1
  if val.length > 0 then (some scanfunc.scanToEnd, r.2.puts val)
  else (some scanfunc.scanToEnd, r.2.puts r.1)

/-- The map `funcMap` built by `parse`. -/
def funcMap : List (Str × scanfunc) :=
  [(bytesOf "clip", scanfunc.clipFunc), (bytesOf "env", scanfunc.envFunc),
   (bytesOf "exec", scanfunc.execFunc), (bytesOf "file", scanfunc.fileFunc),
   (bytesOf "var", scanfunc.varFunc), (bytesOf "let", scanfunc.letFunc)]

/-- The call `scanf(&tmpl)` of a non-nil `scanfunc`. -/
def scanfunc.call (w : World) : scanfunc → template → Option scanfunc × template
  | scanfunc.scanText, t => Westarver.scanText t
  | scanfunc.scanForFunc, t => Westarver.scanForFunc t
  | scanfunc.scanToEnd, t => Westarver.scanToEnd t
  | scanfunc.scanComment, t => Westarver.scanComment t
  | scanfunc.clipFunc, t => Westarver.clipFunc w t
  | scanfunc.envFunc, t => Westarver.envFunc w t
  | scanfunc.execFunc, t => Westarver.execFunc w t
  | scanfunc.fileFunc, t => Westarver.fileFunc w t
  | scanfunc.varFunc, t => Westarver.varFunc t
  | scanfunc.letFunc, t => Westarver.letFunc t

/-- The context `tmpl` that `parse` builds from the input bytes. -/
def newTemplate (b : Str) : template :=
  { text := b, expanded := [], vars := [], funcs := funcMap, pos := 0, i := 0, width := 0,
    line := 0 }

/-- The loop `for { if scanf == nil { break }; scanf = scanf(&tmpl) }` of `parse`,
cut off after `fuel` calls: `none` when the loop has not reached nil by then. -/
def parseLoop (w : World) : Nat → Option scanfunc → template → Option template
  | _, none, t => some t
  | 0, some _, _ => none
  | fuel + 1, some f, t => parseLoop w fuel (f.call w t).1 (f.call w t).2

/-- The state machine of `parse`: the context when the loop ends, within `fuel` calls. -/
def parse (w : World) (fuel : Nat) (b : Str) : Option template :=
  parseLoop w fuel (scanText (newTemplate b)).1 (scanText (newTemplate b)).2

/-- The call of a non-nil `scanfunc` that reads nothing of the world; `none` for the
four handlers that do (`clipFunc`, `envFunc`, `execFunc`, `fileFunc`). -/
def scanfunc.callPure : scanfunc → template → Option (Option scanfunc × template)
  | scanfunc.scanText, t => some (Westarver.scanText t)
  | scanfunc.scanForFunc, t => some (Westarver.scanForFunc t)
  | scanfunc.scanToEnd, t => some (Westarver.scanToEnd t)
  | scanfunc.scanComment, t => some (Westarver.scanComment t)
  | scanfunc.varFunc, t => some (Westarver.varFunc t)
  | scanfunc.letFunc, t => some (Westarver.letFunc t)
  | _, _ => none

/-- The loop of `parse` as long as it reads nothing of the world: `none` when the
world would be read, otherwise the result of `parseLoop` in every world. -/
def parseLoopPure : Nat → Option scanfunc → template → Option (Option template)
  | _, none, t => some (some t)
  | 0, some _, _ => some none
  | fuel + 1, some f, t =>
    match f.callPure t with
    | none => none
    | some r => parseLoopPure fuel r.1 r.2

/-- A world whose command runner answers every command with the output `o`, with no
environment variable set, no clipboard and no readable file. -/
def World.answering (o : Str) : World :=
  { getenv := fun _ => [], clipInit := false, clipRead := [], exec := fun _ => o,
    readFile := fun _ => none }

/-- Trimming as the specification words it for `exec`: one trailing newline is removed
if there is one, and the text is otherwise unchanged. -/
def trimOneTrailingNewline (o : Str) : Str :=
  if o.getLast? = some (byteOf 10) then o.dropLast else o

/-- Whether the string is nothing but the beginning of a multi-byte UTF-8 sequence
that `utf8.DecodeRuneInString` would accept if more bytes followed: what its first
character is then depends on the text after it. -/
def truncatedHead : Str → Bool
  | [s0] => 0xC2 ≤ s0.val && s0.val < 0xF5
  | [s0, s1] =>
    0xE0 ≤ s0.val && s0.val < 0xF5 && acceptLo s0.val ≤ s1.val && s1.val ≤ acceptHi s0.val
  | [s0, s1, s2] =>
    0xF0 ≤ s0.val && s0.val < 0xF5 && acceptLo s0.val ≤ s1.val && s1.val ≤ acceptHi s0.val
      && isCont s2.val
  | _ => false

/-! ## The characters ahead of the cursor -/

/-- The characters of a string, each with its width in bytes, as repeated calls of
`utf8.DecodeRuneInString` read them (at most `fuel` of them). -/
def charsLoop : Nat → Str → List (Rune × Nat)
  | 0, _ => []
  | _ + 1, [] => []
  | fuel + 1, b :: s =>
    DecodeRuneInString (b :: s) :: charsLoop fuel ((b :: s).drop (DecodeRuneInString (b :: s)).2)

/-- The characters of a string with their widths; a string has at most as many
characters as bytes. -/
def chars (s : Str) : List (Rune × Nat) := charsLoop s.length s

/-- The characters of the buffer from `pos` on, with their widths. -/
def template.rest (t : template) : List (Rune × Nat) := chars (t.text.drop t.pos)

/-- The runes of a list of characters with widths. -/
def runesIn (cs : List (Rune × Nat)) : List Rune := cs.map Prod.fst

/-- The number of bytes a list of characters with widths takes. -/
def widthSum (cs : List (Rune × Nat)) : Nat := (cs.map Prod.snd).sum

/-- Whether a character with its width is whitespace. -/
def isSpaceChar (c : Rune × Nat) : Bool := IsSpace c.1

/-- As the specification words it: the index of the first whitespace character, or
the length of the list when there is none. -/
def firstSpace : List Rune → Nat
  | [] => 0
  | r :: rest => if IsSpace r then 0 else firstSpace rest + 1

/-- As the specification words it: the index of the first character `a` immediately
followed by `b`, or the length of the list when there is no such pair. -/
def firstPair (a b : Rune) : List Rune → Nat
  | [] => 0
  | [_] => 1
  | x :: y :: rest => if x = a ∧ y = b then 0 else firstPair a b (y :: rest) + 1

/-- As the specification words it: the number of characters of the word at the front
of `l`, which ends at whichever comes first of: just before the first whitespace
character, just before the first pair of closing braces, just after the first pair
slash-star, or the end of `l`. -/
def wordLen (l : List Rune) : Nat :=
  min (firstSpace l) (min (firstPair 125 125 l) (firstPair 47 42 l + 2))

/-- The word at the front of a list of characters as the loop of `getNextWord` reads
it: the characters it appends to `ret`. -/
def wordChars : List (Rune × Nat) → List (Rune × Nat)
  | [] => []
  | c :: rest =>
    if IsSpace c.1 then []
    else if c.1 = 47 ∧ (runesIn rest).head? = some 42 then c :: rest.take 1
    else if c.1 = 125 ∧ (runesIn rest).head? = some 125 then []
    else c :: wordChars rest

/-! ## The engine with its run-time checks

The same functions with the checks Go makes when it runs them: a slice `text[a:]`
or `text[:a]` needs `a ≤ len(text)`, an index `text[a]` needs `a < len(text)`, and
`pos` must not become negative. A failed check is `none`. The methods `next` and
`peek` slice `text[pos:]` only after testing `pos < len(text)`, so they have no check
of their own. -/

/-- The method `backup` with its checks: `pos - width` must not be negative, and the
index `text[pos]` is evaluated when `width == 1`. -/
def template.backupChecked (t : template) : Option template :=
  if t.width ≤ t.pos then
    if t.width = 1 then
      if t.pos - t.width < t.text.length then some t.backup else none
    else some t.backup
  else none

/-- The loop of `skipws` with the checks of its `backup`. -/
def template.skipwsLoopChecked : Nat → template → Option template
  | 0, t => some t
  | fuel + 1, t =>
    if !IsSpace t.next.1 then t.next.2.backupChecked
    else template.skipwsLoopChecked fuel t.next.2

/-- The method `skipws` with its checks. -/
def template.skipwsChecked (t : template) : Option template :=
  template.skipwsLoopChecked (t.text.length + 1) t

/-- The method `insert` with the checks of its slices `text[:pos]` and `text[pos:]`. -/
def template.insertChecked (t : template) (s : Str) : Option template :=
  if t.pos ≤ t.text.length then some (t.insert s) else none

/-- The method `toNextDelim` with the check of its slices `text[pos:]`; its loop
only calls `next`. -/
def template.toNextDelimChecked (t : template) (delim : Str) : Option (Str × Int × template) :=
  if t.pos ≤ t.text.length then some (t.toNextDelim delim) else none

/-- The function `getToDelim` with its checks; its loop only calls `next`. -/
def getToDelimChecked (t : template) (delim : Str) : Option (Str × Int × template) :=
  (t.toNextDelimChecked delim).map fun r =>
    (r.1, (getToDelimLoop delim.length r.2.1 r.2.2).1, (getToDelimLoop delim.length r.2.1 r.2.2).2)

/-- The loop of `getNextWord` with the checks of its two calls of `backup`. -/
def getNextWordLoopChecked : Nat → template → List Rune → Option (List Rune × template)
  | 0, t, ret => some (ret, t)
  | fuel + 1, t, ret =>
    let r := t.next.1
    let t1 := t.next.2
    if r = eof then some (ret, t1)
    else if IsSpace r then t1.backupChecked.map fun t2 => (ret, t2)
    else if r = 47 ∧ t1.peek.1 = 42 then
      some (ret ++ [r, t1.peek.2.next.1], t1.peek.2.next.2)
    else if r = 47 then getNextWordLoopChecked fuel t1.peek.2 (ret ++ [r])
    else if r = 125 ∧ t1.peek.1 = 125 then t1.peek.2.backupChecked.map fun t2 => (ret, t2)
    else if r = 125 then getNextWordLoopChecked fuel t1.peek.2 (ret ++ [r])
    else getNextWordLoopChecked fuel t1 (ret ++ [r])

/-- The function `getNextWord` with its checks. -/
def getNextWordChecked (t : template) : Option (Str × template) :=
  t.skipwsChecked.bind fun t1 =>
    (getNextWordLoopChecked (t1.text.length + 1) t1 []).map fun rt => (runesToString rt.1, rt.2)

/-- The function `scanText` with its checks. -/
def scanTextChecked (t : template) : Option (Option scanfunc × template) :=
  (getToDelimChecked t leftDelim).map fun r =>
    if r.2.1 > 0 then (some scanfunc.scanForFunc, r.2.2.puts r.1) else (none, r.2.2.puts r.1)

/-- The function `scanForFunc` with its checks. -/
def scanForFuncChecked (t : template) : Option (Option scanfunc × template) :=
  (getNextWordChecked t).map fun r =>
    if r.1 = bytesOf "/*" then (some scanfunc.scanComment, r.2)
    else (r.2.funcs.lookup r.1, r.2)

/-- The function `scanToEnd` with its checks. -/
def scanToEndChecked (t : template) : Option (Option scanfunc × template) :=
  (getToDelimChecked t rightDelim).map fun r => (some scanfunc.scanText, r.2.2)

/-- The function `scanComment` with its checks. -/
def scanCommentChecked (t : template) : Option (Option scanfunc × template) :=
  scanToEndChecked t

/-- The function `clipFunc`, which reads nothing of the buffer. -/
def clipFuncChecked (w : World) (t : template) : Option (Option scanfunc × template) :=
  some (clipFunc w t)

/-- The function `envFunc` with its checks, the slice `word[1:]` included. -/
def envFuncChecked (w : World) (t : template) : Option (Option scanfunc × template) :=
  (getNextWordChecked t).bind fun r =>
    if r.1.length = 0 then some (some scanfunc.scanToEnd, r.2)
    else if !HasPrefix r.1 (bytesOf "$") then some (some scanfunc.scanToEnd, r.2.puts r.1)
    else if 1 ≤ r.1.length then
      if (w.getenv (r.1.drop 1)).length = 0 then some (some scanfunc.scanToEnd, r.2.puts r.1)
      else some (some scanfunc.scanToEnd, r.2.puts (w.getenv (r.1.drop 1)))
    else none

/-- The function `execFunc` with its checks. -/
def execFuncChecked (w : World) (t : template) : Option (Option scanfunc × template) :=
  (getToDelimChecked t rightDelim).bind fun r =>
    if r.1.length > 0 then
      (r.2.2.insertChecked (Trim (w.exec r.1) (byteOf 10))).map fun t1 =>
        (some scanfunc.scanText, t1)
    else some (some scanfunc.scanText, r.2.2)

/-- The function `fileFunc` with its checks. -/
def fileFuncChecked (w : World) (t : template) : Option (Option scanfunc × template) :=
  (getNextWordChecked t).bind fun r =>
    (getToDelimChecked r.2 rightDelim).bind fun d =>
      match w.readFile r.1 with
      | none => some (none, d.2.2)
      | some f => (d.2.2.insertChecked f).map fun t1 => (some scanfunc.scanText, t1)

/-- The function `letFunc` with its checks. -/
def letFuncChecked (t : template) : Option (Option scanfunc × template) :=
  (getNextWordChecked t).bind fun r =>
    (getToDelimChecked r.2 rightDelim).map fun d =>
      (some scanfunc.scanText, d.2.2.storeVar r.1 (Trim d.1 (byteOf 32)))

/-- The function `varFunc` with its checks. -/
def varFuncChecked (t : template) : Option (Option scanfunc × template) :=
  (getNextWordChecked t).map fun r =>
    if (r.2.getVar r.1).length > 0 then (some scanfunc.scanToEnd, r.2.puts (r.2.getVar r.1))
    else (some scanfunc.scanToEnd, r.2.puts r.1)

/-- The call `scanf(&tmpl)` of a non-nil `scanfunc` with its checks. -/
def scanfunc.callChecked (w : World) :
    scanfunc → template → Option (Option scanfunc × template)
  | scanfunc.scanText, t => scanTextChecked t
  | scanfunc.scanForFunc, t => scanForFuncChecked t
  | scanfunc.scanToEnd, t => scanToEndChecked t
  | scanfunc.scanComment, t => scanCommentChecked t
  | scanfunc.clipFunc, t => clipFuncChecked w t
  | scanfunc.envFunc, t => envFuncChecked w t
  | scanfunc.execFunc, t => execFuncChecked w t
  | scanfunc.fileFunc, t => fileFuncChecked w t
  | scanfunc.varFunc, t => varFuncChecked t
  | scanfunc.letFunc, t => letFuncChecked t

/-! ## The line counter and the text before the cursor -/

/-- The number of newline characters (bytes 0A) of a string. -/
def newlines (s : Str) : Nat := s.count (byteOf 10)

/-- The line counter equals the number of newline characters of the consumed part
`text[:pos]`, with `pos` inside the text. -/
def lineCounts (t : template) : Prop :=
  t.pos ≤ t.text.length ∧ t.line = (newlines (t.text.take t.pos) : Int)

/-- What `backup` relies on: the last `width` bytes before `pos` are the character
read last, and the line counter has counted it when it is a newline. -/
def lastRead (t : template) : Prop :=
  t.width ≤ t.pos ∧ t.pos ≤ t.text.length
    ∧ t.line = (newlines (t.text.take (t.pos - t.width)) : Int)
        + (if t.width = 1 ∧ t.text.get? (t.pos - t.width) = some (byteOf 10) then 1 else 0)

/-! ## The measure of the state loop -/

/-- One context follows another in a run whose insertions are empty: same text, same
functions, and the cursor not further back. -/
def advances (t u : template) : Prop :=
  u.text = t.text ∧ u.funcs = t.funcs ∧ t.pos ≤ u.pos

/-- A bound on the number of calls the loop of `parse` still makes when it is about to
call the given state with `d` bytes of text left: a round from text-mode to text-mode
has at most four calls and consumes at least one byte. -/
def stepsBound : scanfunc → Nat → Nat
  | scanfunc.scanText, d => 4 * d + 2
  | scanfunc.scanForFunc, d => 4 * d + 5
  | scanfunc.clipFunc, d => 4 * d + 4
  | scanfunc.envFunc, d => 4 * d + 4
  | scanfunc.varFunc, d => 4 * d + 4
  | _, d => 4 * d + 3

/-! ## Pairing templates with output names -/

/-- Go's `strings.HasSuffix`. -/
def HasSuffix (s suf : Str) : Bool := suf.isSuffixOf s

/-- Go's `strings.TrimSuffix`. -/
def TrimSuffix (s suf : Str) : Str :=
  if HasSuffix s suf then s.take (s.length - suf.length) else s

/-- Go's `strings.Split(s, sep)` for a separator `sep` of one byte: the pieces of `s`
between the occurrences of `sep`, at least one piece. -/
def Split : Str → Byte → List Str
  | [], _ => [[]]
  | x :: xs, sep =>
    if x = sep then [] :: Split xs sep
    else
      match Split xs sep with
      | piece :: pieces => (x :: piece) :: pieces
      | [] => [[x]]

/-- The index just after the last `/` of `path`, 0 when it has none. -/
def afterLastSlash (path : Str) : Nat :=
  path.length - (path.reverse.takeWhile (fun c => c != byteOf 47)).length

/-- Go's `filepath.Split` on a system whose separator is `/`: the part up to and with
the last `/`, and the part after it. -/
def filepathSplit (path : Str) : Str × Str :=
  (path.take (afterLastSlash path), path.drop (afterLastSlash path))

/-- Go's `filepath.Base` on a system whose separator is `/`. -/
def Base (path : Str) : Str :=
  if path = [] then bytesOf "."
  else
    let p := (path.reverse.dropWhile (fun c => c == byteOf 47)).reverse
    let q := p.drop (afterLastSlash p)
    if q = [] then bytesOf "/" else q

/-- Go's `filepath.Ext` on a system whose separator is `/`: the part of the last
element of `path` from its last dot on, empty when it has no dot. -/
def Ext (path : Str) : Str :=
  let last := path.reverse.takeWhile (fun c => c != byteOf 47)
  if byteOf 46 ∈ last then
    path.drop (path.length - ((last.takeWhile (fun c => c != byteOf 46)).length + 1))
  else []

/-- The struct `pair` of the source; its field `in` is `in_` here. -/
structure pair where
  in_ : Str
  out : Str
  deriving DecidableEq, Repr

/-- The pairs of byte index and rune that `for i, c := range s` goes through, for the
characters `cs` of `s` from byte index `i` on. -/
def rangeFrom : Nat → List (Rune × Nat) → List (Nat × Rune)
  | _, [] => []
  | i, c :: cs => (i, c.1) :: rangeFrom (i + c.2) cs

/-- The pairs of byte index and rune of `for i, c := range s`. -/
def rangeString (s : Str) : List (Nat × Rune) := rangeFrom 0 (chars s)

/-- The string `direct` of `matchio`: the characters of `ss[0]` other than `/`, each
appended as `string(c)`. -/
def directOf (ss0 : Str) : Str :=
  runesToString ((runesIn (chars ss0)).filter (fun c => c ≠ 47))

/-- The directive letters `d`, `p`, `S`, `n`, `e`, `s` of the `switch op`; any other
character takes the `default` case, which reads no argument. -/
def isOp (op : Rune) : Bool :=
  op = 100 ∨ op = 112 ∨ op = 83 ∨ op = 110 ∨ op = 101 ∨ op = 115

/-- The case of the `switch op` for a directive letter `op`, with `a = args[argnum]`:
the new value of `tmp`. -/
def opBody (op : Rune) (a : Str) (tmp : Str) : Str :=
  if op = 100 then
    let d := if !HasSuffix a (bytesOf "/") then a ++ bytesOf "/" else a
    let tmp1 := if HasPrefix tmp (bytesOf "../") then tmp.drop 2 else tmp
    let tmp2 := if HasPrefix tmp1 (bytesOf "./") then tmp1.drop 1 else tmp1
    d ++ tmp2
  else if op = 112 then (filepathSplit tmp).1 ++ a ++ Base tmp
  else if op = 83 then
    (filepathSplit tmp).1 ++ TrimSuffix (Base tmp) (Ext tmp) ++ a ++ Ext tmp
  else if op = 110 then (filepathSplit tmp).1 ++ a ++ Ext tmp
  else if op = 101 then
    let e := if !HasPrefix a (bytesOf ".") then bytesOf "." ++ a else a
    let e1 := if e = bytesOf "./" then [] else e
    (filepathSplit tmp).1 ++ TrimSuffix (Base tmp) (Ext tmp) ++ e1
  else tmp ++ a

/-- The loop `for argnum, op := range direct` of `matchio`, from the value `tmp`. -/
def wildcardLoop (args : List Str) : List (Nat × Rune) → Str → Str
  | [], tmp => tmp
  | (argnum, op) :: rest, tmp =>
    if isOp op then wildcardLoop args rest (opBody op (args.getD argnum []) tmp)
    else wildcardLoop args rest tmp

/-- One turn of the loop `for i, m := range matched` of `matchio`: the value of
`matched[i].out` after it. -/
def wildcardOut (m : pair) : Str :=
  if HasPrefix m.out (bytesOf "/") then
    if m.out.length > 1 ∧ m.out[1]? = some (byteOf 47) then m.out.drop 1
    else
      let ss := Split m.out (byteOf 32)
      let direct := directOf (ss.headD [])
      let args := ss.drop 1
      if args.length < direct.length then m.in_ ++ defExt
      else
        let tmp := wildcardLoop args (rangeString direct) m.in_
        if m.out.length = 0 then m.in_ ++ defExt else tmp
  else m.out

/-- The output name that the pairing loops of `matchio` assign to `matched[i]`, for
`olen > 0`: `outs[i]` while there are outs, then the last one. -/
def assignedOut (outs : List Str) (mismatch : Int) (i : Nat) : Str :=
  if mismatch = 0 then outs.getD i []
  else if i < outs.length then outs.getD i [] else outs.getD (outs.length - 1) []

/-- The pairing loops of `matchio` on the elements of `matched` from index `i` on. -/
def assignOuts (outs : List Str) (mismatch : Int) : Nat → List pair → List pair
  | _, [] => []
  | i, m :: ms => { m with out := assignedOut outs mismatch i } :: assignOuts outs mismatch (i + 1) ms

/-- The function `matchio`. -/
def matchio (ins outs : List Str) : List pair :=
  let matched := ins.map (fun f => ({ in_ := f, out := bytesOf "x" } : pair))
  let ilen : Int := ins.length
  let olen : Int := outs.length
  if olen = 0 then matched.map (fun m => { m with out := m.in_ ++ defExt })
  else
    let mismatch := if ilen - olen < 0 then 0 else ilen - olen
    (assignOuts outs mismatch 0 matched).map (fun m => { m with out := wildcardOut m })

/-! ## The pairing with its run-time checks -/

/-- The assignment `matched[i].out = v` with its index check. -/
def setOutChecked (matched : List pair) (i : Nat) (v : Str) : Option (List pair) :=
  match matched[i]? with
  | some m => some (matched.set i { m with out := v })
  | none => none

/-- A loop `for i := lo; i < lo + k; i++ { matched[i].out = f(matched, i) }` with the
checks of `f` and of the assignment. -/
def forOutChecked (f : List pair → Nat → Option Str) : Nat → Nat → List pair → Option (List pair)
  | 0, _, matched => some matched
  | k + 1, i, matched =>
    (f matched i).bind fun v =>
      (setOutChecked matched i v).bind fun matched1 => forOutChecked f k (i + 1) matched1

/-- The slice `s[n:]` with its bounds check. -/
def sliceFromChecked (s : Str) (n : Nat) : Option Str :=
  if n ≤ s.length then some (s.drop n) else none

/-- The case of the `switch op` for a directive letter, with the checks of `tmp[2:]`
and `tmp[1:]`. -/
def opBodyChecked (op : Rune) (a : Str) (tmp : Str) : Option Str :=
  if op = 100 then
    let d := if !HasSuffix a (bytesOf "/") then a ++ bytesOf "/" else a
    (if HasPrefix tmp (bytesOf "../") then sliceFromChecked tmp 2 else some tmp).bind fun tmp1 =>
      (if HasPrefix tmp1 (bytesOf "./") then sliceFromChecked tmp1 1 else some tmp1).bind
        fun tmp2 => some (d ++ tmp2)
  else some (opBody op a tmp)

/-- The loop `for argnum, op := range direct` with the check of `args[argnum]`. -/
def wildcardLoopChecked (args : List Str) : List (Nat × Rune) → Str → Option Str
  | [], tmp => some tmp
  | (argnum, op) :: rest, tmp =>
    if isOp op then
      (args[argnum]?).bind fun a =>
        (opBodyChecked op a tmp).bind fun tmp1 => wildcardLoopChecked args rest tmp1
    else wildcardLoopChecked args rest tmp

/-- The test `len(out) > 1 && out[1] == '/'` with the check of `out[1]`, which is
evaluated only when the length test holds. -/
def rootedChecked (out : Str) : Option Bool :=
  if out.length > 1 then (out[1]?).bind fun c => some (c == byteOf 47) else some false

/-- One turn of the loop `for i, m := range matched` with the checks of `m.out[1]`,
`m.out[1:]`, `ss[0]`, `ss[1:]` and of the wildcard loop. -/
def wildcardOutChecked (m : pair) : Option Str :=
  if HasPrefix m.out (bytesOf "/") then
    (rootedChecked m.out).bind fun rooted =>
      if rooted then sliceFromChecked m.out 1
      else
        let ss := Split m.out (byteOf 32)
        (ss[0]?).bind fun ss0 =>
          let direct := directOf ss0
          (if 1 ≤ ss.length then some (ss.drop 1) else none).bind fun args =>
            if args.length < direct.length then some (m.in_ ++ defExt)
            else
              (wildcardLoopChecked args (rangeString direct) m.in_).bind fun tmp =>
                if m.out.length = 0 then some (m.in_ ++ defExt) else some tmp
  else some m.out

/-- The function `matchio` with every index and slice expression checked: `none` when
a check fails. -/
def matchioChecked (ins outs : List Str) : Option (List pair) :=
  let matched := ins.map (fun f => ({ in_ := f, out := bytesOf "x" } : pair))
  let ilen : Int := ins.length
  let olen : Int := outs.length
  if olen = 0 then
    forOutChecked (fun ms i => (ms[i]?).bind fun m => some (m.in_ ++ defExt))
      matched.length 0 matched
  else
    let mismatch := if ilen - olen < 0 then 0 else ilen - olen
    (if mismatch = 0 then forOutChecked (fun _ i => outs[i]?) matched.length 0 matched
     else
      (forOutChecked (fun _ i => outs[i]?) outs.length 0 matched).bind fun matched1 =>
        forOutChecked (fun _ _ => if 1 ≤ outs.length then outs[outs.length - 1]? else none)
          (ins.length - outs.length) outs.length matched1).bind fun matched2 =>
      forOutChecked (fun ms i => (ms[i]?).bind wildcardOutChecked) matched2.length 0 matched2

/-! ## What the cursor primitives leave alone -/

/-- The fields of the context that the cursor primitives never write: the buffer
text, the Output Accumulator, the Variable Store and the Directive Registry. -/
def template.frame (t : template) : Str × Str × List (Str × Str) × List (Str × scanfunc) :=
  (t.text, t.expanded, t.vars, t.funcs)

theorem next_frame (t : template) : t.next.2.frame = t.frame := by
  unfold template.next template.frame
  dsimp only
  split_ifs <;> rfl

theorem peek_frame (t : template) : t.peek.2.frame = t.frame := by
  unfold template.peek template.frame
  split_ifs <;> rfl

theorem backup_frame (t : template) : t.backup.frame = t.frame := by
  unfold template.backup template.frame
  dsimp only
  split_ifs <;> rfl

theorem skipwsLoop_frame (fuel : Nat) (t : template) :
    (template.skipwsLoop fuel t).frame = t.frame := by
  induction fuel generalizing t with
  | zero => rfl
  | succ n ih =>
    unfold template.skipwsLoop
    simp only
    split
    · rw [backup_frame, next_frame]
    · rw [ih, next_frame]

theorem skipws_frame (t : template) : t.skipws.frame = t.frame :=
  skipwsLoop_frame _ t

theorem toNextDelimLoop_frame (i : Nat) (t : template) (ret : List Rune) :
    (template.toNextDelimLoop i t ret).2.frame = t.frame := by
  induction i generalizing t ret with
  | zero => rfl
  | succ n ih =>
    unfold template.toNextDelimLoop
    rw [ih, next_frame]

theorem toNextDelim_frame (t : template) (delim : Str) :
    (t.toNextDelim delim).2.2.frame = t.frame := by
  unfold template.toNextDelim
  split
  · exact toNextDelimLoop_frame _ _ _
  · rfl

theorem getToDelimLoop_frame (k : Nat) (n : Int) (t : template) :
    (getToDelimLoop k n t).2.frame = t.frame := by
  induction k generalizing t n with
  | zero => rfl
  | succ m ih =>
    unfold getToDelimLoop
    rw [ih, next_frame]

theorem getToDelim_frame (t : template) (delim : Str) :
    (getToDelim t delim).2.2.frame = t.frame := by
  unfold getToDelim
  simp only
  rw [getToDelimLoop_frame, toNextDelim_frame]

theorem getNextWordLoop_frame (fuel : Nat) (t : template) (ret : List Rune) :
    (getNextWordLoop fuel t ret).2.frame = t.frame := by
  induction fuel generalizing t ret with
  | zero => rfl
  | succ n ih =>
    unfold getNextWordLoop
    simp only
    split_ifs
    · rw [next_frame]
    · rw [backup_frame, next_frame]
    · rw [next_frame, peek_frame, next_frame]
    · rw [ih, peek_frame, next_frame]
    · rw [backup_frame, peek_frame, next_frame]
    · rw [ih, peek_frame, next_frame]
    · rw [ih, next_frame]

theorem getNextWord_frame (t : template) : (getNextWord t).2.frame = t.frame := by
  unfold getNextWord
  simp only
  rw [getNextWordLoop_frame, skipws_frame]

theorem frame_text {t u : template} (h : t.frame = u.frame) : t.text = u.text :=
  congrArg (fun x => x.1) h

theorem frame_expanded {t u : template} (h : t.frame = u.frame) : t.expanded = u.expanded :=
  congrArg (fun x => x.2.1) h

theorem frame_vars {t u : template} (h : t.frame = u.frame) : t.vars = u.vars :=
  congrArg (fun x => x.2.2.1) h

theorem frame_funcs {t u : template} (h : t.frame = u.frame) : t.funcs = u.funcs :=
  congrArg (fun x => x.2.2.2) h

/-! ## The loop bounds are enough -/

theorem DecodeRuneInString_width_pos (s : Str) (h : s ≠ []) : 1 ≤ (DecodeRuneInString s).2 := by
  cases s with
  | nil => exact absurd rfl h
  | cons s0 rest =>
    simp only [DecodeRuneInString]
    split_ifs
    all_goals try split
    all_goals try split_ifs
    all_goals exact Nat.le_of_ble_eq_true rfl

theorem DecodeRuneInString_width_le (s : Str) : (DecodeRuneInString s).2 ≤ s.length := by
  cases s with
  | nil => simp [DecodeRuneInString]
  | cons s0 rest =>
    simp only [DecodeRuneInString]
    split_ifs
    all_goals try split
    all_goals try split_ifs
    all_goals simp only [List.length_cons]
    all_goals omega

theorem next_text (t : template) : t.next.2.text = t.text := frame_text (next_frame t)

theorem next_pos_of_lt (t : template) (h : t.pos < t.text.length) :
    t.next.2.pos = t.pos + (DecodeRuneInString (t.text.drop t.pos)).2 := by
  unfold template.next
  dsimp only
  rw [if_neg (Nat.not_le.mpr h)]
  split_ifs <;> rfl

theorem next_eof_of_ge (t : template) (h : t.text.length ≤ t.pos) : t.next.1 = eof := by
  unfold template.next
  rw [if_pos h]

theorem next_pos_lt (t : template) (h : t.pos < t.text.length) : t.pos < t.next.2.pos := by
  rw [next_pos_of_lt t h]
  have := DecodeRuneInString_width_pos (t.text.drop t.pos)
    (by intro h0; rw [List.drop_eq_nil_iff] at h0; omega)
  omega

theorem IsSpace_eof : IsSpace eof = false := by decide

theorem next_pos_lt_of_ne_eof (t : template) (h : t.next.1 ≠ eof) : t.pos < t.next.2.pos := by
  by_cases hlt : t.pos < t.text.length
  · exact next_pos_lt t hlt
  · exact absurd (next_eof_of_ge t (Nat.not_lt.mp hlt)) h

theorem peek_pos (t : template) : t.peek.2.pos = t.pos := by
  unfold template.peek
  split_ifs <;> rfl

theorem peek_text (t : template) : t.peek.2.text = t.text := frame_text (peek_frame t)

theorem lt_length_of_next_ne_eof (t : template) (h : t.next.1 ≠ eof) :
    t.pos < t.text.length := by
  by_contra hlt
  exact h (next_eof_of_ge t (Nat.not_lt.mp hlt))

theorem skipwsLoop_succ (fuel : Nat) (t : template) :
    template.skipwsLoop (fuel + 1) t
      = if !IsSpace t.next.1 then t.next.2.backup else template.skipwsLoop fuel t.next.2 := rfl

theorem ne_eof_of_not_not_IsSpace {r : Rune} (hs : ¬(!IsSpace r) = true) : r ≠ eof := by
  intro he
  rw [he, IsSpace_eof] at hs
  exact hs rfl

/-- More fuel than bytes left changes nothing: the loop of `skipws` has left by then. -/
theorem skipwsLoop_stable (fuel : Nat) (t : template) (h : t.text.length - t.pos < fuel) :
    template.skipwsLoop (fuel + 1) t = template.skipwsLoop fuel t := by
  induction fuel generalizing t with
  | zero => omega
  | succ n ih =>
    rw [skipwsLoop_succ (n + 1) t, skipwsLoop_succ n t]
    split_ifs with hs
    · rfl
    · have hne := ne_eof_of_not_not_IsSpace hs
      have hlt := next_pos_lt_of_ne_eof t hne
      have hlen := lt_length_of_next_ne_eof t hne
      apply ih
      rw [next_text]
      omega

/-- The loop of `skipws` as Go runs it: one `next`, then either `backup` and leave,
or go round again. -/
theorem skipws_unfold (t : template) :
    t.skipws = if !IsSpace t.next.1 then t.next.2.backup else t.next.2.skipws := by
  unfold template.skipws
  rw [skipwsLoop_succ]
  split_ifs with hs
  · rfl
  · have hne := ne_eof_of_not_not_IsSpace hs
    have hlt := next_pos_lt_of_ne_eof t hne
    have hlen := lt_length_of_next_ne_eof t hne
    rw [next_text]
    exact (skipwsLoop_stable _ _ (by rw [next_text]; omega)).symm

theorem getNextWordLoop_succ (fuel : Nat) (t : template) (ret : List Rune) :
    getNextWordLoop (fuel + 1) t ret
      = if t.next.1 = eof then (ret, t.next.2)
        else if IsSpace t.next.1 then (ret, t.next.2.backup)
        else if t.next.1 = 47 ∧ t.next.2.peek.1 = 42 then
          (ret ++ [t.next.1, t.next.2.peek.2.next.1], t.next.2.peek.2.next.2)
        else if t.next.1 = 47 then getNextWordLoop fuel t.next.2.peek.2 (ret ++ [t.next.1])
        else if t.next.1 = 125 ∧ t.next.2.peek.1 = 125 then (ret, t.next.2.peek.2.backup)
        else if t.next.1 = 125 then getNextWordLoop fuel t.next.2.peek.2 (ret ++ [t.next.1])
        else getNextWordLoop fuel t.next.2 (ret ++ [t.next.1]) := rfl

/-- More fuel than bytes left changes nothing: the loop of `getNextWord` has left by
then. -/
theorem getNextWordLoop_stable (fuel : Nat) (t : template) (ret : List Rune)
    (h : t.text.length - t.pos < fuel) :
    getNextWordLoop (fuel + 1) t ret = getNextWordLoop fuel t ret := by
  induction fuel generalizing t ret with
  | zero => omega
  | succ n ih =>
    rw [getNextWordLoop_succ (n + 1) t, getNextWordLoop_succ n t]
    by_cases he : t.next.1 = eof
    · rw [if_pos he, if_pos he]
    · have hlt := next_pos_lt_of_ne_eof t he
      have hlen := lt_length_of_next_ne_eof t he
      have h1 : t.next.2.text.length - t.next.2.pos < n := by
        rw [next_text]; omega
      have h2 : t.next.2.peek.2.text.length - t.next.2.peek.2.pos < n := by
        rw [peek_text, peek_pos]; exact h1
      rw [if_neg he, if_neg he, ih _ _ h1, ih _ _ h2]

/-- The loop of `getNextWord` as Go runs it, one turn unrolled, each later turn again
with the bound `len(text) + 1`. -/
theorem getNextWordLoop_unfold (t : template) (ret : List Rune) :
    getNextWordLoop (t.text.length + 1) t ret
      = if t.next.1 = eof then (ret, t.next.2)
        else if IsSpace t.next.1 then (ret, t.next.2.backup)
        else if t.next.1 = 47 ∧ t.next.2.peek.1 = 42 then
          (ret ++ [t.next.1, t.next.2.peek.2.next.1], t.next.2.peek.2.next.2)
        else if t.next.1 = 47 then
          getNextWordLoop (t.next.2.peek.2.text.length + 1) t.next.2.peek.2 (ret ++ [t.next.1])
        else if t.next.1 = 125 ∧ t.next.2.peek.1 = 125 then (ret, t.next.2.peek.2.backup)
        else if t.next.1 = 125 then
          getNextWordLoop (t.next.2.peek.2.text.length + 1) t.next.2.peek.2 (ret ++ [t.next.1])
        else getNextWordLoop (t.next.2.text.length + 1) t.next.2 (ret ++ [t.next.1]) := by
  rw [getNextWordLoop_succ]
  by_cases he : t.next.1 = eof
  · rw [if_pos he, if_pos he]
  · have hlt := next_pos_lt_of_ne_eof t he
    have hlen := lt_length_of_next_ne_eof t he
    have h1 : t.next.2.text.length - t.next.2.pos < t.text.length := by
      rw [next_text]; omega
    have h2 : t.next.2.peek.2.text.length - t.next.2.peek.2.pos < t.text.length := by
      rw [peek_text, peek_pos]; exact h1
    rw [if_neg he, if_neg he, peek_text, next_text, getNextWordLoop_stable _ _ _ h1,
      getNextWordLoop_stable _ _ _ h2]

/-! ## The position result of `getToDelim` and the exit of `scanText` -/

theorem getToDelimLoop_fst (k : Nat) (n : Int) (t : template) :
    (getToDelimLoop k n t).1 = n + k := by
  induction k generalizing n t with
  | zero => simp [getToDelimLoop]
  | succ m ih =>
    rw [getToDelimLoop, ih]
    push_cast
    ring

theorem toNextDelim_pos_ge (t : template) (delim : Str) : -1 ≤ (t.toNextDelim delim).2.1 := by
  unfold template.toNextDelim
  split_ifs
  · exact le_trans (by decide) (Int.ofNat_nonneg _)
  · exact le_refl _

/-- The position result of `getToDelim` is at least `len(delim) - 1`: the loop adds
`len(delim)` to what `toNextDelim` returned, the sentinel `eof` included. -/
theorem getToDelim_pos_ge (t : template) (delim : Str) :
    (delim.length : Int) - 1 ≤ (getToDelim t delim).2.1 := by
  unfold getToDelim
  dsimp only
  rw [getToDelimLoop_fst]
  have := toNextDelim_pos_ge t delim
  omega

/-- The branch `return nil` of `scanText` is never taken: whether or not the opening
delimiter occurs, `newpos` is positive and `scanText` returns `scanForFunc`. -/
theorem scanText_never_nil (t : template) : (scanText t).1 = some scanfunc.scanForFunc := by
  unfold scanText
  dsimp only
  have h := getToDelim_pos_ge t leftDelim
  have h8 : (leftDelim.length : Int) = 8 := by decide
  rw [if_pos (by omega)]

/-! ## Runs that do not read the world -/

theorem call_of_callPure (w : World) (f : scanfunc) (t : template)
    (r : Option scanfunc × template) (h : f.callPure t = some r) : f.call w t = r := by
  cases f <;> simp only [scanfunc.callPure, Option.some.injEq, reduceCtorEq] at h
    <;> exact h

theorem parseLoop_of_pure (w : World) (fuel : Nat) (f : Option scanfunc) (t : template)
    (r : Option template) (h : parseLoopPure fuel f t = some r) : parseLoop w fuel f t = r := by
  induction fuel generalizing f t with
  | zero =>
    cases f with
    | none => simpa [parseLoopPure, parseLoop] using h
    | some g => simpa [parseLoopPure, parseLoop] using h
  | succ n ih =>
    cases f with
    | none => simpa [parseLoopPure, parseLoop] using h
    | some g =>
      rw [parseLoopPure] at h
      rw [parseLoop]
      cases hc : g.callPure t with
      | none => rw [hc] at h; exact absurd h (by simp)
      | some c =>
        rw [hc] at h
        rw [call_of_callPure w g t c hc]
        exact ih _ _ h

/-- A run that reads nothing of the world gives the same context in every world. -/
theorem parse_of_pure (w : World) (fuel : Nat) (b : Str) (r : Option template)
    (h : parseLoopPure fuel (scanText (newTemplate b)).1 (scanText (newTemplate b)).2 = some r) :
    parse w fuel b = r :=
  parseLoop_of_pure w fuel _ _ r h

/-! ## What `strings.Trim` removes -/

theorem trimLeftByte_spec (s : Str) (c : Byte) :
    ∃ a : Nat, s = List.replicate a c ++ trimLeftByte s c
      ∧ (trimLeftByte s c).head? ≠ some c := by
  induction s with
  | nil => exact ⟨0, rfl, by simp [trimLeftByte]⟩
  | cons x xs ih =>
    by_cases hx : x = c
    · obtain ⟨a, ha, hh⟩ := ih
      refine ⟨a + 1, ?_, ?_⟩
      · have e : trimLeftByte (x :: xs) c = trimLeftByte xs c := by
          simp [trimLeftByte, hx]
        rw [e, List.replicate_succ, List.cons_append, ← ha, hx]
      · have e : trimLeftByte (x :: xs) c = trimLeftByte xs c := by
          simp [trimLeftByte, hx]
        rw [e]; exact hh
    · have e : trimLeftByte (x :: xs) c = x :: xs := by
        simp [trimLeftByte, hx]
      refine ⟨0, by rw [e]; rfl, ?_⟩
      rw [e]
      simpa using hx

theorem trimRightByte_spec (s : Str) (c : Byte) :
    ∃ b : Nat, s = trimRightByte s c ++ List.replicate b c
      ∧ (trimRightByte s c).getLast? ≠ some c := by
  obtain ⟨b, hb, hh⟩ := trimLeftByte_spec s.reverse c
  refine ⟨b, ?_, ?_⟩
  · have := congrArg List.reverse hb
    rw [List.reverse_reverse, List.reverse_append, List.reverse_replicate] at this
    exact this
  · unfold trimRightByte
    rw [List.getLast?_reverse]
    exact hh

theorem getLast?_trimLeftByte (s : Str) (c : Byte) (h : s.getLast? ≠ some c) :
    (trimLeftByte s c).getLast? ≠ some c := by
  induction s with
  | nil => simp [trimLeftByte]
  | cons x xs ih =>
    by_cases hx : x = c
    · have e : trimLeftByte (x :: xs) c = trimLeftByte xs c := by
        simp [trimLeftByte, hx]
      rw [e]
      cases xs with
      | nil => simp [trimLeftByte]
      | cons y ys =>
        apply ih
        rwa [List.getLast?_cons_cons] at h
    · have e : trimLeftByte (x :: xs) c = x :: xs := by
        simp [trimLeftByte, hx]
      rw [e]; exact h

/-- What `Trim(s, c)` is: `s` without its leading run and its trailing run of the
byte `c`; the result neither begins nor ends with `c`. -/
theorem Trim_spec (s : Str) (c : Byte) :
    ∃ a b : Nat, s = List.replicate a c ++ Trim s c ++ List.replicate b c
      ∧ (Trim s c).head? ≠ some c ∧ (Trim s c).getLast? ≠ some c := by
  obtain ⟨b, hb, hlast⟩ := trimRightByte_spec s c
  obtain ⟨a, ha, hhead⟩ := trimLeftByte_spec (trimRightByte s c) c
  refine ⟨a, b, ?_, hhead, getLast?_trimLeftByte _ c hlast⟩
  unfold Trim
  rw [← ha, ← hb]

/-! ## Reading the maps -/

theorem getVar_storeVar_same (t : template) (v val : Str) : (t.storeVar v val).getVar v = val := by
  simp [template.storeVar, template.getVar, List.lookup]

theorem getVar_storeVar_other (t : template) (v val k : Str) (h : k ≠ v) :
    (t.storeVar v val).getVar k = t.getVar k := by
  have hb : (k == v) = false := by simpa using h
  simp [template.storeVar, template.getVar, List.lookup, hb]

theorem getVar_congr {t u : template} (h : t.vars = u.vars) (k : Str) : t.getVar k = u.getVar k := by
  unfold template.getVar
  rw [h]

theorem lookup_funcMap_eq_none (word : Str) :
    funcMap.lookup word = none
      ↔ word ∉ [bytesOf "clip", bytesOf "env", bytesOf "exec", bytesOf "file", bytesOf "var",
          bytesOf "let"] := by
  unfold funcMap
  simp only [List.lookup, List.mem_cons, List.mem_singleton, List.not_mem_nil, or_false, not_or]
  constructor
  · intro h
    refine ⟨?_, ?_, ?_, ?_, ?_, ?_⟩ <;> intro he <;> subst he <;> revert h <;> decide!
  · rintro ⟨h1, h2, h3, h4, h5, h6⟩
    have b1 : (word == bytesOf "clip") = false := by simpa using h1
    have b2 : (word == bytesOf "env") = false := by simpa using h2
    have b3 : (word == bytesOf "exec") = false := by simpa using h3
    have b4 : (word == bytesOf "file") = false := by simpa using h4
    have b5 : (word == bytesOf "var") = false := by simpa using h5
    have b6 : (word == bytesOf "let") = false := by simpa using h6
    simp only [b1, b2, b3, b4, b5, b6]

/-! ## Decoding at the front of a longer text -/

/-- The first character of `s ++ rhs` is the first character of `s`, unless `s` is
only the beginning of a multi-byte sequence. -/
theorem DecodeRuneInString_append (s rhs : Str) (hs : s ≠ []) (ht : truncatedHead s = false) :
    DecodeRuneInString (s ++ rhs) = DecodeRuneInString s := by
  match s, hs, ht with
  | [a], _, ht =>
    simp only [truncatedHead, Bool.and_eq_false_imp, decide_eq_true_eq, decide_eq_false_iff_not,
      not_lt] at ht
    simp only [List.singleton_append, DecodeRuneInString]
    split_ifs <;> first | rfl | omega
  | [a, b], _, ht =>
    simp only [truncatedHead, Bool.and_eq_false_imp, Bool.and_eq_true, decide_eq_true_eq,
      decide_eq_false_iff_not, not_lt, not_le, and_imp] at ht
    rcases rhs with _ | ⟨r0, _ | ⟨r1, rest⟩⟩ <;>
      simp only [List.cons_append, List.nil_append, List.append_nil, DecodeRuneInString] <;>
      split_ifs <;> first | rfl | omega
  | [a, b, c], _, ht =>
    simp only [truncatedHead, Bool.and_eq_false_imp, Bool.and_eq_true, decide_eq_true_eq,
      decide_eq_false_iff_not, not_lt, not_le, and_imp] at ht
    rcases rhs with _ | ⟨r0, rest⟩ <;>
      simp only [List.cons_append, List.nil_append, List.append_nil, DecodeRuneInString] <;>
      split_ifs <;>
      first
        | rfl
        | omega
        | (exfalso
           rename_i hlt hacc
           have hc := ht (by omega) hlt hacc.1 hacc.2.1
           rw [hacc.2.2.1] at hc
           exact Bool.noConfusion hc)
  | a :: b :: c :: d :: rest, _, _ =>
    simp only [List.cons_append, DecodeRuneInString]

/-! ## `next` inside the text -/

theorem next_fst_of_lt (t : template) (h : t.pos < t.text.length) :
    t.next.1 = (DecodeRuneInString (t.text.drop t.pos)).1 := by
  unfold template.next
  dsimp only
  rw [if_neg (Nat.not_le.mpr h)]
  split_ifs <;> rfl

theorem insert_text (t : template) (s : Str) :
    (t.insert s).text = t.text.take t.pos ++ s ++ t.text.drop t.pos := rfl

theorem insert_pos (t : template) (s : Str) : (t.insert s).pos = t.pos := rfl

theorem insert_expanded (t : template) (s : Str) : (t.insert s).expanded = t.expanded := rfl

theorem insert_drop (t : template) (s : Str) (hpos : t.pos ≤ t.text.length) :
    (t.insert s).text.drop (t.insert s).pos = s ++ t.text.drop t.pos := by
  unfold template.insert template.Pos
  dsimp only
  have hl : (t.text.take t.pos).length = t.pos := by
    rw [List.length_take]; exact Nat.min_eq_left hpos
  rw [List.append_assoc, List.drop_left' hl]

theorem insert_pos_lt (t : template) (s : Str) (hpos : t.pos ≤ t.text.length) (hs : s ≠ []) :
    (t.insert s).pos < (t.insert s).text.length := by
  have hl : 0 < s.length := List.length_pos.mpr hs
  unfold template.insert template.Pos
  dsimp only
  rw [List.length_append, List.length_append, List.length_take, Nat.min_eq_left hpos]
  omega

/-! ## What `strings.Contains` decides -/

theorem Index_nonneg_iff (s d : Str) : 0 ≤ Index s d ↔ d <:+: s := by
  induction s with
  | nil =>
    unfold Index
    cases d with
    | nil => simp
    | cons x xs => simp
  | cons c s ih =>
    unfold Index
    by_cases hp : HasPrefix (c :: s) d = true
    · rw [if_pos hp]
      have hpre : d <+: c :: s := List.isPrefixOf_iff_prefix.mp hp
      exact ⟨fun _ => hpre.isInfix, fun _ => le_refl _⟩
    · rw [if_neg hp]
      have hnp : ¬ d <+: c :: s := fun h => hp (List.isPrefixOf_iff_prefix.mpr h)
      dsimp only
      rw [List.infix_cons_iff]
      by_cases hi : Index s d < 0
      · rw [if_pos hi]
        constructor
        · intro h; omega
        · rintro (h | h)
          · exact absurd h hnp
          · have := ih.mpr h; omega
      · rw [if_neg hi]
        constructor
        · intro _; exact Or.inr (ih.mp (by omega))
        · intro _; omega

/-- The test `strings.Contains(s, d)` holds exactly when `d` occurs in `s`. -/
theorem Contains_iff (s d : Str) : Contains s d = true ↔ d <:+: s := by
  unfold Contains
  rw [decide_eq_true_iff]
  exact Index_nonneg_iff s d

/-! ## The characters ahead of the cursor and what `next` reads -/

theorem charsLoop_stable (n m : Nat) (s : Str) (hn : s.length ≤ n) (hm : s.length ≤ m) :
    charsLoop n s = charsLoop m s := by
  induction n generalizing m s with
  | zero =>
    have hs : s = [] := List.length_eq_zero.mp (Nat.le_zero.mp hn)
    subst hs
    cases m <;> rfl
  | succ k ih =>
    cases s with
    | nil => cases m <;> rfl
    | cons b s =>
      cases m with
      | zero => simp at hm
      | succ j =>
        have hw := DecodeRuneInString_width_pos (b :: s) (by simp)
        have hl : ((b :: s).drop (DecodeRuneInString (b :: s)).2).length ≤ s.length := by
          rw [List.length_drop, List.length_cons]; omega
        rw [charsLoop, charsLoop, ih j _ (by simp at hn; omega) (by simp at hm; omega)]

theorem chars_nil : chars [] = [] := rfl

theorem chars_cons (s : Str) (h : s ≠ []) :
    chars s = DecodeRuneInString s :: chars (s.drop (DecodeRuneInString s).2) := by
  cases s with
  | nil => exact absurd rfl h
  | cons b s =>
    have hw := DecodeRuneInString_width_pos (b :: s) (by simp)
    unfold chars
    rw [List.length_cons, charsLoop]
    congr 1
    apply charsLoop_stable
    · rw [List.length_drop, List.length_cons]; omega
    · exact le_refl _

theorem DecodeRuneInString_fst_nonneg (s : Str) : 0 ≤ (DecodeRuneInString s).1 := by
  cases s with
  | nil => simp [DecodeRuneInString, RuneError]
  | cons s0 rest =>
    simp only [DecodeRuneInString]
    split_ifs
    all_goals try split
    all_goals try split_ifs
    all_goals exact Int.ofNat_nonneg _

theorem DecodeRuneInString_fst_ne_eof (s : Str) : (DecodeRuneInString s).1 ≠ eof := by
  intro h
  have h0 := DecodeRuneInString_fst_nonneg s
  rw [h] at h0
  exact absurd h0 (by decide)

theorem rest_of_ge (t : template) (h : t.text.length ≤ t.pos) : t.rest = [] := by
  unfold template.rest
  rw [List.drop_eq_nil_of_le h]
  rfl

theorem rest_of_lt (t : template) (h : t.pos < t.text.length) :
    t.rest = DecodeRuneInString (t.text.drop t.pos)
      :: chars (t.text.drop (t.pos + (DecodeRuneInString (t.text.drop t.pos)).2)) := by
  unfold template.rest
  rw [chars_cons _ (by intro h0; rw [List.drop_eq_nil_iff] at h0; omega), List.drop_drop,
    Nat.add_comm]

theorem next_width_of_lt (t : template) (h : t.pos < t.text.length) :
    t.next.2.width = (DecodeRuneInString (t.text.drop t.pos)).2 := by
  unfold template.next
  dsimp only
  rw [if_neg (Nat.not_le.mpr h)]
  split_ifs <;> rfl

theorem next_of_ge (t : template) (h : t.text.length ≤ t.pos) :
    t.next = (eof, { t with width := 0 }) := by
  unfold template.next
  rw [if_pos h]

theorem peek_of_lt (t : template) (h : t.pos < t.text.length) :
    t.peek = ((DecodeRuneInString (t.text.drop t.pos)).1, t) := by
  unfold template.peek
  rw [if_neg (Nat.not_le.mpr h)]

theorem peek_of_ge (t : template) (h : t.text.length ≤ t.pos) :
    t.peek = (eof, { t with width := 0 }) := by
  unfold template.peek
  rw [if_pos h]

theorem backup_pos (t : template) : t.backup.pos = t.pos - t.width := by
  unfold template.backup
  dsimp only
  split_ifs <;> rfl

theorem backup_text (t : template) : t.backup.text = t.text := frame_text (backup_frame t)

theorem rest_congr {t u : template} (ht : u.text = t.text) (hp : u.pos = t.pos) :
    u.rest = t.rest := by
  unfold template.rest
  rw [ht, hp]

/-- What a character ahead of the cursor says about the buffer. -/
theorem rest_cons_facts {t : template} {c : Rune × Nat} {cs : List (Rune × Nat)}
    (h : t.rest = c :: cs) :
    t.pos < t.text.length ∧ c = DecodeRuneInString (t.text.drop t.pos)
      ∧ cs = chars (t.text.drop (t.pos + c.2)) ∧ 1 ≤ c.2 := by
  have hlt : t.pos < t.text.length := by
    by_contra hge
    rw [rest_of_ge t (Nat.not_lt.mp hge)] at h
    exact List.noConfusion h
  rw [rest_of_lt t hlt] at h
  have hc := (List.cons.inj h).1
  have hcs := (List.cons.inj h).2
  refine ⟨hlt, hc.symm, ?_, ?_⟩
  · rw [← hc]; exact hcs.symm
  · rw [← hc]
    exact DecodeRuneInString_width_pos _ (by intro h0; rw [List.drop_eq_nil_iff] at h0; omega)

/-- With no character ahead, `next` returns the sentinel and stays. -/
theorem next_of_rest_nil {t : template} (h : t.rest = []) :
    t.next.1 = eof ∧ t.next.2.pos = t.pos ∧ t.next.2.width = 0 ∧ t.next.2.rest = [] := by
  have hge : t.text.length ≤ t.pos := by
    by_contra hlt
    rw [rest_of_lt t (Nat.not_le.mp hlt)] at h
    exact List.noConfusion h
  rw [next_of_ge t hge]
  exact ⟨rfl, rfl, rfl, rest_of_ge _ hge⟩

/-- With the character `c` ahead, `next` returns it and moves by its width. -/
theorem next_of_rest_cons {t : template} {c : Rune × Nat} {cs : List (Rune × Nat)}
    (h : t.rest = c :: cs) :
    t.next.1 = c.1 ∧ t.next.2.pos = t.pos + c.2 ∧ t.next.2.width = c.2 ∧ t.next.2.rest = cs
      ∧ c.1 ≠ eof := by
  obtain ⟨hlt, hc, hcs, _⟩ := rest_cons_facts h
  refine ⟨?_, ?_, ?_, ?_, ?_⟩
  · rw [next_fst_of_lt t hlt, hc]
  · rw [next_pos_of_lt t hlt, hc]
  · rw [next_width_of_lt t hlt, hc]
  · unfold template.rest
    rw [next_text, next_pos_of_lt t hlt, hcs, hc]
  · rw [hc]; exact DecodeRuneInString_fst_ne_eof _

/-- What `peek` returns is the rune of the first character ahead. -/
theorem peek_fst_eq_iff (t : template) (r : Rune) (hr : r ≠ eof) :
    t.peek.1 = r ↔ (runesIn t.rest).head? = some r := by
  cases h : t.rest with
  | nil =>
    have hge : t.text.length ≤ t.pos := by
      by_contra hlt
      rw [rest_of_lt t (Nat.not_le.mp hlt)] at h
      exact List.noConfusion h
    rw [peek_of_ge t hge]
    simp only [runesIn, List.map_nil, List.head?_nil]
    exact ⟨fun he => absurd he.symm hr, fun he => Option.noConfusion he⟩
  | cons c cs =>
    obtain ⟨hlt, hc, _, _⟩ := rest_cons_facts h
    rw [peek_of_lt t hlt, ← hc]
    simp [runesIn]

theorem peek_snd_of_rest_cons {t : template} {c : Rune × Nat} {cs : List (Rune × Nat)}
    (h : t.rest = c :: cs) : t.peek.2 = t := by
  rw [peek_of_lt t (rest_cons_facts h).1]

theorem peek_rest (t : template) : t.peek.2.rest = t.rest :=
  rest_congr (peek_text t) (peek_pos t)

/-! ## The word that `getNextWord` reads -/

theorem wordChars_nil : wordChars [] = [] := rfl

theorem wordChars_cons (c : Rune × Nat) (rest : List (Rune × Nat)) :
    wordChars (c :: rest)
      = if IsSpace c.1 then []
        else if c.1 = 47 ∧ (runesIn rest).head? = some 42 then c :: rest.take 1
        else if c.1 = 125 ∧ (runesIn rest).head? = some 125 then []
        else c :: wordChars rest := rfl

/-- The loop of `getNextWord`, given enough fuel, appends to `ret` the runes of the
word at the front of the characters ahead and moves the cursor by its width. -/
theorem getNextWordLoop_spec (fuel : Nat) (t : template) (ret : List Rune)
    (hf : t.text.length - t.pos < fuel) :
    (getNextWordLoop fuel t ret).1 = ret ++ runesIn (wordChars t.rest)
      ∧ (getNextWordLoop fuel t ret).2.pos = t.pos + widthSum (wordChars t.rest)
      ∧ (getNextWordLoop fuel t ret).2.text = t.text := by
  induction fuel generalizing t ret with
  | zero => omega
  | succ n ih =>
    rw [getNextWordLoop_succ]
    cases h : t.rest with
    | nil =>
      obtain ⟨h1, h2, _, _⟩ := next_of_rest_nil h
      rw [if_pos h1]
      exact ⟨by simp [wordChars, runesIn], by simp [wordChars, widthSum, h2], next_text t⟩
    | cons c cs =>
      obtain ⟨h1, h2, h3, h4, h5⟩ := next_of_rest_cons h
      obtain ⟨hlt, _, _, hw⟩ := rest_cons_facts h
      have hp42 := peek_fst_eq_iff t.next.2 42 (by decide)
      have hp125 := peek_fst_eq_iff t.next.2 125 (by decide)
      rw [h4] at hp42 hp125
      have hfuel : t.next.2.peek.2.text.length - t.next.2.peek.2.pos < n := by
        rw [peek_text, peek_pos, next_text, h2]; omega
      have hfuel2 : t.next.2.text.length - t.next.2.pos < n := by
        rw [next_text, h2]; omega
      have hrest : t.next.2.peek.2.rest = cs := by rw [peek_rest, h4]
      rw [if_neg (by rw [h1]; exact h5), h1, wordChars_cons]
      by_cases hs : IsSpace c.1 = true
      · rw [if_pos hs, if_pos hs]
        refine ⟨by simp [runesIn], ?_, ?_⟩
        · rw [backup_pos, h2, h3]; simp [widthSum]
        · rw [backup_text, next_text]
      · rw [if_neg hs, if_neg hs]
        by_cases hc : c.1 = 47 ∧ (runesIn cs).head? = some 42
        · rw [if_pos ⟨hc.1, hp42.mpr hc.2⟩, if_pos hc]
          cases hcs : cs with
          | nil => rw [hcs] at hc; simp [runesIn] at hc
          | cons c2 cs2 =>
            rw [hcs] at hc h4
            have hpk := peek_snd_of_rest_cons h4
            obtain ⟨g1, g2, _, _, _⟩ := next_of_rest_cons h4
            rw [hpk]
            refine ⟨?_, ?_, ?_⟩
            · rw [g1]; simp [runesIn]
            · rw [g2, h2]; simp [widthSum]; omega
            · rw [next_text, next_text]
        · have hc' : ¬ (c.1 = 47 ∧ t.next.2.peek.1 = 42) := fun hh => hc ⟨hh.1, hp42.mp hh.2⟩
          rw [if_neg hc', if_neg hc]
          by_cases h47 : c.1 = 47
          · rw [if_pos h47]
            have hn125 : ¬ (c.1 = 125 ∧ (runesIn cs).head? = some 125) := by
              rw [h47]; intro hh; exact absurd hh.1 (by decide)
            rw [if_neg hn125]
            obtain ⟨i1, i2, i3⟩ := ih t.next.2.peek.2 (ret ++ [c.1]) hfuel
            rw [i1, i2, i3, hrest, peek_pos, peek_text, next_text, h2]
            refine ⟨by simp [runesIn], by simp [widthSum]; omega, rfl⟩
          · rw [if_neg h47]
            by_cases hb : c.1 = 125 ∧ (runesIn cs).head? = some 125
            · rw [if_pos ⟨hb.1, hp125.mpr hb.2⟩, if_pos hb]
              cases hcs : cs with
              | nil => rw [hcs] at hb; simp [runesIn] at hb
              | cons c2 cs2 =>
                rw [hcs] at h4
                rw [peek_snd_of_rest_cons h4]
                refine ⟨by simp [runesIn], ?_, ?_⟩
                · rw [backup_pos, h2, h3]; simp [widthSum]
                · rw [backup_text, next_text]
            · have hb' : ¬ (c.1 = 125 ∧ t.next.2.peek.1 = 125) :=
                fun hh => hb ⟨hh.1, hp125.mp hh.2⟩
              rw [if_neg hb', if_neg hb]
              by_cases h125 : c.1 = 125
              · rw [if_pos h125]
                obtain ⟨i1, i2, i3⟩ := ih t.next.2.peek.2 (ret ++ [c.1]) hfuel
                rw [i1, i2, i3, hrest, peek_pos, peek_text, next_text, h2]
                refine ⟨by simp [runesIn], by simp [widthSum]; omega, rfl⟩
              · rw [if_neg h125]
                obtain ⟨i1, i2, i3⟩ := ih t.next.2 (ret ++ [c.1]) hfuel2
                rw [i1, i2, i3, h4, next_text, h2]
                refine ⟨by simp [runesIn], by simp [widthSum]; omega, rfl⟩

/-- The loop of `skipws`, given enough fuel, moves the cursor over the whitespace
characters ahead and stops in front of the first other character. -/
theorem skipwsLoop_spec (fuel : Nat) (t : template) (hf : t.text.length - t.pos < fuel) :
    (template.skipwsLoop fuel t).pos
        = t.pos + widthSum (t.rest.takeWhile isSpaceChar)
      ∧ (template.skipwsLoop fuel t).text = t.text
      ∧ (template.skipwsLoop fuel t).rest = t.rest.dropWhile isSpaceChar := by
  induction fuel generalizing t with
  | zero => omega
  | succ n ih =>
    rw [skipwsLoop_succ]
    cases h : t.rest with
    | nil =>
      obtain ⟨h1, h2, h3, _⟩ := next_of_rest_nil h
      rw [h1, IsSpace_eof]
      simp only [Bool.not_false, if_true, List.takeWhile_nil, List.dropWhile_nil]
      have hp : t.next.2.backup.pos = t.pos := by rw [backup_pos, h2, h3]; rfl
      have ht : t.next.2.backup.text = t.text := by rw [backup_text, next_text]
      exact ⟨by rw [hp]; simp [widthSum], ht, by rw [rest_congr ht hp, h]⟩
    | cons c cs =>
      obtain ⟨h1, h2, h3, h4, _⟩ := next_of_rest_cons h
      obtain ⟨hlt, _, _, hw⟩ := rest_cons_facts h
      rw [h1]
      by_cases hs : IsSpace c.1 = true
      · rw [hs]
        simp only [Bool.not_true, Bool.false_eq_true, if_false]
        obtain ⟨i1, i2, i3⟩ := ih t.next.2 (by rw [next_text, h2]; omega)
        have hsc : isSpaceChar c = true := hs
        rw [i1, i2, i3, h4, h2, next_text, List.takeWhile_cons_of_pos hsc,
          List.dropWhile_cons_of_pos hsc]
        exact ⟨by simp [widthSum]; omega, rfl, rfl⟩
      · have hs' : IsSpace c.1 = false := by simpa using hs
        rw [hs']
        simp only [Bool.not_false, if_true]
        have hp : t.next.2.backup.pos = t.pos := by rw [backup_pos, h2, h3]; omega
        have ht : t.next.2.backup.text = t.text := by rw [backup_text, next_text]
        have hsc : ¬ isSpaceChar c = true := hs
        rw [List.takeWhile_cons_of_neg hsc, List.dropWhile_cons_of_neg hsc]
        exact ⟨by rw [hp]; simp [widthSum], ht, by rw [rest_congr ht hp, h]⟩

theorem skipws_spec (t : template) :
    t.skipws.pos = t.pos + widthSum (t.rest.takeWhile isSpaceChar)
      ∧ t.skipws.text = t.text
      ∧ t.skipws.rest = t.rest.dropWhile isSpaceChar :=
  skipwsLoop_spec _ t (by omega)

theorem firstPair_cons_of_pair (a b x : Rune) (l : List Rune)
    (h : x = a ∧ l.head? = some b) : firstPair a b (x :: l) = 0 := by
  cases l with
  | nil => simp at h
  | cons y rest =>
    simp only [List.head?_cons, Option.some.injEq] at h
    rw [firstPair, if_pos h]

theorem firstPair_cons_of_not_pair (a b x : Rune) (l : List Rune)
    (h : ¬ (x = a ∧ l.head? = some b)) : firstPair a b (x :: l) = firstPair a b l + 1 := by
  cases l with
  | nil => rfl
  | cons y rest =>
    simp only [List.head?_cons, Option.some.injEq] at h
    rw [firstPair, if_neg h]

theorem firstSpace_cons (r : Rune) (l : List Rune) :
    firstSpace (r :: l) = if IsSpace r then 0 else firstSpace l + 1 := rfl

/-- The word that the loop of `getNextWord` reads is the word of the specification:
the characters ahead up to whichever stop comes first. -/
theorem wordChars_eq_take (cs : List (Rune × Nat)) :
    wordChars cs = cs.take (wordLen (runesIn cs)) := by
  induction cs with
  | nil => rfl
  | cons c rest ih =>
    rw [wordChars_cons]
    have hl : runesIn (c :: rest) = c.1 :: runesIn rest := rfl
    unfold wordLen
    rw [hl, firstSpace_cons]
    by_cases hs : IsSpace c.1 = true
    · rw [if_pos hs, if_pos hs]; simp
    · rw [if_neg hs, if_neg hs]
      by_cases hc : c.1 = 47 ∧ (runesIn rest).head? = some 42
      · rw [if_pos hc, firstPair_cons_of_pair 47 42 _ _ hc]
        cases hr : rest with
        | nil => rw [hr] at hc; simp [runesIn] at hc
        | cons c2 rest2 =>
          rw [hr] at hc
          have h42 : c2.1 = 42 := by simpa [runesIn] using hc.2
          have hl2 : runesIn (c2 :: rest2) = c2.1 :: runesIn rest2 := rfl
          have n1 : ¬ (c.1 = 125 ∧ (runesIn (c2 :: rest2)).head? = some 125) := by
            rw [hc.1]; intro hh; exact absurd hh.1 (by decide)
          have n2 : ¬ (c2.1 = 125 ∧ (runesIn rest2).head? = some 125) := by
            rw [h42]; intro hh; exact absurd hh.1 (by decide)
          have s2 : ¬ IsSpace c2.1 = true := by rw [h42]; decide
          rw [firstPair_cons_of_not_pair 125 125 _ _ n1, hl2,
            firstPair_cons_of_not_pair 125 125 _ _ n2, firstSpace_cons, if_neg s2]
          have e : min (firstSpace (runesIn rest2) + 1 + 1)
              (min (firstPair 125 125 (runesIn rest2) + 1 + 1) (0 + 2)) = 2 := by omega
          rw [e]
          rfl
      · rw [if_neg hc, firstPair_cons_of_not_pair 47 42 _ _ hc]
        by_cases hb : c.1 = 125 ∧ (runesIn rest).head? = some 125
        · rw [if_pos hb, firstPair_cons_of_pair 125 125 _ _ hb]; simp
        · rw [if_neg hb, firstPair_cons_of_not_pair 125 125 _ _ hb, ih]
          have e : min (firstSpace (runesIn rest) + 1)
              (min (firstPair 125 125 (runesIn rest) + 1) (firstPair 47 42 (runesIn rest) + 1 + 2))
              = wordLen (runesIn rest) + 1 := by
            unfold wordLen; omega
          rw [e, List.take_succ_cons]

theorem wordChars_no_space (cs : List (Rune × Nat)) :
    ∀ c ∈ wordChars cs, IsSpace c.1 = false := by
  induction cs with
  | nil => intro c hc; simp [wordChars] at hc
  | cons c rest ih =>
    rw [wordChars_cons]
    by_cases hs : IsSpace c.1 = true
    · rw [if_pos hs]; intro x hx; simp at hx
    · have hs' : IsSpace c.1 = false := by simpa using hs
      rw [if_neg hs]
      by_cases hc : c.1 = 47 ∧ (runesIn rest).head? = some 42
      · rw [if_pos hc]
        intro x hx
        rcases List.mem_cons.mp hx with hx | hx
        · rw [hx]; exact hs'
        · cases hr : rest with
          | nil => rw [hr] at hx; simp at hx
          | cons c2 rest2 =>
            rw [hr] at hx hc
            have h42 : c2.1 = 42 := by simpa [runesIn] using hc.2
            have hx2 : x = c2 := by simpa using hx
            rw [hx2, h42]; decide
      · rw [if_neg hc]
        by_cases hb : c.1 = 125 ∧ (runesIn rest).head? = some 125
        · rw [if_pos hb]; intro x hx; simp at hx
        · rw [if_neg hb]
          intro x hx
          rcases List.mem_cons.mp hx with hx | hx
          · rw [hx]; exact hs'
          · exact ih x hx

theorem wordChars_head (cs : List (Rune × Nat)) (x : Rune)
    (h : (runesIn (wordChars cs)).head? = some x) : (runesIn cs).head? = some x := by
  rw [wordChars_eq_take] at h
  cases cs with
  | nil => simpa using h
  | cons c rest =>
    cases hn : wordLen (runesIn (c :: rest)) with
    | zero => rw [hn] at h; simp [runesIn] at h
    | succ n => rw [hn] at h; simpa [runesIn] using h

theorem wordChars_no_close (cs : List (Rune × Nat)) :
    firstPair 125 125 (runesIn (wordChars cs)) = (runesIn (wordChars cs)).length := by
  induction cs with
  | nil => rfl
  | cons c rest ih =>
    rw [wordChars_cons]
    by_cases hs : IsSpace c.1 = true
    · rw [if_pos hs]; rfl
    · rw [if_neg hs]
      by_cases hc : c.1 = 47 ∧ (runesIn rest).head? = some 42
      · rw [if_pos hc]
        cases hr : rest with
        | nil => rw [hr] at hc; simp [runesIn] at hc
        | cons c2 rest2 =>
          rw [hr] at hc
          have h42 : c2.1 = 42 := by simpa [runesIn] using hc.2
          have e : runesIn (c :: (c2 :: rest2).take 1) = [47, 42] := by
            simp [runesIn, hc.1, h42]
          rw [e]
          decide
      · rw [if_neg hc]
        by_cases hb : c.1 = 125 ∧ (runesIn rest).head? = some 125
        · rw [if_pos hb]; rfl
        · rw [if_neg hb]
          have hl : runesIn (c :: wordChars rest) = c.1 :: runesIn (wordChars rest) := rfl
          have hn : ¬ (c.1 = 125 ∧ (runesIn (wordChars rest)).head? = some 125) :=
            fun hh => hb ⟨hh.1, wordChars_head rest 125 hh.2⟩
          rw [hl, firstPair_cons_of_not_pair 125 125 _ _ hn, ih, List.length_cons]

theorem runesIn_take (cs : List (Rune × Nat)) (n : Nat) :
    runesIn (cs.take n) = (runesIn cs).take n := by
  unfold runesIn
  rw [List.map_take]

/-- What `getNextWord` returns, in terms of the characters ahead after `skipws`. -/
theorem getNextWord_spec (t : template) :
    (getNextWord t).1 = runesToString (runesIn (wordChars t.skipws.rest))
      ∧ (getNextWord t).2.pos = t.skipws.pos + widthSum (wordChars t.skipws.rest)
      ∧ (getNextWord t).2.text = t.text := by
  obtain ⟨h1, h2, h3⟩ :=
    getNextWordLoop_spec (t.skipws.text.length + 1) t.skipws [] (by omega)
  unfold getNextWord
  dsimp only
  rw [h1, h2, h3, List.nil_append]
  exact ⟨rfl, rfl, (skipws_spec t).2.1⟩

/-! ## The buffer invariant and the run-time checks -/

theorem backupChecked_of (t : template) (h1 : t.width ≤ t.pos)
    (h2 : t.width = 1 → t.pos - t.width < t.text.length) :
    t.backupChecked = some t.backup := by
  unfold template.backupChecked
  rw [if_pos h1]
  by_cases hw : t.width = 1
  · rw [if_pos hw, if_pos (h2 hw)]
  · rw [if_neg hw]

/-- Right after `next` the width is at most `pos`, and a width of 1 leaves the
un-consumed byte inside the text. -/
theorem next_backable (t : template) :
    t.next.2.width ≤ t.next.2.pos
      ∧ (t.next.2.width = 1 → t.next.2.pos - t.next.2.width < t.next.2.text.length) := by
  by_cases h : t.pos < t.text.length
  · rw [next_width_of_lt t h, next_pos_of_lt t h, next_text]
    exact ⟨by omega, fun _ => by omega⟩
  · rw [next_of_ge t (Nat.not_lt.mp h)]
    exact ⟨Nat.zero_le _, fun h1 => absurd (show (0 : Nat) = 1 from h1) (by decide)⟩

theorem peek_backable (t : template)
    (h : t.width ≤ t.pos ∧ (t.width = 1 → t.pos - t.width < t.text.length)) :
    t.peek.2.width ≤ t.peek.2.pos
      ∧ (t.peek.2.width = 1 → t.peek.2.pos - t.peek.2.width < t.peek.2.text.length) := by
  by_cases hlt : t.pos < t.text.length
  · rw [peek_of_lt t hlt]; exact h
  · rw [peek_of_ge t (Nat.not_lt.mp hlt)]
    exact ⟨Nat.zero_le _, fun h1 => absurd (show (0 : Nat) = 1 from h1) (by decide)⟩

/-- A `backup` right after a `next` passes its checks. -/
theorem backupChecked_next (t : template) : t.next.2.backupChecked = some t.next.2.backup :=
  backupChecked_of _ (next_backable t).1 (next_backable t).2

/-- A `backup` after a `next` and a `peek` passes its checks. -/
theorem backupChecked_peek_next (t : template) :
    t.next.2.peek.2.backupChecked = some t.next.2.peek.2.backup :=
  backupChecked_of _ (peek_backable _ (next_backable t)).1 (peek_backable _ (next_backable t)).2

theorem next_inv (t : template) (h : t.pos ≤ t.text.length) :
    t.next.2.pos ≤ t.next.2.text.length := by
  rw [next_text]
  by_cases hlt : t.pos < t.text.length
  · rw [next_pos_of_lt t hlt]
    have := DecodeRuneInString_width_le (t.text.drop t.pos)
    rw [List.length_drop] at this
    omega
  · rw [next_of_ge t (Nat.not_lt.mp hlt)]; exact h

theorem peek_inv (t : template) (h : t.pos ≤ t.text.length) :
    t.peek.2.pos ≤ t.peek.2.text.length := by
  rw [peek_pos, peek_text]; exact h

theorem backup_inv (t : template) (h : t.pos ≤ t.text.length) :
    t.backup.pos ≤ t.backup.text.length := by
  rw [backup_pos, backup_text]; omega

theorem skipwsLoop_inv (fuel : Nat) (t : template) (h : t.pos ≤ t.text.length) :
    (template.skipwsLoop fuel t).pos ≤ (template.skipwsLoop fuel t).text.length := by
  induction fuel generalizing t with
  | zero => exact h
  | succ n ih =>
    rw [skipwsLoop_succ]
    split_ifs
    · exact backup_inv _ (next_inv t h)
    · exact ih _ (next_inv t h)

theorem skipwsLoopChecked_eq (fuel : Nat) (t : template) :
    template.skipwsLoopChecked fuel t = some (template.skipwsLoop fuel t) := by
  induction fuel generalizing t with
  | zero => rfl
  | succ n ih =>
    rw [skipwsLoop_succ, template.skipwsLoopChecked]
    split_ifs
    · exact backupChecked_next t
    · exact ih _

theorem getNextWordLoop_inv (fuel : Nat) (t : template) (ret : List Rune)
    (h : t.pos ≤ t.text.length) :
    (getNextWordLoop fuel t ret).2.pos ≤ (getNextWordLoop fuel t ret).2.text.length := by
  induction fuel generalizing t ret with
  | zero => exact h
  | succ n ih =>
    have h1 := next_inv t h
    have h2 := peek_inv _ h1
    rw [getNextWordLoop_succ]
    split_ifs
    · exact h1
    · exact backup_inv _ h1
    · exact next_inv _ h2
    · exact ih _ _ h2
    · exact backup_inv _ h2
    · exact ih _ _ h2
    · exact ih _ _ h1

theorem getNextWordLoopChecked_eq (fuel : Nat) (t : template) (ret : List Rune) :
    getNextWordLoopChecked fuel t ret = some (getNextWordLoop fuel t ret) := by
  induction fuel generalizing t ret with
  | zero => rfl
  | succ n ih =>
    rw [getNextWordLoop_succ, getNextWordLoopChecked]
    split_ifs
    · rfl
    · rw [backupChecked_next]; rfl
    · rfl
    · exact ih _ _
    · rw [backupChecked_peek_next]; rfl
    · exact ih _ _
    · exact ih _ _

theorem getNextWordChecked_eq (t : template) : getNextWordChecked t = some (getNextWord t) := by
  unfold getNextWordChecked template.skipwsChecked
  rw [skipwsLoopChecked_eq]
  simp only [Option.some_bind]
  rw [getNextWordLoopChecked_eq]
  rfl

theorem getNextWord_inv (t : template) (h : t.pos ≤ t.text.length) :
    (getNextWord t).2.pos ≤ (getNextWord t).2.text.length := by
  unfold getNextWord
  exact getNextWordLoop_inv _ _ _ (skipwsLoop_inv _ t h)

theorem toNextDelimLoop_inv (i : Nat) (t : template) (ret : List Rune)
    (h : t.pos ≤ t.text.length) :
    (template.toNextDelimLoop i t ret).2.pos ≤ (template.toNextDelimLoop i t ret).2.text.length := by
  induction i generalizing t ret with
  | zero => exact h
  | succ n ih =>
    rw [template.toNextDelimLoop]
    exact ih _ _ (next_inv t h)

theorem toNextDelim_inv (t : template) (d : Str) (h : t.pos ≤ t.text.length) :
    (t.toNextDelim d).2.2.pos ≤ (t.toNextDelim d).2.2.text.length := by
  unfold template.toNextDelim
  split_ifs
  · exact toNextDelimLoop_inv _ _ _ h
  · exact h

theorem getToDelimLoop_inv (k : Nat) (n : Int) (t : template) (h : t.pos ≤ t.text.length) :
    (getToDelimLoop k n t).2.pos ≤ (getToDelimLoop k n t).2.text.length := by
  induction k generalizing n t with
  | zero => exact h
  | succ m ih =>
    rw [getToDelimLoop]
    exact ih _ _ (next_inv t h)

theorem getToDelim_inv (t : template) (d : Str) (h : t.pos ≤ t.text.length) :
    (getToDelim t d).2.2.pos ≤ (getToDelim t d).2.2.text.length := by
  unfold getToDelim
  exact getToDelimLoop_inv _ _ _ (toNextDelim_inv t d h)

theorem getToDelimChecked_eq (t : template) (d : Str) (h : t.pos ≤ t.text.length) :
    getToDelimChecked t d = some (getToDelim t d) := by
  unfold getToDelimChecked template.toNextDelimChecked
  rw [if_pos h]
  rfl

theorem insert_inv (t : template) (s : Str) (h : t.pos ≤ t.text.length) :
    (t.insert s).pos ≤ (t.insert s).text.length := by
  rw [insert_pos, insert_text, List.length_append, List.length_append, List.length_take,
    List.length_drop]
  omega

theorem insertChecked_eq (t : template) (s : Str) (h : t.pos ≤ t.text.length) :
    t.insertChecked s = some (t.insert s) := by
  unfold template.insertChecked
  rw [if_pos h]

theorem puts_pos (t : template) (word : Str) : (t.puts word).pos = t.pos := rfl

theorem puts_text (t : template) (word : Str) : (t.puts word).text = t.text := rfl

theorem storeVar_pos (t : template) (v val : Str) : (t.storeVar v val).pos = t.pos := rfl

theorem storeVar_text (t : template) (v val : Str) : (t.storeVar v val).text = t.text := rfl

theorem scanText_checked (t : template) (h : t.pos ≤ t.text.length) :
    scanTextChecked t = some (scanText t)
      ∧ (scanText t).2.pos ≤ (scanText t).2.text.length := by
  have hi := getToDelim_inv t leftDelim h
  constructor
  · unfold scanTextChecked scanText
    rw [getToDelimChecked_eq t _ h]
    generalize getToDelim t leftDelim = r
    simp only [Option.map_some']
  · unfold scanText
    generalize getToDelim t leftDelim = r at hi ⊢
    dsimp only
    split_ifs <;> (rw [puts_pos, puts_text]; exact hi)

theorem scanForFunc_checked (t : template) (h : t.pos ≤ t.text.length) :
    scanForFuncChecked t = some (scanForFunc t)
      ∧ (scanForFunc t).2.pos ≤ (scanForFunc t).2.text.length := by
  have hi := getNextWord_inv t h
  constructor
  · unfold scanForFuncChecked scanForFunc
    rw [getNextWordChecked_eq]
    generalize getNextWord t = r
    simp only [Option.map_some']
  · unfold scanForFunc
    generalize getNextWord t = r at hi ⊢
    dsimp only
    split_ifs <;> exact hi

theorem scanToEnd_checked (t : template) (h : t.pos ≤ t.text.length) :
    scanToEndChecked t = some (scanToEnd t)
      ∧ (scanToEnd t).2.pos ≤ (scanToEnd t).2.text.length := by
  have hi := getToDelim_inv t rightDelim h
  constructor
  · unfold scanToEndChecked scanToEnd
    rw [getToDelimChecked_eq t _ h]
    generalize getToDelim t rightDelim = r
    simp only [Option.map_some']
  · unfold scanToEnd
    generalize getToDelim t rightDelim = r at hi ⊢
    exact hi

theorem clipFunc_checked (w : World) (t : template) (h : t.pos ≤ t.text.length) :
    clipFuncChecked w t = some (clipFunc w t)
      ∧ (clipFunc w t).2.pos ≤ (clipFunc w t).2.text.length := by
  refine ⟨rfl, ?_⟩
  unfold clipFunc
  generalize bytesOf "//---------------\n" = m
  generalize bytesOf "clipboard" = c
  dsimp only
  split_ifs
  · rw [puts_pos, puts_text]; exact h
  · rw [puts_pos, puts_text]; exact h
  · exact h

theorem envFunc_checked (w : World) (t : template) (h : t.pos ≤ t.text.length) :
    envFuncChecked w t = some (envFunc w t)
      ∧ (envFunc w t).2.pos ≤ (envFunc w t).2.text.length := by
  have hi := getNextWord_inv t h
  constructor
  · unfold envFuncChecked envFunc
    rw [getNextWordChecked_eq]
    generalize getNextWord t = r
    generalize bytesOf "$" = d
    simp only [Option.some_bind]
    by_cases h0 : r.1.length = 0
    · rw [if_pos h0, if_pos h0]
    · rw [if_neg h0, if_neg h0]
      by_cases hp : (!HasPrefix r.1 d) = true
      · rw [if_pos hp, if_pos hp]
      · rw [if_neg hp, if_neg hp, if_pos (by omega)]
        split_ifs <;> rfl
  · unfold envFunc
    generalize getNextWord t = r at hi ⊢
    generalize bytesOf "$" = d
    dsimp only
    split_ifs
    · exact hi
    all_goals (rw [puts_pos, puts_text]; exact hi)

theorem execFunc_checked (w : World) (t : template) (h : t.pos ≤ t.text.length) :
    execFuncChecked w t = some (execFunc w t)
      ∧ (execFunc w t).2.pos ≤ (execFunc w t).2.text.length := by
  have hi := getToDelim_inv t rightDelim h
  constructor
  · unfold execFuncChecked execFunc
    rw [getToDelimChecked_eq t _ h]
    generalize getToDelim t rightDelim = r at hi ⊢
    simp only [Option.some_bind]
    split_ifs
    · rw [insertChecked_eq _ _ hi]; simp only [Option.map_some']
    · rfl
  · unfold execFunc
    generalize getToDelim t rightDelim = r at hi ⊢
    dsimp only
    split_ifs
    · exact insert_inv _ _ hi
    · exact hi

theorem fileFunc_checked (w : World) (t : template) (h : t.pos ≤ t.text.length) :
    fileFuncChecked w t = some (fileFunc w t)
      ∧ (fileFunc w t).2.pos ≤ (fileFunc w t).2.text.length := by
  have hw := getNextWord_inv t h
  constructor
  · unfold fileFuncChecked fileFunc
    rw [getNextWordChecked_eq]
    generalize getNextWord t = r at hw ⊢
    have hi := getToDelim_inv _ rightDelim hw
    simp only [Option.some_bind]
    rw [getToDelimChecked_eq _ _ hw]
    generalize getToDelim r.2 rightDelim = d at hi ⊢
    simp only [Option.some_bind]
    cases w.readFile r.1 with
    | none => rfl
    | some f => simp only [insertChecked_eq _ _ hi, Option.map_some']
  · unfold fileFunc
    dsimp only
    generalize getNextWord t = r at hw ⊢
    have hi := getToDelim_inv _ rightDelim hw
    generalize getToDelim r.2 rightDelim = d at hi ⊢
    cases w.readFile r.1 with
    | none => exact hi
    | some f => exact insert_inv _ _ hi

theorem letFunc_checked (t : template) (h : t.pos ≤ t.text.length) :
    letFuncChecked t = some (letFunc t)
      ∧ (letFunc t).2.pos ≤ (letFunc t).2.text.length := by
  have hw := getNextWord_inv t h
  constructor
  · unfold letFuncChecked letFunc
    rw [getNextWordChecked_eq]
    generalize getNextWord t = r at hw ⊢
    simp only [Option.some_bind]
    rw [getToDelimChecked_eq _ _ hw]
    generalize getToDelim r.2 rightDelim = d
    simp only [Option.map_some']
  · unfold letFunc
    dsimp only
    generalize getNextWord t = r at hw ⊢
    have hi := getToDelim_inv _ rightDelim hw
    generalize getToDelim r.2 rightDelim = d at hi ⊢
    rw [storeVar_pos, storeVar_text]
    exact hi

theorem varFunc_checked (t : template) (h : t.pos ≤ t.text.length) :
    varFuncChecked t = some (varFunc t)
      ∧ (varFunc t).2.pos ≤ (varFunc t).2.text.length := by
  have hi := getNextWord_inv t h
  constructor
  · unfold varFuncChecked varFunc
    rw [getNextWordChecked_eq]
    generalize getNextWord t = r
    simp only [Option.map_some']
  · unfold varFunc
    generalize getNextWord t = r at hi ⊢
    dsimp only
    split_ifs <;> (rw [puts_pos, puts_text]; exact hi)

/-- Every transition of the state machine passes its run-time checks and keeps
`pos ≤ len(text)`. -/
theorem call_checked (w : World) (f : scanfunc) (t : template) (h : t.pos ≤ t.text.length) :
    f.callChecked w t = some (f.call w t)
      ∧ (f.call w t).2.pos ≤ (f.call w t).2.text.length := by
  cases f
  · exact scanText_checked t h
  · exact scanForFunc_checked t h
  · exact scanToEnd_checked t h
  · exact scanToEnd_checked t h
  · exact clipFunc_checked w t h
  · exact envFunc_checked w t h
  · exact execFunc_checked w t h
  · exact fileFunc_checked w t h
  · exact varFunc_checked t h
  · exact letFunc_checked t h

theorem parseLoop_inv (w : World) (fuel : Nat) (f : Option scanfunc) (t u : template)
    (h : t.pos ≤ t.text.length) (hr : parseLoop w fuel f t = some u) :
    u.pos ≤ u.text.length := by
  induction fuel generalizing f t with
  | zero =>
    cases f with
    | none =>
      rw [parseLoop] at hr
      rw [← Option.some.inj hr]; exact h
    | some g => rw [parseLoop] at hr; exact Option.noConfusion hr
  | succ n ih =>
    cases f with
    | none =>
      rw [parseLoop] at hr
      rw [← Option.some.inj hr]; exact h
    | some g =>
      rw [parseLoop] at hr
      exact ih _ _ (call_checked w g t h).2 hr

/-! ## The line counter -/

theorem acceptLo_ge (n : Nat) : 0x80 ≤ acceptLo n := by
  unfold acceptLo
  split_ifs <;> omega

theorem acceptHi_le (n : Nat) : acceptHi n ≤ 0xBF := by
  unfold acceptHi
  split_ifs <;> omega

theorem acceptLo_E0 : acceptLo 0xE0 = 0xA0 := rfl

theorem acceptLo_F0 : acceptLo 0xF0 = 0x90 := rfl

theorem isCont_ge (n : Nat) (h : isCont n = true) : 0x80 ≤ n := by
  unfold isCont at h
  simp only [Bool.and_eq_true, decide_eq_true_eq] at h
  exact h.1

/-- A first byte of 80 or more never decodes to a rune below 80, and the bytes
consumed with it are all 80 or more. -/
theorem DecodeRuneInString_high (s0 : Byte) (rest : Str) (h : 0x80 ≤ s0.val) :
    128 ≤ (DecodeRuneInString (s0 :: rest)).1
      ∧ ∀ b ∈ (s0 :: rest).take (DecodeRuneInString (s0 :: rest)).2, 0x80 ≤ b.val := by
  have herr : (128 : Int) ≤ RuneError := by unfold RuneError; decide
  simp only [DecodeRuneInString]
  rw [if_neg (by omega)]
  split_ifs
  all_goals try split
  all_goals try split_ifs
  all_goals first
    | exact ⟨herr, by simp; exact h⟩
    | skip
  · rename_i h2 h3 _ s1 _ hacc
    have hlo := acceptLo_ge s0.val
    refine ⟨?_, ?_⟩
    · show (128 : Int) ≤ ((_ : Nat) : Int)
      omega
    · intro b hb
      simp only [List.take_succ_cons, List.take_zero, List.mem_cons, List.mem_singleton,
        List.not_mem_nil, or_false] at hb
      rcases hb with hb | hb <;> rw [hb] <;> omega
  · rename_i h2 h3 h4 _ s1 s2 _ hacc
    have hlo := acceptLo_ge s0.val
    have hhi := acceptHi_le s0.val
    have hc2 := isCont_ge _ hacc.2.2
    have hE0 : s0.val = 0xE0 → 0xA0 ≤ s1.val := fun he => by
      have := hacc.1; rw [he, acceptLo_E0] at this; exact this
    refine ⟨?_, ?_⟩
    · show (128 : Int) ≤ ((_ : Nat) : Int)
      omega
    · intro b hb
      simp only [List.take_succ_cons, List.take_zero, List.mem_cons, List.mem_singleton,
        List.not_mem_nil, or_false] at hb
      rcases hb with hb | hb | hb <;> rw [hb] <;> omega
  · rename_i h2 h3 h4 h5 _ s1 s2 s3 _ hacc
    have hlo := acceptLo_ge s0.val
    have hhi := acceptHi_le s0.val
    have hc2 := isCont_ge _ hacc.2.2.1
    have hc3 := isCont_ge _ hacc.2.2.2
    have hF0 : s0.val = 0xF0 → 0x90 ≤ s1.val := fun he => by
      have := hacc.1; rw [he, acceptLo_F0] at this; exact this
    refine ⟨?_, ?_⟩
    · show (128 : Int) ≤ ((_ : Nat) : Int)
      omega
    · intro b hb
      simp only [List.take_succ_cons, List.take_zero, List.mem_cons, List.mem_singleton,
        List.not_mem_nil, or_false] at hb
      rcases hb with hb | hb | hb | hb <;> rw [hb] <;> omega

theorem byteOf_ten_val : (byteOf 10).val = 10 := rfl

/-- Decoding reads the byte 0A only as the rune `\n` of width 1, and no other
character contains that byte. -/
theorem DecodeRuneInString_newline (s0 : Byte) (rest : Str) :
    ((DecodeRuneInString (s0 :: rest)).1 = newline
        ↔ ((DecodeRuneInString (s0 :: rest)).2 = 1 ∧ s0 = byteOf 10))
      ∧ newlines ((s0 :: rest).take (DecodeRuneInString (s0 :: rest)).2)
          = if (DecodeRuneInString (s0 :: rest)).1 = newline then 1 else 0 := by
  by_cases h : s0.val < 0x80
  · have hd : DecodeRuneInString (s0 :: rest) = ((s0.val : Int), 1) := by
      simp only [DecodeRuneInString]
      rw [if_pos h]
    rw [hd]
    have hiff : ((s0.val : Int) = newline) ↔ s0 = byteOf 10 := by
      unfold newline
      constructor
      · intro e
        apply Fin.ext
        rw [byteOf_ten_val]
        exact_mod_cast e
      · intro e
        rw [e, byteOf_ten_val]
        rfl
    refine ⟨?_, ?_⟩
    · show ((s0.val : Int) = newline) ↔ (1 = 1 ∧ s0 = byteOf 10)
      rw [hiff]
      exact ⟨fun e => ⟨rfl, e⟩, fun e => e.2⟩
    · show newlines ((s0 :: rest).take 1) = if ((s0.val : Int) = newline) then 1 else 0
      unfold newlines
      by_cases e : s0 = byteOf 10
      · rw [if_pos (hiff.mpr e), e]
        simp
      · rw [if_neg (fun h1 => e (hiff.mp h1))]
        simp only [List.take_succ_cons, List.take_zero]
        rw [List.count_eq_zero]
        intro hm
        exact e (List.mem_singleton.mp hm).symm
  · have hh := DecodeRuneInString_high s0 rest (Nat.not_lt.mp h)
    have hne : (DecodeRuneInString (s0 :: rest)).1 ≠ newline := by
      intro e
      have h1 := hh.1
      rw [e] at h1
      exact absurd h1 (by unfold newline; decide)
    have hs0 : s0 ≠ byteOf 10 := by
      intro e
      rw [e, byteOf_ten_val] at h
      exact h (by decide)
    refine ⟨⟨fun e => absurd e hne, fun e => absurd e.2 hs0⟩, ?_⟩
    rw [if_neg hne]
    unfold newlines
    rw [List.count_eq_zero]
    intro hm
    have := hh.2 _ hm
    rw [byteOf_ten_val] at this
    exact absurd this (by decide)

theorem next_line_of_lt (t : template) (h : t.pos < t.text.length) :
    t.next.2.line
      = t.line + (if (DecodeRuneInString (t.text.drop t.pos)).1 = newline then 1 else 0) := by
  unfold template.next
  dsimp only
  rw [if_neg (Nat.not_le.mpr h)]
  split_ifs
  · rfl
  · exact (Int.add_zero _).symm

theorem newlines_append (a b : Str) : newlines (a ++ b) = newlines a + newlines b := by
  unfold newlines
  exact List.count_append _ _ _

theorem lineCounts_congr {t u : template} (ht : u.text = t.text) (hp : u.pos = t.pos)
    (hl : u.line = t.line) (h : lineCounts t) : lineCounts u := by
  unfold lineCounts at h ⊢
  rw [ht, hp, hl]
  exact h

theorem lastRead_of_width_zero (t : template) (h : lineCounts t) (hw : t.width = 0) :
    lastRead t := by
  unfold lastRead
  rw [hw, Nat.sub_zero, if_neg (fun h1 => absurd (show (0 : Nat) = 1 from h1.1) (by decide))]
  exact ⟨Nat.zero_le _, h.1, by rw [h.2]; exact (Int.add_zero _).symm⟩

/-- After `next` the line counter still counts the consumed newlines, and the
character just read can be un-read. -/
theorem next_line (t : template) (h : lineCounts t) :
    lineCounts t.next.2 ∧ lastRead t.next.2 := by
  by_cases hlt : t.pos < t.text.length
  · obtain ⟨s0, rest, hs⟩ : ∃ s0 rest, t.text.drop t.pos = s0 :: rest := by
      cases hd : t.text.drop t.pos with
      | nil =>
        have := congrArg List.length hd
        rw [List.length_drop, List.length_nil] at this
        omega
      | cons a l => exact ⟨a, l, rfl⟩
    have hdn := DecodeRuneInString_newline s0 rest
    have hwl := DecodeRuneInString_width_le (t.text.drop t.pos)
    have hwp := DecodeRuneInString_width_pos (t.text.drop t.pos) (by rw [hs]; exact List.cons_ne_nil _ _)
    rw [List.length_drop] at hwl
    have hget : t.text.get? t.pos = some s0 := by
      have := congrArg List.head? hs
      rw [List.head?_drop] at this
      simpa using this
    have hline := next_line_of_lt t hlt
    have hpos := next_pos_of_lt t hlt
    have hwid := next_width_of_lt t hlt
    have htext := next_text t
    rw [hs] at hline hpos hwid hwl hwp
    have htake : t.text.take (t.pos + (DecodeRuneInString (s0 :: rest)).2)
        = t.text.take t.pos ++ (s0 :: rest).take (DecodeRuneInString (s0 :: rest)).2 := by
      rw [List.take_add, hs]
    constructor
    · unfold lineCounts
      rw [htext, hpos, hline, htake, newlines_append, hdn.2, h.2]
      refine ⟨by omega, ?_⟩
      split_ifs <;> simp
    · unfold lastRead
      rw [htext, hpos, hline, hwid, Nat.add_sub_cancel, hget, h.2]
      refine ⟨by omega, by omega, ?_⟩
      congr 1
      by_cases e : (DecodeRuneInString (s0 :: rest)).1 = newline
      · rw [if_pos e, if_pos ⟨(hdn.1.mp e).1, by rw [(hdn.1.mp e).2]⟩]
      · rw [if_neg e, if_neg (fun h1 => e (hdn.1.mpr ⟨h1.1, Option.some.inj h1.2⟩))]
  · rw [next_of_ge t (Nat.not_lt.mp hlt)]
    have h0 : lineCounts { t with width := 0 } := lineCounts_congr rfl rfl rfl h
    exact ⟨h0, lastRead_of_width_zero _ h0 rfl⟩

theorem peek_line (t : template) (h : lineCounts t ∧ lastRead t) :
    lineCounts t.peek.2 ∧ lastRead t.peek.2 := by
  by_cases hlt : t.pos < t.text.length
  · rw [peek_of_lt t hlt]; exact h
  · rw [peek_of_ge t (Nat.not_lt.mp hlt)]
    have h0 : lineCounts { t with width := 0 } := lineCounts_congr rfl rfl rfl h.1
    exact ⟨h0, lastRead_of_width_zero _ h0 rfl⟩

/-- A `backup` un-reads the character read last, newline or not. -/
theorem backup_line (t : template) (h : lastRead t) : lineCounts t.backup := by
  unfold lastRead at h
  unfold lineCounts template.backup
  dsimp only
  by_cases c : t.width = 1 ∧ t.text.get? (t.pos - t.width) = some (byteOf 10)
  · rw [if_pos c]
    rw [if_pos c] at h
    dsimp only
    exact ⟨by omega, by rw [h.2.2]; omega⟩
  · rw [if_neg c]
    rw [if_neg c] at h
    dsimp only
    exact ⟨by omega, by rw [h.2.2]; omega⟩

theorem skipwsLoop_line (fuel : Nat) (t : template) (h : lineCounts t) :
    lineCounts (template.skipwsLoop fuel t) := by
  induction fuel generalizing t with
  | zero => exact h
  | succ n ih =>
    rw [skipwsLoop_succ]
    split_ifs
    · exact backup_line _ (next_line t h).2
    · exact ih _ (next_line t h).1

theorem getNextWordLoop_line (fuel : Nat) (t : template) (ret : List Rune)
    (h : lineCounts t) : lineCounts (getNextWordLoop fuel t ret).2 := by
  induction fuel generalizing t ret with
  | zero => exact h
  | succ n ih =>
    have h1 := next_line t h
    have h2 := peek_line _ h1
    rw [getNextWordLoop_succ]
    split_ifs
    · exact h1.1
    · exact backup_line _ h1.2
    · exact (next_line _ h2.1).1
    · exact ih _ _ h2.1
    · exact backup_line _ h2.2
    · exact ih _ _ h2.1
    · exact ih _ _ h1.1

theorem getNextWord_line (t : template) (h : lineCounts t) : lineCounts (getNextWord t).2 := by
  unfold getNextWord
  exact getNextWordLoop_line _ _ _ (skipwsLoop_line _ t h)

theorem toNextDelimLoop_line (i : Nat) (t : template) (ret : List Rune) (h : lineCounts t) :
    lineCounts (template.toNextDelimLoop i t ret).2 := by
  induction i generalizing t ret with
  | zero => exact h
  | succ n ih =>
    rw [template.toNextDelimLoop]
    exact ih _ _ (next_line t h).1

theorem toNextDelim_line (t : template) (d : Str) (h : lineCounts t) :
    lineCounts (t.toNextDelim d).2.2 := by
  unfold template.toNextDelim
  split_ifs
  · exact toNextDelimLoop_line _ _ _ h
  · exact h

theorem getToDelimLoop_line (k : Nat) (n : Int) (t : template) (h : lineCounts t) :
    lineCounts (getToDelimLoop k n t).2 := by
  induction k generalizing n t with
  | zero => exact h
  | succ m ih =>
    rw [getToDelimLoop]
    exact ih _ _ (next_line t h).1

theorem getToDelim_line (t : template) (d : Str) (h : lineCounts t) :
    lineCounts (getToDelim t d).2.2 := by
  unfold getToDelim
  exact getToDelimLoop_line _ _ _ (toNextDelim_line t d h)

/-- An insertion at `pos` leaves the consumed part `text[:pos]` as it was. -/
theorem insert_line (t : template) (s : Str) (h : lineCounts t) : lineCounts (t.insert s) := by
  have hl : (t.text.take t.pos).length = t.pos := by
    rw [List.length_take]; exact Nat.min_eq_left h.1
  refine ⟨insert_inv t s h.1, ?_⟩
  rw [insert_pos, insert_text, List.append_assoc, List.take_left' hl]
  exact h.2

theorem puts_line (t : template) (word : Str) (h : lineCounts t) : lineCounts (t.puts word) :=
  lineCounts_congr rfl rfl rfl h

theorem storeVar_line (t : template) (v val : Str) (h : lineCounts t) :
    lineCounts (t.storeVar v val) :=
  lineCounts_congr rfl rfl rfl h

theorem scanText_line (t : template) (h : lineCounts t) : lineCounts (scanText t).2 := by
  have hi := getToDelim_line t leftDelim h
  unfold scanText
  generalize getToDelim t leftDelim = r at hi ⊢
  dsimp only
  split_ifs <;> exact puts_line _ _ hi

theorem scanForFunc_line (t : template) (h : lineCounts t) : lineCounts (scanForFunc t).2 := by
  have hi := getNextWord_line t h
  unfold scanForFunc
  generalize getNextWord t = r at hi ⊢
  dsimp only
  split_ifs <;> exact hi

theorem scanToEnd_line (t : template) (h : lineCounts t) : lineCounts (scanToEnd t).2 := by
  have hi := getToDelim_line t rightDelim h
  unfold scanToEnd
  generalize getToDelim t rightDelim = r at hi ⊢
  exact hi

theorem clipFunc_line (w : World) (t : template) (h : lineCounts t) :
    lineCounts (clipFunc w t).2 := by
  unfold clipFunc
  generalize bytesOf "//---------------\n" = m
  generalize bytesOf "clipboard" = c
  dsimp only
  split_ifs
  · exact puts_line _ _ h
  · exact puts_line _ _ h
  · exact h

theorem envFunc_line (w : World) (t : template) (h : lineCounts t) :
    lineCounts (envFunc w t).2 := by
  have hi := getNextWord_line t h
  unfold envFunc
  generalize getNextWord t = r at hi ⊢
  generalize bytesOf "$" = d
  dsimp only
  split_ifs
  · exact hi
  all_goals exact puts_line _ _ hi

theorem execFunc_line (w : World) (t : template) (h : lineCounts t) :
    lineCounts (execFunc w t).2 := by
  have hi := getToDelim_line t rightDelim h
  unfold execFunc
  generalize getToDelim t rightDelim = r at hi ⊢
  dsimp only
  split_ifs
  · exact insert_line _ _ hi
  · exact hi

theorem fileFunc_line (w : World) (t : template) (h : lineCounts t) :
    lineCounts (fileFunc w t).2 := by
  have hw := getNextWord_line t h
  unfold fileFunc
  dsimp only
  generalize getNextWord t = r at hw ⊢
  have hi := getToDelim_line _ rightDelim hw
  generalize getToDelim r.2 rightDelim = d at hi ⊢
  cases w.readFile r.1 with
  | none => exact hi
  | some f => exact insert_line _ _ hi

theorem letFunc_line (t : template) (h : lineCounts t) : lineCounts (letFunc t).2 := by
  have hw := getNextWord_line t h
  unfold letFunc
  dsimp only
  generalize getNextWord t = r at hw ⊢
  have hi := getToDelim_line _ rightDelim hw
  generalize getToDelim r.2 rightDelim = d at hi ⊢
  exact storeVar_line _ _ _ hi

theorem varFunc_line (t : template) (h : lineCounts t) : lineCounts (varFunc t).2 := by
  have hi := getNextWord_line t h
  unfold varFunc
  generalize getNextWord t = r at hi ⊢
  dsimp only
  split_ifs <;> exact puts_line _ _ hi

/-- Every transition of the state machine keeps the line counter equal to the
number of newline characters before the cursor. -/
theorem call_line (w : World) (f : scanfunc) (t : template) (h : lineCounts t) :
    lineCounts (f.call w t).2 := by
  cases f
  · exact scanText_line t h
  · exact scanForFunc_line t h
  · exact scanToEnd_line t h
  · exact scanToEnd_line t h
  · exact clipFunc_line w t h
  · exact envFunc_line w t h
  · exact execFunc_line w t h
  · exact fileFunc_line w t h
  · exact varFunc_line t h
  · exact letFunc_line t h

theorem parseLoop_line (w : World) (fuel : Nat) (f : Option scanfunc) (t u : template)
    (h : lineCounts t) (hr : parseLoop w fuel f t = some u) : lineCounts u := by
  induction fuel generalizing f t with
  | zero =>
    cases f with
    | none =>
      rw [parseLoop] at hr
      rw [← Option.some.inj hr]; exact h
    | some g => rw [parseLoop] at hr; exact Option.noConfusion hr
  | succ n ih =>
    cases f with
    | none =>
      rw [parseLoop] at hr
      rw [← Option.some.inj hr]; exact h
    | some g =>
      rw [parseLoop] at hr
      exact ih _ _ (call_line w g t h) hr

theorem newTemplate_line (b : Str) : lineCounts (newTemplate b) :=
  ⟨Nat.zero_le _, rfl⟩

theorem parse_line (w : World) (fuel : Nat) (b : Str) (u : template)
    (hr : parse w fuel b = some u) : lineCounts u :=
  parseLoop_line w fuel _ _ u (scanText_line _ (newTemplate_line b)) hr

/-! ## The cursor only moves forward between transitions -/

theorem advances_refl (t : template) : advances t t := ⟨rfl, rfl, Nat.le_refl _⟩

theorem advances_trans {t u v : template} (h1 : advances t u) (h2 : advances u v) :
    advances t v :=
  ⟨h2.1.trans h1.1, h2.2.1.trans h1.2.1, Nat.le_trans h1.2.2 h2.2.2⟩

theorem next_pos_ge (t : template) : t.pos ≤ t.next.2.pos := by
  by_cases hlt : t.pos < t.text.length
  · exact Nat.le_of_lt (next_pos_lt t hlt)
  · rw [next_of_ge t (Nat.not_lt.mp hlt)]

theorem next_adv (t : template) : advances t t.next.2 :=
  ⟨next_text t, frame_funcs (next_frame t), next_pos_ge t⟩

theorem toNextDelimLoop_adv (i : Nat) (t : template) (ret : List Rune) :
    advances t (template.toNextDelimLoop i t ret).2 := by
  induction i generalizing t ret with
  | zero => exact advances_refl t
  | succ n ih =>
    rw [template.toNextDelimLoop]
    exact advances_trans (next_adv t) (ih _ _)

theorem toNextDelim_adv (t : template) (d : Str) : advances t (t.toNextDelim d).2.2 := by
  unfold template.toNextDelim
  split_ifs
  · exact toNextDelimLoop_adv _ _ _
  · exact advances_refl t

theorem getToDelimLoop_adv (k : Nat) (n : Int) (t : template) :
    advances t (getToDelimLoop k n t).2 := by
  induction k generalizing n t with
  | zero => exact advances_refl t
  | succ m ih =>
    rw [getToDelimLoop]
    exact advances_trans (next_adv t) (ih _ _)

theorem getToDelim_adv (t : template) (d : Str) : advances t (getToDelim t d).2.2 := by
  unfold getToDelim
  exact advances_trans (toNextDelim_adv t d) (getToDelimLoop_adv _ _ _)

/-- With text left, `getToDelim` consumes at least one byte: its loop calls `next`
once for every byte of the delimiter. -/
theorem getToDelim_pos_lt (t : template) (d : Str) (hd : 0 < d.length)
    (h : t.pos < t.text.length) : t.pos < (getToDelim t d).2.2.pos := by
  unfold getToDelim
  dsimp only
  have h1 := toNextDelim_adv t d
  generalize (t.toNextDelim d).2.2 = u at h1 ⊢
  generalize (t.toNextDelim d).2.1 = n
  obtain ⟨k, hk⟩ : ∃ k, d.length = k + 1 := ⟨d.length - 1, by omega⟩
  rw [hk, getToDelimLoop]
  have h2 := getToDelimLoop_adv k (n + 1) u.next.2
  by_cases hu : u.pos < u.text.length
  · have := next_pos_lt u hu
    have := h1.2.2
    have := h2.2.2
    omega
  · have := next_pos_ge u
    have := h2.2.2
    rw [h1.1] at hu
    omega

theorem getNextWord_adv (t : template) : advances t (getNextWord t).2 := by
  obtain ⟨_, h2, h3⟩ := getNextWord_spec t
  obtain ⟨h4, _, _⟩ := skipws_spec t
  refine ⟨h3, frame_funcs (getNextWord_frame t), ?_⟩
  omega

theorem puts_adv (t : template) (word : Str) : advances t (t.puts word) :=
  ⟨rfl, rfl, Nat.le_refl _⟩

theorem storeVar_adv (t : template) (v val : Str) : advances t (t.storeVar v val) :=
  ⟨rfl, rfl, Nat.le_refl _⟩

/-- Inserting the empty string changes nothing. -/
theorem insert_nil_adv (t : template) : advances t (t.insert []) := by
  refine ⟨?_, rfl, Nat.le_refl _⟩
  rw [insert_text, List.append_nil, List.take_append_drop]

theorem scanText_adv (t : template) : advances t (scanText t).2 := by
  have hi := getToDelim_adv t leftDelim
  unfold scanText
  generalize getToDelim t leftDelim = r at hi ⊢
  dsimp only
  split_ifs <;> exact advances_trans hi (puts_adv _ _)

/-- Text-mode consumes at least one byte when there is text left. -/
theorem scanText_pos_lt (t : template) (h : t.pos < t.text.length) :
    t.pos < (scanText t).2.pos := by
  have hi := getToDelim_pos_lt t leftDelim (by decide) h
  unfold scanText
  generalize getToDelim t leftDelim = r at hi ⊢
  dsimp only
  split_ifs <;> exact hi

theorem scanForFunc_adv (t : template) : advances t (scanForFunc t).2 := by
  have hi := getNextWord_adv t
  unfold scanForFunc
  generalize getNextWord t = r at hi ⊢
  dsimp only
  split_ifs <;> exact hi

theorem scanToEnd_adv (t : template) : advances t (scanToEnd t).2 := by
  have hi := getToDelim_adv t rightDelim
  unfold scanToEnd
  generalize getToDelim t rightDelim = r at hi ⊢
  exact hi

theorem clipFunc_adv (w : World) (t : template) : advances t (clipFunc w t).2 := by
  unfold clipFunc
  generalize bytesOf "//---------------\n" = m
  generalize bytesOf "clipboard" = c
  dsimp only
  split_ifs
  · exact puts_adv _ _
  · exact puts_adv _ _
  · exact advances_refl t

theorem envFunc_adv (w : World) (t : template) : advances t (envFunc w t).2 := by
  have hi := getNextWord_adv t
  unfold envFunc
  generalize getNextWord t = r at hi ⊢
  generalize bytesOf "$" = d
  dsimp only
  split_ifs
  · exact hi
  all_goals exact advances_trans hi (puts_adv _ _)

theorem execFunc_adv (w : World) (hexec : ∀ c, Trim (w.exec c) (byteOf 10) = [])
    (t : template) : advances t (execFunc w t).2 := by
  have hi := getToDelim_adv t rightDelim
  unfold execFunc
  generalize getToDelim t rightDelim = r at hi ⊢
  dsimp only
  split_ifs
  · rw [hexec]
    exact advances_trans hi (insert_nil_adv _)
  · exact hi

theorem fileFunc_adv (w : World)
    (hfile : ∀ f, w.readFile f = none ∨ w.readFile f = some [])
    (t : template) : advances t (fileFunc w t).2 := by
  have hw := getNextWord_adv t
  unfold fileFunc
  dsimp only
  generalize getNextWord t = r at hw ⊢
  have hi := advances_trans hw (getToDelim_adv r.2 rightDelim)
  generalize getToDelim r.2 rightDelim = d at hi ⊢
  rcases hfile r.1 with h0 | h0
  · rw [h0]
    exact hi
  · rw [h0]
    exact advances_trans hi (insert_nil_adv _)

theorem letFunc_adv (t : template) : advances t (letFunc t).2 := by
  have hw := getNextWord_adv t
  unfold letFunc
  dsimp only
  generalize getNextWord t = r at hw ⊢
  have hi := advances_trans hw (getToDelim_adv r.2 rightDelim)
  generalize getToDelim r.2 rightDelim = d at hi ⊢
  exact advances_trans hi (storeVar_adv _ _ _)

theorem varFunc_adv (t : template) : advances t (varFunc t).2 := by
  have hi := getNextWord_adv t
  unfold varFunc
  generalize getNextWord t = r at hi ⊢
  dsimp only
  split_ifs <;> exact advances_trans hi (puts_adv _ _)

/-- In a world whose insertions are empty, every transition keeps the text and moves
the cursor forward or not at all. -/
theorem call_adv (w : World) (hexec : ∀ c, Trim (w.exec c) (byteOf 10) = [])
    (hfile : ∀ f, w.readFile f = none ∨ w.readFile f = some [])
    (f : scanfunc) (t : template) : advances t (f.call w t).2 := by
  cases f
  · exact scanText_adv t
  · exact scanForFunc_adv t
  · exact scanToEnd_adv t
  · exact scanToEnd_adv t
  · exact clipFunc_adv w t
  · exact envFunc_adv w t
  · exact execFunc_adv w hexec t
  · exact fileFunc_adv w hfile t
  · exact varFunc_adv t
  · exact letFunc_adv t

/-! ## The state loop comes to its end -/

theorem lookup_mem_snd {α β : Type} [BEq α] (l : List (α × β)) (k : α) (g : β)
    (h : l.lookup k = some g) : g ∈ l.map Prod.snd := by
  induction l with
  | nil => exact Option.noConfusion h
  | cons e es ih =>
    obtain ⟨a, b⟩ := e
    rw [List.lookup_cons] at h
    cases hk : (k == a) with
    | true =>
      rw [hk] at h
      rw [← Option.some.inj h]
      exact List.mem_cons_self _ _
    | false =>
      rw [hk] at h
      exact List.mem_cons_of_mem _ (ih h)

/-- The states that `funcMap` can give are directive handlers, which are at most three
calls away from text-mode. -/
theorem stepsBound_of_lookup (k : Str) (g : scanfunc) (d : Nat)
    (h : funcMap.lookup k = some g) : stepsBound g d ≤ 4 * d + 4 := by
  have hm := lookup_mem_snd _ _ _ h
  simp only [funcMap, List.map_cons, List.map_nil, List.mem_cons, List.mem_singleton,
    List.not_mem_nil, or_false] at hm
  rcases hm with e | e | e | e | e | e <;> rw [e] <;> simp only [stepsBound] <;> omega

theorem stepsBound_pos (f : scanfunc) (d : Nat) : 2 ≤ stepsBound f d := by
  cases f <;> simp only [stepsBound] <;> omega

theorem parseLoop_none (w : World) (n : Nat) (t : template) : parseLoop w n none t = some t := by
  cases n <;> rfl

/-- At the end of the text the word is empty, which names no directive: `scanForFunc`
gives the stop signal. -/
theorem scanForFunc_at_end (t : template) (hf : t.funcs = funcMap)
    (h : t.text.length ≤ t.pos) : (scanForFunc t).1 = none := by
  obtain ⟨h1, _, _⟩ := getNextWord_spec t
  have hr : t.skipws.rest = [] := by
    rw [(skipws_spec t).2.2, rest_of_ge t h]
    rfl
  rw [hr] at h1
  have hfu : (getNextWord t).2.funcs = funcMap := (frame_funcs (getNextWord_frame t)).trans hf
  unfold scanForFunc
  generalize getNextWord t = r at h1 hfu ⊢
  dsimp only
  have h0 : r.1 = [] := h1
  rw [h0, hfu, if_neg (by decide)]
  show List.lookup [] funcMap = none
  decide

theorem clipFunc_fst (w : World) (t : template) :
    (clipFunc w t).1 = some scanfunc.scanToEnd := by
  unfold clipFunc
  generalize bytesOf "//---------------\n" = m
  generalize bytesOf "clipboard" = c
  dsimp only
  split_ifs <;> rfl

theorem envFunc_fst (w : World) (t : template) :
    (envFunc w t).1 = some scanfunc.scanToEnd := by
  unfold envFunc
  generalize getNextWord t = r
  generalize bytesOf "$" = d
  dsimp only
  split_ifs <;> rfl

theorem varFunc_fst (t : template) : (varFunc t).1 = some scanfunc.scanToEnd := by
  unfold varFunc
  generalize getNextWord t = r
  dsimp only
  split_ifs <;> rfl

theorem execFunc_fst (w : World) (t : template) :
    (execFunc w t).1 = some scanfunc.scanText := by
  unfold execFunc
  generalize getToDelim t rightDelim = r
  dsimp only
  split_ifs <;> rfl

theorem fileFunc_fst (w : World) (t : template) (g : scanfunc)
    (h : (fileFunc w t).1 = some g) : g = scanfunc.scanText := by
  unfold fileFunc at h
  dsimp only at h
  generalize getNextWord t = r at h
  generalize getToDelim r.2 rightDelim = d at h
  cases hr : w.readFile r.1 with
  | none => rw [hr] at h; exact Option.noConfusion h
  | some f => rw [hr] at h; exact (Option.some.inj h).symm

/-- What `scanForFunc` hands over to is at most three calls away from text-mode. -/
theorem scanForFunc_fst (t : template) (hf : t.funcs = funcMap) (g : scanfunc) (d : Nat)
    (h : (scanForFunc t).1 = some g) : stepsBound g d ≤ 4 * d + 4 := by
  have hfu : (getNextWord t).2.funcs = funcMap := (frame_funcs (getNextWord_frame t)).trans hf
  unfold scanForFunc at h
  generalize getNextWord t = r at hfu h
  dsimp only at h
  split_ifs at h
  · rw [← Option.some.inj h]
    simp only [stepsBound]
    omega
  · rw [hfu] at h
    exact stepsBound_of_lookup _ _ _ h

/-- The successor of a state is nearer to the end of the run, except for text-mode at
the end of the text. -/
theorem call_stepsBound (w : World) (hexec : ∀ c, Trim (w.exec c) (byteOf 10) = [])
    (hfile : ∀ f, w.readFile f = none ∨ w.readFile f = some [])
    (f g : scanfunc) (t : template) (hf : t.funcs = funcMap)
    (hs : f = scanfunc.scanText → t.pos < t.text.length)
    (hg : (f.call w t).1 = some g) :
    stepsBound g ((f.call w t).2.text.length - (f.call w t).2.pos) + 1
      ≤ stepsBound f (t.text.length - t.pos) := by
  have adv := call_adv w hexec hfile f t
  rw [adv.1]
  have hp := adv.2.2
  have toText : ∀ p, t.pos ≤ p → g = scanfunc.scanText →
      stepsBound g (t.text.length - p) + 1 ≤ 4 * (t.text.length - t.pos) + 3 := by
    intro p hp e
    rw [e]
    simp only [stepsBound]
    omega
  have toEnd : ∀ p, t.pos ≤ p → g = scanfunc.scanToEnd →
      stepsBound g (t.text.length - p) + 1 ≤ 4 * (t.text.length - t.pos) + 4 := by
    intro p hp e
    rw [e]
    simp only [stepsBound]
    omega
  cases f with
  | scanText =>
    have hlt : t.pos < (scanfunc.scanText.call w t).2.pos := scanText_pos_lt t (hs rfl)
    have hl0 := hs rfl
    have e : g = scanfunc.scanForFunc :=
      (Option.some.inj ((scanText_never_nil t).symm.trans hg)).symm
    rw [e]
    simp only [stepsBound]
    omega
  | scanForFunc =>
    have hb := scanForFunc_fst t hf g
      (t.text.length - (scanfunc.scanForFunc.call w t).2.pos) hg
    have e5 : stepsBound scanfunc.scanForFunc (t.text.length - t.pos)
        = 4 * (t.text.length - t.pos) + 5 := rfl
    rw [e5]
    omega
  | scanToEnd => exact toText _ hp (Option.some.inj hg).symm
  | scanComment => exact toText _ hp (Option.some.inj hg).symm
  | clipFunc =>
    exact toEnd _ hp (Option.some.inj ((clipFunc_fst w t).symm.trans hg)).symm
  | envFunc =>
    exact toEnd _ hp (Option.some.inj ((envFunc_fst w t).symm.trans hg)).symm
  | execFunc =>
    exact toText _ hp (Option.some.inj ((execFunc_fst w t).symm.trans hg)).symm
  | fileFunc => exact toText _ hp (fileFunc_fst w t g hg)
  | varFunc =>
    exact toEnd _ hp (Option.some.inj ((varFunc_fst t).symm.trans hg)).symm
  | letFunc => exact toText _ hp (Option.some.inj hg).symm

/-- In a world whose insertions are empty, `stepsBound` calls are enough for the loop
of `parse` to reach the stop signal. -/
theorem parseLoop_terminates (w : World) (hexec : ∀ c, Trim (w.exec c) (byteOf 10) = [])
    (hfile : ∀ f, w.readFile f = none ∨ w.readFile f = some [])
    (n : Nat) (f : scanfunc) (t : template) (hinv : t.pos ≤ t.text.length)
    (hf : t.funcs = funcMap) (hb : stepsBound f (t.text.length - t.pos) ≤ n) :
    ∃ u, parseLoop w n (some f) t = some u := by
  induction n generalizing f t with
  | zero =>
    have := stepsBound_pos f (t.text.length - t.pos)
    omega
  | succ n ih =>
    rw [parseLoop]
    have adv := call_adv w hexec hfile f t
    have hinv2 := (call_checked w f t hinv).2
    cases hg : (f.call w t).1 with
    | none => exact ⟨_, parseLoop_none w n _⟩
    | some g =>
      by_cases hs : f = scanfunc.scanText → t.pos < t.text.length
      · have hc := call_stepsBound w hexec hfile f g t hf hs hg
        exact ih g _ hinv2 (adv.2.1.trans hf) (by omega)
      · have hft : f = scanfunc.scanText := by
          by_contra hne
          exact hs (fun e => absurd e hne)
        have hend : ¬ t.pos < t.text.length := fun hl => hs (fun _ => hl)
        subst hft
        have e : g = scanfunc.scanForFunc :=
          (Option.some.inj ((scanText_never_nil t).symm.trans hg)).symm
        subst e
        have hn : 1 ≤ n := by
          simp only [stepsBound] at hb
          omega
        obtain ⟨m, rfl⟩ : ∃ m, n = m + 1 := ⟨n - 1, by omega⟩
        rw [parseLoop]
        have hp := adv.2.2
        have hnone : (scanfunc.scanForFunc.call w (scanfunc.scanText.call w t).2).1 = none :=
          scanForFunc_at_end _ (adv.2.1.trans hf) (by rw [adv.1]; omega)
        rw [hnone]
        exact ⟨_, parseLoop_none w m _⟩

theorem parse_terminates (w : World) (hexec : ∀ c, Trim (w.exec c) (byteOf 10) = [])
    (hfile : ∀ f, w.readFile f = none ∨ w.readFile f = some []) (b : Str) :
    ∃ u, parse w (4 * b.length + 5) b = some u := by
  unfold parse
  rw [scanText_never_nil]
  have adv := scanText_adv (newTemplate b)
  have hinv := (scanText_checked (newTemplate b) (Nat.zero_le _)).2
  refine parseLoop_terminates w hexec hfile _ _ _ hinv (adv.2.1.trans rfl) ?_
  rw [adv.1]
  simp only [stepsBound]
  have : (newTemplate b).text.length = b.length := rfl
  omega

/-! ## The loops of matchio -/

theorem setOutChecked_of_some (matched : List pair) (i : Nat) (v : Str) (m : pair)
    (h : matched[i]? = some m) :
    setOutChecked matched i v = some (matched.set i { m with out := v }) := by
  unfold setOutChecked
  rw [h]

/-- An assignment loop over indices inside the list passes its checks when its
right-hand side does, and changes the `out` fields of exactly those indices. -/
theorem forOutChecked_spec (f : List pair → Nat → Option Str) (g : pair → Nat → Str)
    (k lo : Nat) (matched : List pair) (hlen : lo + k ≤ matched.length)
    (hf : ∀ (ms : List pair) (j : Nat) (m : pair), lo ≤ j → j < lo + k →
      ms[j]? = some m → f ms j = some (g m j)) :
    ∃ r, forOutChecked f k lo matched = some r ∧ r.length = matched.length
      ∧ ∀ j : Nat, r[j]? = if lo ≤ j ∧ j < lo + k
          then (matched[j]?).map (fun (m : pair) => { m with out := g m j })
          else matched[j]? := by
  induction k generalizing lo matched with
  | zero =>
    refine ⟨matched, rfl, rfl, fun j => ?_⟩
    rw [if_neg (by omega)]
  | succ k ih =>
    have hlo : lo < matched.length := by omega
    have hm : matched[lo]? = some matched[lo] := List.getElem?_eq_getElem hlo
    obtain ⟨r, hr, hrl, hrg⟩ := ih (lo + 1)
      (matched.set lo { matched[lo] with out := g matched[lo] lo })
      (by rw [List.length_set]; omega)
      (fun ms j m h1 h2 h3 => hf ms j m (by omega) (by omega) h3)
    refine ⟨r, ?_, ?_, fun j => ?_⟩
    · rw [forOutChecked, hf matched lo _ (Nat.le_refl _) (by omega) hm]
      simp only [Option.some_bind]
      rw [setOutChecked_of_some matched lo _ _ hm]
      exact hr
    · rw [hrl, List.length_set]
    · rw [hrg j, List.getElem?_set]
      by_cases hj : lo = j
      · subst hj
        rw [if_neg (by omega), if_pos rfl, if_pos hlo, if_pos ⟨Nat.le_refl _, by omega⟩, hm]
        rfl
      · rw [if_neg hj]
        by_cases hc : lo + 1 ≤ j ∧ j < lo + 1 + k
        · rw [if_pos hc, if_pos ⟨by omega, by omega⟩]
        · rw [if_neg hc, if_neg (by omega)]

/-- An assignment loop over the whole list. -/
theorem forOutChecked_full (f : List pair → Nat → Option Str) (g : pair → Nat → Str)
    (matched : List pair)
    (hf : ∀ (ms : List pair) (j : Nat) (m : pair), j < matched.length →
      ms[j]? = some m → f ms j = some (g m j)) :
    ∃ r, forOutChecked f matched.length 0 matched = some r
      ∧ ∀ j : Nat, r[j]? = (matched[j]?).map (fun (m : pair) => { m with out := g m j }) := by
  obtain ⟨r, hr, _, hrg⟩ := forOutChecked_spec f g matched.length 0 matched (by omega)
    (fun ms j m _ h2 h3 => hf ms j m (by omega) h3)
  refine ⟨r, hr, fun j => ?_⟩
  rw [hrg j]
  by_cases hj : j < matched.length
  · rw [if_pos ⟨Nat.zero_le _, by omega⟩]
  · rw [if_neg (by omega), List.getElem?_eq_none (Nat.not_lt.mp hj)]
    rfl

theorem assignOuts_getElem? (outs : List Str) (mismatch : Int) (i : Nat) (ms : List pair)
    (j : Nat) :
    (assignOuts outs mismatch i ms)[j]?
      = (ms[j]?).map
          (fun (m : pair) => { m with out := assignedOut outs mismatch (i + j) }) := by
  induction ms generalizing i j with
  | nil => rfl
  | cons m ms ih =>
    rw [assignOuts]
    cases j with
    | zero => simp only [List.getElem?_cons_zero, Option.map_some', Nat.add_zero]
    | succ j =>
      rw [List.getElem?_cons_succ, List.getElem?_cons_succ, ih]
      rw [show i + 1 + j = i + (j + 1) by omega]

theorem assignOuts_length (outs : List Str) (mismatch : Int) (i : Nat) (ms : List pair) :
    (assignOuts outs mismatch i ms).length = ms.length := by
  induction ms generalizing i with
  | nil => rfl
  | cons m ms ih => rw [assignOuts, List.length_cons, List.length_cons, ih]

theorem getD_of_lt (outs : List Str) (i : Nat) (h : i < outs.length) :
    outs[i]? = some (outs.getD i []) := by
  rw [List.getD_eq_getElem?_getD, List.getElem?_eq_getElem h]
  rfl

theorem widthSum_cons (c : Rune × Nat) (cs : List (Rune × Nat)) :
    widthSum (c :: cs) = c.2 + widthSum cs := by
  simp [widthSum]

/-- Every character of a string is at least one byte wide, and the widths add up to
the length of the string. -/
theorem chars_widths (n : Nat) (s : Str) (hn : s.length = n) :
    (∀ c ∈ chars s, 1 ≤ c.2) ∧ widthSum (chars s) = s.length := by
  induction n using Nat.strong_induction_on generalizing s with
  | _ n ih =>
    by_cases hs : s = []
    · subst hs
      rw [chars_nil]
      exact ⟨fun c hc => absurd hc (List.not_mem_nil c), rfl⟩
    · have hw := DecodeRuneInString_width_pos s hs
      have hl := DecodeRuneInString_width_le s
      have hd : (s.drop (DecodeRuneInString s).2).length < n := by
        rw [List.length_drop]; omega
      obtain ⟨h1, h2⟩ := ih _ hd (s.drop (DecodeRuneInString s).2) rfl
      rw [chars_cons s hs]
      constructor
      · intro c hc
        rcases List.mem_cons.mp hc with e | e
        · rw [e]; exact hw
        · exact h1 c e
      · rw [widthSum_cons, h2, List.length_drop]
        omega

theorem rangeFrom_lt (cs : List (Rune × Nat)) (k : Nat) (hcs : ∀ c ∈ cs, 1 ≤ c.2)
    (p : Nat × Rune) (hp : p ∈ rangeFrom k cs) : p.1 < k + widthSum cs := by
  induction cs generalizing k with
  | nil => exact absurd hp (List.not_mem_nil p)
  | cons c cs ih =>
    rw [rangeFrom] at hp
    rw [widthSum_cons]
    have hc := hcs c (List.mem_cons_self _ _)
    rcases List.mem_cons.mp hp with e | e
    · rw [e]
      show k < k + (c.2 + widthSum cs)
      omega
    · have := ih (k + c.2) (fun c1 h1 => hcs c1 (List.mem_cons_of_mem _ h1)) e
      omega

/-- The byte indices of `for i, c := range s` are inside `s`. -/
theorem rangeString_lt (s : Str) (p : Nat × Rune) (hp : p ∈ rangeString s) :
    p.1 < s.length := by
  have h := chars_widths s.length s rfl
  have := rangeFrom_lt (chars s) 0 h.1 p hp
  rw [h.2] at this
  omega

theorem Split_ne_nil (s : Str) (sep : Byte) : Split s sep ≠ [] := by
  induction s with
  | nil => exact List.cons_ne_nil _ _
  | cons x xs ih =>
    rw [Split]
    split_ifs
    · exact List.cons_ne_nil _ _
    · cases h : Split xs sep with
      | nil => exact absurd h ih
      | cons piece pieces => exact List.cons_ne_nil _ _

theorem HasPrefix_length (s pre : Str) (h : HasPrefix s pre = true) : pre.length ≤ s.length := by
  unfold HasPrefix at h
  induction pre generalizing s with
  | nil => exact Nat.zero_le _
  | cons a as ih =>
    cases s with
    | nil => exact absurd h (by simp [List.isPrefixOf])
    | cons b bs =>
      rw [List.isPrefixOf, Bool.and_eq_true] at h
      have := ih bs h.2
      rw [List.length_cons, List.length_cons]
      omega

theorem sliceFromChecked_of_le (s : Str) (n : Nat) (h : n ≤ s.length) :
    sliceFromChecked s n = some (s.drop n) := by
  unfold sliceFromChecked
  rw [if_pos h]

theorem opBodyChecked_eq (op : Rune) (a tmp : Str) :
    opBodyChecked op a tmp = some (opBody op a tmp) := by
  unfold opBodyChecked opBody
  by_cases hd : op = 100
  · rw [if_pos hd, if_pos hd]
    dsimp only
    by_cases h1 : HasPrefix tmp (bytesOf "../") = true
    · have hl := HasPrefix_length _ _ h1
      have h3 : (bytesOf "../").length = 3 := by decide
      rw [if_pos h1, if_pos h1, sliceFromChecked_of_le tmp 2 (by omega)]
      simp only [Option.some_bind]
      by_cases h2 : HasPrefix (tmp.drop 2) (bytesOf "./") = true
      · have hl2 := HasPrefix_length _ _ h2
        have h4 : (bytesOf "./").length = 2 := by decide
        rw [if_pos h2, if_pos h2, sliceFromChecked_of_le _ 1 (by omega)]
        rfl
      · rw [if_neg h2, if_neg h2]
        rfl
    · rw [if_neg h1, if_neg h1]
      simp only [Option.some_bind]
      by_cases h2 : HasPrefix tmp (bytesOf "./") = true
      · have hl2 := HasPrefix_length _ _ h2
        have h4 : (bytesOf "./").length = 2 := by decide
        rw [if_pos h2, if_pos h2, sliceFromChecked_of_le _ 1 (by omega)]
        rfl
      · rw [if_neg h2, if_neg h2]
        rfl
  · rw [if_neg hd, if_neg hd]

/-- The wildcard loop passes its checks when every byte index it uses is an index of
`args`. -/
theorem wildcardLoopChecked_eq (args : List Str) (l : List (Nat × Rune)) (tmp : Str)
    (h : ∀ p ∈ l, p.1 < args.length) :
    wildcardLoopChecked args l tmp = some (wildcardLoop args l tmp) := by
  induction l generalizing tmp with
  | nil => rfl
  | cons p rest ih =>
    obtain ⟨argnum, op⟩ := p
    have hlt : argnum < args.length := h (argnum, op) (List.mem_cons_self _ _)
    have hrest : ∀ q ∈ rest, q.1 < args.length := fun q hq => h q (List.mem_cons_of_mem _ hq)
    rw [wildcardLoopChecked, wildcardLoop]
    by_cases ho : isOp op = true
    · rw [if_pos ho, if_pos ho, getD_of_lt args argnum hlt]
      simp only [Option.some_bind]
      rw [opBodyChecked_eq]
      simp only [Option.some_bind]
      exact ih _ hrest
    · rw [if_neg ho, if_neg ho]
      exact ih _ hrest

theorem rootedChecked_eq (out : Str) :
    rootedChecked out = some (decide (out.length > 1 ∧ out[1]? = some (byteOf 47))) := by
  unfold rootedChecked
  by_cases hl : out.length > 1
  · rw [if_pos hl, List.getElem?_eq_getElem hl]
    simp only [Option.some_bind, Option.some.injEq, hl, true_and]
    by_cases hc : out[1] = byteOf 47
    · rw [hc]
      simp
    · simp [hc]
  · rw [if_neg hl]
    simp [hl]

/-- One turn of the wildcard pass of `matchio` passes all its checks. -/
theorem wildcardOutChecked_eq (m : pair) : wildcardOutChecked m = some (wildcardOut m) := by
  unfold wildcardOutChecked wildcardOut
  by_cases hp : HasPrefix m.out (bytesOf "/") = true
  · rw [if_pos hp, if_pos hp, rootedChecked_eq]
    simp only [Option.some_bind, decide_eq_true_eq]
    by_cases hr : m.out.length > 1 ∧ m.out[1]? = some (byteOf 47)
    · rw [if_pos hr, if_pos hr]
      exact sliceFromChecked_of_le _ _ (by omega)
    · rw [if_neg hr, if_neg hr]
      have hss := Split_ne_nil m.out (byteOf 32)
      generalize Split m.out (byteOf 32) = ss at hss ⊢
      cases ss with
      | nil => exact absurd rfl hss
      | cons ss0 rest =>
        simp only [List.getElem?_cons_zero, Option.some_bind, List.headD_cons,
          List.length_cons, List.drop_succ_cons, List.drop_zero]
        rw [if_pos (by omega)]
        simp only [Option.some_bind]
        by_cases hg : rest.length < (directOf ss0).length
        · rw [if_pos hg, if_pos hg]
        · rw [if_neg hg, if_neg hg,
            wildcardLoopChecked_eq rest (rangeString (directOf ss0)) m.in_
              (fun p hp => Nat.lt_of_lt_of_le (rangeString_lt _ p hp) (Nat.not_lt.mp hg))]
          simp only [Option.some_bind]
          split_ifs <;> rfl
  · rw [if_neg hp, if_neg hp]

/-- The pairing loops of `matchio` pass their checks and assign `assignedOut`. -/
theorem pairing_checked (outs : List Str) (matched : List pair) (mismatch : Int)
    (ho : outs.length ≠ 0)
    (hmm : mismatch = if (matched.length : Int) - outs.length < 0 then 0
      else (matched.length : Int) - outs.length) :
    (if mismatch = 0 then forOutChecked (fun _ i => outs[i]?) matched.length 0 matched
     else
      (forOutChecked (fun _ i => outs[i]?) outs.length 0 matched).bind fun matched1 =>
        forOutChecked (fun _ _ => if 1 ≤ outs.length then outs[outs.length - 1]? else none)
          (matched.length - outs.length) outs.length matched1)
      = some (assignOuts outs mismatch 0 matched) := by
  by_cases h0 : mismatch = 0
  · rw [if_pos h0]
    have hle : matched.length ≤ outs.length := by
      rw [h0] at hmm
      split_ifs at hmm <;> omega
    obtain ⟨r, hr, hrg⟩ := forOutChecked_full (fun _ i => outs[i]?)
      (fun _ j => outs.getD j []) matched
      (fun ms j m hj _ => getD_of_lt outs j (by omega))
    rw [hr]
    congr 1
    apply List.ext_getElem?
    intro j
    rw [hrg, assignOuts_getElem?]
    congr 1
    funext m
    simp only [assignedOut, if_pos h0, Nat.zero_add]
  · rw [if_neg h0]
    have hlt : outs.length < matched.length := by
      split_ifs at hmm <;> omega
    obtain ⟨r1, hr1, hl1, hg1⟩ := forOutChecked_spec (fun _ i => outs[i]?)
      (fun _ j => outs.getD j []) outs.length 0 matched (by omega)
      (fun ms j m _ hj _ => getD_of_lt outs j (by omega))
    obtain ⟨r2, hr2, hl2, hg2⟩ := forOutChecked_spec
      (fun _ _ => if 1 ≤ outs.length then outs[outs.length - 1]? else none)
      (fun _ _ => outs.getD (outs.length - 1) []) (matched.length - outs.length)
      outs.length r1 (by omega)
      (fun ms j m _ _ _ => by
        rw [if_pos (by omega)]
        exact getD_of_lt outs _ (by omega))
    rw [hr1]
    simp only [Option.some_bind]
    rw [hr2]
    congr 1
    apply List.ext_getElem?
    intro j
    rw [hg2, hg1, assignOuts_getElem?]
    by_cases hj : j < outs.length
    · rw [if_neg (by omega), if_pos ⟨Nat.zero_le _, by omega⟩]
      congr 1
      funext m
      simp only [assignedOut, if_neg h0, Nat.zero_add, if_pos hj]
    · by_cases hj2 : j < matched.length
      · rw [if_pos ⟨by omega, by omega⟩, if_neg (by omega)]
        congr 1
        funext m
        simp only [assignedOut, if_neg h0, Nat.zero_add, if_neg hj]
      · rw [if_neg (by omega), if_neg (by omega),
          List.getElem?_eq_none (Nat.not_lt.mp hj2)]
        rfl

/-- Every index and slice expression that `matchio` evaluates is in range: the checked
function never fails and gives what `matchio` gives. -/
theorem matchioChecked_eq (ins outs : List Str) :
    matchioChecked ins outs = some (matchio ins outs) := by
  unfold matchioChecked matchio
  dsimp only
  have hml : (ins.map (fun f => ({ in_ := f, out := bytesOf "x" } : pair))).length
      = ins.length := List.length_map _ _
  generalize ins.map (fun f => ({ in_ := f, out := bytesOf "x" } : pair)) = matched at hml ⊢
  by_cases ho : (outs.length : Int) = 0
  · rw [if_pos ho, if_pos ho]
    obtain ⟨r, hr, hrg⟩ := forOutChecked_full
      (fun ms i => (ms[i]?).bind fun m => some (m.in_ ++ defExt))
      (fun m _ => m.in_ ++ defExt) matched
      (fun ms j m _ h3 => by dsimp only; rw [h3]; rfl)
    rw [hr]
    congr 1
    apply List.ext_getElem?
    intro j
    rw [hrg, List.getElem?_map]
  · rw [if_neg ho, if_neg ho, ← hml]
    have hp := pairing_checked outs matched
      (if (matched.length : Int) - outs.length < 0 then 0
        else (matched.length : Int) - outs.length)
      (by omega) rfl
    rw [hp]
    simp only [Option.some_bind]
    obtain ⟨r, hr, hrg⟩ := forOutChecked_full
      (fun ms i => (ms[i]?).bind wildcardOutChecked) (fun m _ => wildcardOut m)
      (assignOuts outs
        (if (matched.length : Int) - outs.length < 0 then 0
          else (matched.length : Int) - outs.length)
        0 matched)
      (fun ms j m _ h3 => by
        dsimp only
        rw [h3]
        exact wildcardOutChecked_eq m)
    rw [hr]
    congr 1
    apply List.ext_getElem?
    intro j
    rw [hrg, List.getElem?_map]

/-! ## What matchio returns -/

theorem matchio_nil_outs (ins : List Str) :
    matchio ins [] = ins.map (fun f => ({ in_ := f, out := f ++ defExt } : pair)) := by
  unfold matchio
  dsimp only
  rw [if_pos (show ((([] : List Str).length : Nat) : Int) = 0 from rfl), List.map_map]
  rfl

/-- The pair at index `i` of the result of `matchio`, when there are outs. -/
theorem matchio_getElem? (ins outs : List Str) (ho : outs ≠ []) (i : Nat) :
    (matchio ins outs)[i]?
      = (ins[i]?).map (fun f =>
          ({ in_ := f,
             out := wildcardOut
               { in_ := f,
                 out := assignedOut outs
                   (if (ins.length : Int) - outs.length < 0 then 0
                    else (ins.length : Int) - outs.length) i } } : pair)) := by
  have hl : (outs.length : Int) ≠ 0 := by
    intro h
    exact ho (List.length_eq_zero.mp (by omega))
  unfold matchio
  dsimp only
  rw [if_neg hl, List.getElem?_map, assignOuts_getElem?, List.getElem?_map, Nat.zero_add]
  cases ins[i]? with
  | none => rfl
  | some f => rfl

/-- For an index of `ins` the pairing loops assign `outs[i]` while there are outs and
the last out after that. -/
theorem assignedOut_of_lt (ins outs : List Str) (ho : outs ≠ []) (i : Nat)
    (hi : i < ins.length) :
    some (assignedOut outs
      (if (ins.length : Int) - outs.length < 0 then 0 else (ins.length : Int) - outs.length) i)
      = if i < outs.length then outs[i]? else outs.getLast? := by
  have hpos : 0 < outs.length := List.length_pos.mpr ho
  unfold assignedOut
  by_cases hio : i < outs.length
  · rw [if_pos hio, getD_of_lt outs i hio]
    split_ifs <;> rfl
  · rw [if_neg hio, List.getLast?_eq_getElem?, getD_of_lt outs _ (by omega : outs.length - 1 < outs.length)]
    rw [if_neg (by split_ifs <;> omega), if_neg hio]

theorem wildcardOut_of_plain (m : pair) (h : HasPrefix m.out (bytesOf "/") = false) :
    wildcardOut m = m.out := by
  unfold wildcardOut
  rw [if_neg (by rw [h]; exact Bool.false_ne_true)]

/-! ## The claims -/

/-- C1, evaluated on the code: the text `12345678 var a` contains neither the
opening delimiter of the code nor a pair of opening braces, yet the run appends an
`a` to it, and expanding that output again appends two more. -/
theorem C1_undelimited_text_is_changed (w : World) :
    Contains (bytesOf "12345678 var a") leftDelim = false
      ∧ Contains (bytesOf "12345678 var a") (bytesOf "\x7b\x7b") = false
      ∧ (parse w 5 (bytesOf "12345678 var a")).map (fun t => t.expanded)
          = some (bytesOf "12345678 var aa")
      ∧ (parse w 5 (bytesOf "12345678 var aa")).map (fun t => t.expanded)
          = some (bytesOf "12345678 var aaaa") := by
  refine ⟨by decide!, by decide!, ?_, ?_⟩
  · rw [parse_of_pure w 5 (bytesOf "12345678 var a")
      ((parseLoopPure 5 (scanText (newTemplate (bytesOf "12345678 var a"))).1
        (scanText (newTemplate (bytesOf "12345678 var a"))).2).getD none) (by decide!)]
    decide!
  · rw [parse_of_pure w 5 (bytesOf "12345678 var aa")
      ((parseLoopPure 5 (scanText (newTemplate (bytesOf "12345678 var aa"))).1
        (scanText (newTemplate (bytesOf "12345678 var aa"))).2).getD none) (by decide!)]
    decide!

/-- C2, evaluated on the code: `leftDelim` and `rightDelim` are the eight-character
texts backslash-1-2-3 twice and backslash-1-2-5 twice, not two opening and two closing
braces, and no opening delimiter is found in the text `a`, two opening braces, `b`. -/
theorem C2_delimiters_are_not_braces :
    leftDelim = bytesOf "\\123\\123" ∧ rightDelim = bytesOf "\\125\\125"
      ∧ leftDelim.length = 8 ∧ rightDelim.length = 8
      ∧ leftDelim ≠ bytesOf "\x7b\x7b" ∧ rightDelim ≠ bytesOf "\x7d\x7d"
      ∧ Contains (bytesOf "a\x7b\x7bb") leftDelim = false := by
  decide!

/-- C3, evaluated on the code: on the text of the claim the run stops after one call
of `scanForFunc` with the whole input in the Output Accumulator, not `hello`, and with
nothing stored in the Variable Store. -/
theorem C3_let_var_is_not_expanded (w : World) :
    (parse w 1 (bytesOf "\x7b\x7b let a hello \x7d\x7d\x7b\x7b var a \x7d\x7d")).map
        (fun t => (t.expanded, t.vars))
      = some (bytesOf "\x7b\x7b let a hello \x7d\x7d\x7b\x7b var a \x7d\x7d", [])
    ∧ bytesOf "\x7b\x7b let a hello \x7d\x7d\x7b\x7b var a \x7d\x7d" ≠ bytesOf "hello" := by
  refine ⟨?_, by decide!⟩
  rw [parse_of_pure w 1 (bytesOf "\x7b\x7b let a hello \x7d\x7d\x7b\x7b var a \x7d\x7d")
    ((parseLoopPure 1
      (scanText (newTemplate (bytesOf "\x7b\x7b let a hello \x7d\x7d\x7b\x7b var a \x7d\x7d"))).1
      (scanText (newTemplate (bytesOf "\x7b\x7b let a hello \x7d\x7d\x7b\x7b var a \x7d\x7d"))).2
      ).getD none) (by decide!)]
  decide!

/-- C4, evaluated on the code: the opening delimiter does not occur in `abc`, and
`scanText` returns `scanForFunc` there, not nil. -/
theorem C4_scanText_goes_on_without_delimiter :
    Contains ((newTemplate (bytesOf "abc")).text.drop (newTemplate (bytesOf "abc")).pos)
        leftDelim = false
      ∧ (scanText (newTemplate (bytesOf "abc"))).1 = some scanfunc.scanForFunc := by
  decide!

/-- C5: in a context whose registry is the one `parse` builds, `scanForFunc` returns
nil exactly when the word it reads is neither the comment-open token nor one of the
six keywords `clip`, `env`, `exec`, `file`, `var`, `let`; and whatever it returns, the
Output Accumulator and the Variable Store are what they were. -/
theorem C5_scanForFunc_stops_on_unknown_word (t : template) (h : t.funcs = funcMap) :
    ((scanForFunc t).1 = none
        ↔ (getNextWord t).1 ∉ [bytesOf "/*", bytesOf "clip", bytesOf "env", bytesOf "exec",
            bytesOf "file", bytesOf "var", bytesOf "let"])
      ∧ (scanForFunc t).2.expanded = t.expanded ∧ (scanForFunc t).2.vars = t.vars := by
  have hf : (getNextWord t).2.funcs = funcMap := by
    rw [frame_funcs (getNextWord_frame t), h]
  have hfr : (scanForFunc t).2 = (getNextWord t).2 := by
    unfold scanForFunc
    dsimp only
    split_ifs <;> rfl
  refine ⟨?_, ?_, ?_⟩
  · unfold scanForFunc
    dsimp only
    by_cases hc : (getNextWord t).1 = bytesOf "/*"
    · rw [if_pos hc]
      simp [hc]
    · rw [if_neg hc, hf, lookup_funcMap_eq_none]
      simp only [List.mem_cons, not_or]
      exact ⟨fun hk => ⟨hc, by simpa [not_or] using hk⟩,
        fun hk => by simpa [not_or] using hk.2⟩
  · rw [hfr]; exact frame_expanded (getNextWord_frame t)
  · rw [hfr]; exact frame_vars (getNextWord_frame t)

/-- C5 at the context that `parse` builds for the text ` bogus `. -/
theorem C5_scanForFunc_stops_on_unknown_word_witness :
    (newTemplate (bytesOf " bogus ")).funcs = funcMap
      ∧ (((scanForFunc (newTemplate (bytesOf " bogus "))).1 = none
          ↔ (getNextWord (newTemplate (bytesOf " bogus "))).1 ∉ [bytesOf "/*", bytesOf "clip",
              bytesOf "env", bytesOf "exec", bytesOf "file", bytesOf "var", bytesOf "let"])
        ∧ (scanForFunc (newTemplate (bytesOf " bogus "))).2.expanded
            = (newTemplate (bytesOf " bogus ")).expanded
        ∧ (scanForFunc (newTemplate (bytesOf " bogus "))).2.vars
            = (newTemplate (bytesOf " bogus ")).vars) :=
  ⟨rfl, C5_scanForFunc_stops_on_unknown_word (newTemplate (bytesOf " bogus ")) rfl⟩

/-- C6: in every world and context, `envFunc` reads one word and appends to the
Output Accumulator nothing when the word is empty, the word itself when it does not
begin with a dollar sign, and otherwise the value of the environment variable named by
the word without its dollar sign when that value is non-empty, or the word itself,
dollar sign included, when it is unset or empty; it always returns `scanToEnd` and
the Variable Store is what it was. -/
theorem C6_envFunc_emits_value_or_word (w : World) (t : template) :
    (envFunc w t).1 = some scanfunc.scanToEnd
      ∧ (envFunc w t).2.vars = t.vars
      ∧ (envFunc w t).2.expanded
          = t.expanded ++
            (if (getNextWord t).1 = [] then []
             else if (getNextWord t).1.head? ≠ some (byteOf 36) then (getNextWord t).1
             else if w.getenv ((getNextWord t).1.drop 1) ≠ [] then
               w.getenv ((getNextWord t).1.drop 1)
             else (getNextWord t).1) := by
  have hexp := frame_expanded (getNextWord_frame t)
  have hvars := frame_vars (getNextWord_frame t)
  have hpre : ∀ word : Str, HasPrefix word (bytesOf "$") = true ↔ word.head? = some (byteOf 36) := by
    intro word
    have e : bytesOf "$" = [byteOf 36] := by decide!
    rw [e]
    cases word with
    | nil => simp [HasPrefix]
    | cons x xs =>
      simp only [HasPrefix, List.isPrefixOf, Bool.and_true, beq_iff_eq, List.head?_cons,
        Option.some.injEq]
      exact eq_comm
  unfold envFunc
  dsimp only
  by_cases h0 : (getNextWord t).1 = []
  · rw [if_pos (by rw [h0]; rfl), if_pos h0]
    exact ⟨rfl, hvars, by rw [List.append_nil]; exact hexp⟩
  · have hl : ¬ (getNextWord t).1.length = 0 := by
      rwa [List.length_eq_zero]
    rw [if_neg hl, if_neg h0]
    by_cases hp : (getNextWord t).1.head? = some (byteOf 36)
    · have hp2 : HasPrefix (getNextWord t).1 (bytesOf "$") = true := (hpre _).2 hp
      rw [if_neg (by rw [hp2]; decide), if_neg (not_not.mpr hp)]
      by_cases he : w.getenv ((getNextWord t).1.drop 1) = []
      · rw [if_pos (by rw [he]; rfl), if_neg (not_not.mpr he)]
        exact ⟨rfl, hvars, by unfold template.puts; dsimp only; rw [hexp]⟩
      · have hel : ¬ (w.getenv ((getNextWord t).1.drop 1)).length = 0 := by
          rwa [List.length_eq_zero]
        rw [if_neg hel, if_pos he]
        exact ⟨rfl, hvars, by unfold template.puts; dsimp only; rw [hexp]⟩
    · have hp2 : HasPrefix (getNextWord t).1 (bytesOf "$") = false := by
        cases hb : HasPrefix (getNextWord t).1 (bytesOf "$") with
        | false => rfl
        | true => exact absurd ((hpre _).1 hb) hp
      rw [if_pos (by rw [hp2]; decide), if_pos hp]
      exact ⟨rfl, hvars, by unfold template.puts; dsimp only; rw [hexp]⟩

/-- C7: in every context `letFunc` returns `scanText` and emits nothing; afterwards
the name read by `getNextWord` maps to the text that `getToDelim` returned for the
closing delimiter without its leading and trailing spaces (that text is some spaces,
the stored value, some spaces, and the stored value neither begins nor ends with a
space), and every other name reads as before. -/
theorem C7_letFunc_stores_trimmed_body (t : template) :
    (letFunc t).1 = some scanfunc.scanText
      ∧ (letFunc t).2.expanded = t.expanded
      ∧ (letFunc t).2.getVar (getNextWord t).1
          = Trim (getToDelim (getNextWord t).2 rightDelim).1 (byteOf 32)
      ∧ (∃ a b : Nat, (getToDelim (getNextWord t).2 rightDelim).1
            = List.replicate a (byteOf 32) ++ (letFunc t).2.getVar (getNextWord t).1
                ++ List.replicate b (byteOf 32)
          ∧ ((letFunc t).2.getVar (getNextWord t).1).head? ≠ some (byteOf 32)
          ∧ ((letFunc t).2.getVar (getNextWord t).1).getLast? ≠ some (byteOf 32))
      ∧ ∀ k : Str, k ≠ (getNextWord t).1 → (letFunc t).2.getVar k = t.getVar k := by
  have hfr : (getToDelim (getNextWord t).2 rightDelim).2.2.frame = t.frame := by
    rw [getToDelim_frame, getNextWord_frame]
  have hget : (letFunc t).2.getVar (getNextWord t).1
      = Trim (getToDelim (getNextWord t).2 rightDelim).1 (byteOf 32) := by
    unfold letFunc
    dsimp only
    rw [getVar_storeVar_same]
  refine ⟨rfl, ?_, hget, ?_, ?_⟩
  · unfold letFunc template.storeVar
    dsimp only
    exact frame_expanded hfr
  · rw [hget]
    exact Trim_spec _ _
  · intro k hk
    unfold letFunc
    dsimp only
    rw [getVar_storeVar_other _ _ _ _ hk]
    exact getVar_congr (frame_vars hfr) k

/-- What `clipFunc` appends to the Output Accumulator: nothing when clipboard
initialisation fails, and the marker line followed by the clipboard text when it
succeeds, so an empty clipboard gives the marker line alone; the branch that appends
the placeholder `clipboard` is never taken. -/
theorem clipFunc_appends (w : World) (t : template) :
    (clipFunc w t).1 = some scanfunc.scanToEnd
      ∧ (clipFunc w t).2.expanded
          = t.expanded ++
            (if w.clipInit then bytesOf "//---------------\n" ++ w.clipRead else [])
      ∧ (if w.clipInit then bytesOf "//---------------\n" ++ w.clipRead else [])
          ≠ bytesOf "clipboard" := by
  have hm : bytesOf "//---------------\n" = byteOf 47 :: (bytesOf "/---------------\n") := by
    decide!
  have hc : bytesOf "clipboard" = byteOf 99 :: (bytesOf "lipboard") := by decide!
  unfold clipFunc
  dsimp only
  cases hi : w.clipInit with
  | false =>
    refine ⟨rfl, by simp, ?_⟩
    rw [hc]
    simp
  | true =>
    have hlen : ¬ (bytesOf "//---------------\n" ++ w.clipRead).length = 0 := by
      rw [hm]; simp
    simp only [if_true, if_neg hlen]
    refine ⟨trivial, rfl, ?_⟩
    rw [hm, hc, List.cons_append]
    intro he
    have := (List.cons.inj he).1
    revert this
    decide

/-- C8 as stated fails: when clipboard initialisation fails, `clipFunc` leaves the
Output Accumulator as it was and appends no placeholder. -/
theorem C8_no_placeholder_when_init_fails :
    (World.answering []).clipInit = false
      ∧ (clipFunc (World.answering []) (newTemplate (bytesOf "x"))).2.expanded
          = (newTemplate (bytesOf "x")).expanded
      ∧ (clipFunc (World.answering []) (newTemplate (bytesOf "x"))).2.expanded
          ≠ (newTemplate (bytesOf "x")).expanded ++ bytesOf "clipboard" := by
  decide!

/-- C8, amended: `clipFunc` returns `scanToEnd` in all cases, and when clipboard
initialisation fails it leaves the whole context, the Output Accumulator included,
as it was. -/
theorem C8_clipFunc_skips_to_end (w : World) (t : template) :
    (clipFunc w t).1 = some scanfunc.scanToEnd
      ∧ (w.clipInit = false → (clipFunc w t).2 = t) := by
  refine ⟨(clipFunc_appends w t).1, ?_⟩
  intro h
  unfold clipFunc
  rw [h]
  rfl

/-- C8 amended, in a world where clipboard initialisation fails. -/
theorem C8_clipFunc_skips_to_end_witness :
    (World.answering []).clipInit = false
      ∧ (clipFunc (World.answering []) (newTemplate (bytesOf "x"))).2 = newTemplate (bytesOf "x") :=
  ⟨rfl, (C8_clipFunc_skips_to_end (World.answering []) (newTemplate (bytesOf "x"))).2 rfl⟩

/-- C9 as stated fails: for the command `ls` and the captured output newline, `hi`,
newline, newline, the claim has `execFunc` put back that output without its last
newline only, and the code puts back `hi` alone. -/
theorem C9_one_trailing_newline_is_not_what_is_removed :
    (getToDelim (newTemplate (bytesOf "ls\\125\\125")) rightDelim).1 ≠ []
      ∧ (execFunc (World.answering (bytesOf "\nhi\n\n")) (newTemplate (bytesOf "ls\\125\\125"))).2.text
          ≠ (getToDelim (newTemplate (bytesOf "ls\\125\\125")) rightDelim).2.2.text.take
                (getToDelim (newTemplate (bytesOf "ls\\125\\125")) rightDelim).2.2.pos
              ++ trimOneTrailingNewline (bytesOf "\nhi\n\n")
              ++ (getToDelim (newTemplate (bytesOf "ls\\125\\125")) rightDelim).2.2.text.drop
                (getToDelim (newTemplate (bytesOf "ls\\125\\125")) rightDelim).2.2.pos
      ∧ (execFunc (World.answering (bytesOf "\nhi\n\n")) (newTemplate (bytesOf "ls\\125\\125"))).2.text
          = bytesOf "ls\\125\\125hi" := by
  decide!

/-- C9, amended: when the command text read by `getToDelim` is non-empty, `execFunc`
returns `scanText`, emits nothing, leaves the cursor where `getToDelim` left it and
splices into the buffer there the captured output of the command without its leading
and its trailing newlines: the output is some newlines, the spliced text, some
newlines, and the spliced text neither begins nor ends with a newline. -/
theorem C9_execFunc_reinjects_output_without_outer_newlines (w : World) (t : template)
    (h : (getToDelim t rightDelim).1 ≠ []) :
    (execFunc w t).1 = some scanfunc.scanText
      ∧ (execFunc w t).2.expanded = t.expanded
      ∧ (execFunc w t).2.pos = (getToDelim t rightDelim).2.2.pos
      ∧ (execFunc w t).2.text
          = t.text.take (getToDelim t rightDelim).2.2.pos
              ++ Trim (w.exec (getToDelim t rightDelim).1) (byteOf 10)
              ++ t.text.drop (getToDelim t rightDelim).2.2.pos
      ∧ ∃ a b : Nat, w.exec (getToDelim t rightDelim).1
            = List.replicate a (byteOf 10) ++ Trim (w.exec (getToDelim t rightDelim).1) (byteOf 10)
                ++ List.replicate b (byteOf 10)
          ∧ (Trim (w.exec (getToDelim t rightDelim).1) (byteOf 10)).head? ≠ some (byteOf 10)
          ∧ (Trim (w.exec (getToDelim t rightDelim).1) (byteOf 10)).getLast? ≠ some (byteOf 10) := by
  have hfr := getToDelim_frame t rightDelim
  have hl : (getToDelim t rightDelim).1.length > 0 := List.length_pos.mpr h
  have he : execFunc w t = (some scanfunc.scanText,
      (getToDelim t rightDelim).2.2.insert (Trim (w.exec (getToDelim t rightDelim).1) (byteOf 10))) := by
    unfold execFunc
    dsimp only
    rw [if_pos hl]
  rw [he]
  dsimp only
  rw [insert_expanded, insert_pos, insert_text, frame_text hfr]
  exact ⟨rfl, frame_expanded hfr, rfl, rfl, Trim_spec _ _⟩

/-- C9 amended, at the command `ls` answered with newline, `hi`, newline, newline. -/
theorem C9_execFunc_reinjects_output_without_outer_newlines_witness :
    (getToDelim (newTemplate (bytesOf "ls\\125\\125")) rightDelim).1 ≠ []
      ∧ (execFunc (World.answering (bytesOf "\nhi\n\n"))
          (newTemplate (bytesOf "ls\\125\\125"))).1 = some scanfunc.scanText :=
  ⟨by decide!,
    (C9_execFunc_reinjects_output_without_outer_newlines (World.answering (bytesOf "\nhi\n\n"))
      (newTemplate (bytesOf "ls\\125\\125")) (by decide!)).1⟩

/-- C10 as stated fails: inserting the single byte C3 in front of the text A9 at
position 0, the next call of `next` returns U+00E9 and advances by 2, while the
first character of the inserted string is the error rune of width 1. -/
theorem C10_next_may_read_past_the_inserted_string :
    (newTemplate [byteOf 0xA9]).pos ≤ (newTemplate [byteOf 0xA9]).text.length
      ∧ [byteOf 0xC3] ≠ ([] : Str)
      ∧ DecodeRuneInString [byteOf 0xC3] = (RuneError, 1)
      ∧ ((newTemplate [byteOf 0xA9]).insert [byteOf 0xC3]).next.1 = 0xE9
      ∧ ((newTemplate [byteOf 0xA9]).insert [byteOf 0xC3]).next.2.pos
          = (newTemplate [byteOf 0xA9]).pos + 2
      ∧ ¬ (((newTemplate [byteOf 0xA9]).insert [byteOf 0xC3]).next.1
            = (DecodeRuneInString [byteOf 0xC3]).1
          ∧ ((newTemplate [byteOf 0xA9]).insert [byteOf 0xC3]).next.2.pos
            = (newTemplate [byteOf 0xA9]).pos + (DecodeRuneInString [byteOf 0xC3]).2) := by
  decide!

/-- C10, amended: with `pos ≤ len(text)`, `insert(s)` makes the text the old text
before `pos`, then `s`, then the old text from `pos` on, and leaves `pos`, `line`,
the Output Accumulator and the Variable Store unchanged; when `s` is non-empty the
next call of `next` returns the first character of `s` followed by the old text from
`pos` on and advances by its width, and that is the first character of `s` itself
unless `s` is only the beginning of a multi-byte sequence. -/
theorem C10_insert_splices_at_pos (t : template) (s : Str) (hpos : t.pos ≤ t.text.length) :
    (t.insert s).text = t.text.take t.pos ++ s ++ t.text.drop t.pos
      ∧ (t.insert s).pos = t.pos ∧ (t.insert s).line = t.line
      ∧ (t.insert s).expanded = t.expanded ∧ (t.insert s).vars = t.vars
      ∧ (s ≠ [] →
          (t.insert s).next.1 = (DecodeRuneInString (s ++ t.text.drop t.pos)).1
            ∧ (t.insert s).next.2.pos = t.pos + (DecodeRuneInString (s ++ t.text.drop t.pos)).2)
      ∧ (s ≠ [] → truncatedHead s = false →
          (t.insert s).next.1 = (DecodeRuneInString s).1
            ∧ (t.insert s).next.2.pos = t.pos + (DecodeRuneInString s).2) := by
  have hgen : s ≠ [] →
      (t.insert s).next.1 = (DecodeRuneInString (s ++ t.text.drop t.pos)).1
        ∧ (t.insert s).next.2.pos = t.pos + (DecodeRuneInString (s ++ t.text.drop t.pos)).2 := by
    intro hs
    have hlt := insert_pos_lt t s hpos hs
    rw [next_fst_of_lt _ hlt, next_pos_of_lt _ hlt, insert_drop t s hpos]
    exact ⟨rfl, rfl⟩
  refine ⟨rfl, rfl, rfl, rfl, rfl, hgen, ?_⟩
  intro hs ht
  rw [← DecodeRuneInString_append s (t.text.drop t.pos) hs ht]
  exact hgen hs

/-- C10 amended, at the text `ab` with the cursor after `a`, inserting `xy`. -/
theorem C10_insert_splices_at_pos_witness :
    ((newTemplate (bytesOf "ab")).next.2).pos ≤ ((newTemplate (bytesOf "ab")).next.2).text.length
      ∧ (((newTemplate (bytesOf "ab")).next.2).insert (bytesOf "xy")).text
          = ((newTemplate (bytesOf "ab")).next.2).text.take ((newTemplate (bytesOf "ab")).next.2).pos
              ++ bytesOf "xy"
              ++ ((newTemplate (bytesOf "ab")).next.2).text.drop
                  ((newTemplate (bytesOf "ab")).next.2).pos :=
  ⟨by decide!,
    (C10_insert_splices_at_pos ((newTemplate (bytesOf "ab")).next.2) (bytesOf "xy")
      (by decide!)).1⟩

/-- C11, evaluated on the code: in the text `é\123\123x` the opening delimiter occurs
at byte 2 after the two bytes of `é`; `toNextDelim` calls `next` twice, which reads
`é` and the backslash of the delimiter, so it returns `é\`, leaves `pos` at 3 and
returns 3, not `é`, 2 and 2. -/
theorem C11_toNextDelim_counts_bytes_as_characters :
    leftDelim ≠ []
      ∧ Contains ((newTemplate (bytesOf "é\\123\\123x")).text.drop 0) leftDelim = true
      ∧ Index ((newTemplate (bytesOf "é\\123\\123x")).text.drop 0) leftDelim = 2
      ∧ ((newTemplate (bytesOf "é\\123\\123x")).text.drop 0).take 2 = bytesOf "é"
      ∧ ((newTemplate (bytesOf "é\\123\\123x")).toNextDelim leftDelim).1 = bytesOf "é\\"
      ∧ ((newTemplate (bytesOf "é\\123\\123x")).toNextDelim leftDelim).2.1 = 3
      ∧ ((newTemplate (bytesOf "é\\123\\123x")).toNextDelim leftDelim).2.2.pos = 3 := by
  decide!

/-- C12 as stated fails: the closing delimiter does not occur in `abc`, and
`toNextDelim` returns `abc` with the sentinel but leaves `pos` at 0, not at 3. -/
theorem C12_rest_is_returned_but_not_consumed :
    Contains ((newTemplate (bytesOf "abc")).text.drop (newTemplate (bytesOf "abc")).pos)
        rightDelim = false
      ∧ ((newTemplate (bytesOf "abc")).toNextDelim rightDelim).1 = bytesOf "abc"
      ∧ ((newTemplate (bytesOf "abc")).toNextDelim rightDelim).2.1 = eof
      ∧ ((newTemplate (bytesOf "abc")).toNextDelim rightDelim).2.2.pos = 0
      ∧ ((newTemplate (bytesOf "abc")).toNextDelim rightDelim).2.2.pos
          ≠ ((newTemplate (bytesOf "abc")).toNextDelim rightDelim).2.2.text.length := by
  decide!

/-- C12, amended: when the delimiter does not occur in `text[pos:]`, `toNextDelim`
returns all of `text[pos:]` together with the sentinel `eof` and leaves the context,
`pos` included, as it was: the returned text is not consumed. -/
theorem C12_toNextDelim_without_delimiter (t : template) (d : Str)
    (h : ¬ d <:+: t.text.drop t.pos) :
    (t.toNextDelim d).1 = t.text.drop t.pos ∧ (t.toNextDelim d).2.1 = eof
      ∧ (t.toNextDelim d).2.2 = t := by
  have hc : ¬ Contains (t.text.drop t.Pos) d = true := fun hc => h ((Contains_iff _ _).mp hc)
  unfold template.toNextDelim
  rw [if_neg hc]
  exact ⟨rfl, rfl, rfl⟩

/-- C12 amended, at the text `abc` and the closing delimiter. -/
theorem C12_toNextDelim_without_delimiter_witness :
    ¬ rightDelim <:+: (newTemplate (bytesOf "abc")).text.drop (newTemplate (bytesOf "abc")).pos
      ∧ ((newTemplate (bytesOf "abc")).toNextDelim rightDelim).2.2 = newTemplate (bytesOf "abc") :=
  ⟨fun h => absurd ((Contains_iff _ _).mpr h) (by decide!),
    (C12_toNextDelim_without_delimiter (newTemplate (bytesOf "abc")) rightDelim
      (fun h => absurd ((Contains_iff _ _).mpr h) (by decide!))).2.2⟩

/-- C15 as stated fails: at the end of the text `a`, after `next` has set the width
to 1, `peek` returns the sentinel and sets the width to 0. -/
theorem C15_peek_resets_width_at_end :
    (newTemplate (bytesOf "a")).next.2.width = 1
      ∧ (newTemplate (bytesOf "a")).next.2.peek.1 = eof
      ∧ (newTemplate (bytesOf "a")).next.2.peek.2.width = 0
      ∧ (newTemplate (bytesOf "a")).next.2.peek.2.width
          ≠ (newTemplate (bytesOf "a")).next.2.width := by
  decide!

/-- C15, amended: `peek` returns what `next` would return from the same state and
leaves `pos`, `line` and `text` unchanged; it leaves the width unchanged inside the
text and sets it to 0 at the end of input. -/
theorem C15_peek_returns_what_next_returns (t : template) :
    t.peek.1 = t.next.1 ∧ t.peek.2.pos = t.pos ∧ t.peek.2.line = t.line
      ∧ t.peek.2.text = t.text
      ∧ t.peek.2.width = if t.text.length ≤ t.pos then 0 else t.width := by
  unfold template.peek template.next
  by_cases h : t.pos ≥ t.text.length
  · rw [if_pos h, if_pos h, if_pos h]
    exact ⟨rfl, rfl, rfl, rfl, rfl⟩
  · rw [if_neg h, if_neg h, if_neg h]
    dsimp only
    refine ⟨?_, rfl, rfl, rfl, rfl⟩
    split_ifs <;> rfl

/-- C13: `getNextWord` first moves the cursor over the whitespace characters ahead;
its token is then made of the characters that follow, up to whichever comes first of
the first whitespace character (excluded), the first pair of closing braces
(excluded), the first pair slash-star (included) and the end of input; `pos` is left
right after the last character of the token, and the token holds no whitespace
character and no pair of closing braces. -/
theorem C13_getNextWord_reads_the_first_word (t : template) :
    t.skipws.text = t.text
      ∧ t.skipws.pos = t.pos + widthSum (t.rest.takeWhile isSpaceChar)
      ∧ t.skipws.rest = t.rest.dropWhile isSpaceChar
      ∧ (getNextWord t).1
          = runesToString ((runesIn t.skipws.rest).take (wordLen (runesIn t.skipws.rest)))
      ∧ (getNextWord t).2.pos
          = t.skipws.pos + widthSum (t.skipws.rest.take (wordLen (runesIn t.skipws.rest)))
      ∧ (getNextWord t).2.text = t.text
      ∧ (∀ r ∈ (runesIn t.skipws.rest).take (wordLen (runesIn t.skipws.rest)), IsSpace r = false)
      ∧ firstPair 125 125 ((runesIn t.skipws.rest).take (wordLen (runesIn t.skipws.rest)))
          = ((runesIn t.skipws.rest).take (wordLen (runesIn t.skipws.rest))).length := by
  obtain ⟨s1, s2, s3⟩ := skipws_spec t
  obtain ⟨g1, g2, g3⟩ := getNextWord_spec t
  have hw := wordChars_eq_take t.skipws.rest
  refine ⟨s2, s1, s3, ?_, ?_, g3, ?_, ?_⟩
  · rw [g1, hw, runesIn_take]
  · rw [g2, hw]
  · intro r hr
    rw [← runesIn_take, ← hw] at hr
    obtain ⟨c, hc, rfl⟩ := List.mem_map.mp hr
    exact wordChars_no_space _ c hc
  · rw [← runesIn_take, ← hw]
    exact wordChars_no_close _

/-- C14: the context that `parse` builds has `pos ≤ len(text)`; from a context with `pos ≤ len(text)` every transition of the state
machine, in every world, passes all its run-time checks (no slice or index of the
text out of range, no negative `pos`) and gives a context with `pos ≤ len(text)`
again, and so does every run of the loop of `parse`; a `backup` right after a `next`,
or after a `next` and a `peek`, which are the only places where the engine calls
`backup`, passes its checks in every context. -/
theorem C14_pos_stays_within_the_text (w : World) (f : scanfunc) (t : template) (b : Str)
    (h : t.pos ≤ t.text.length) :
    (newTemplate b).pos ≤ (newTemplate b).text.length
      ∧ f.callChecked w t = some (f.call w t)
      ∧ (f.call w t).2.pos ≤ (f.call w t).2.text.length
      ∧ (∀ (fuel : Nat) (u : template), parseLoop w fuel (some f) t = some u →
          u.pos ≤ u.text.length)
      ∧ t.next.2.backupChecked = some t.next.2.backup
      ∧ t.next.2.peek.2.backupChecked = some t.next.2.peek.2.backup :=
  ⟨Nat.zero_le _, (call_checked w f t h).1, (call_checked w f t h).2,
    fun fuel u hr => parseLoop_inv w fuel (some f) t u h hr,
    backupChecked_next t, backupChecked_peek_next t⟩

/-- C14 at the context that `parse` builds for the text `ab`, in text-mode. -/
theorem C14_pos_stays_within_the_text_witness :
    (newTemplate (bytesOf "ab")).pos ≤ (newTemplate (bytesOf "ab")).text.length
      ∧ scanfunc.scanText.callChecked (World.answering []) (newTemplate (bytesOf "ab"))
          = some (scanfunc.scanText.call (World.answering []) (newTemplate (bytesOf "ab"))) :=
  ⟨Nat.zero_le _,
    (C14_pos_stays_within_the_text (World.answering []) scanfunc.scanText
      (newTemplate (bytesOf "ab")) [] (Nat.zero_le _)).2.1⟩


/-- C16, evaluated on the code: the text made of the opening delimiter, the word
`zz`, the closing delimiter and one newline contains one newline character; the run
over it stops at the unknown word `zz` with the text unchanged (nothing was inserted)
and the line counter at 0, not 1. -/
theorem C16_line_counter_stops_with_the_run :
    newlines (bytesOf "\\123\\123 zz \\125\\125\n") = 1
      ∧ (parse (World.answering []) 1 (bytesOf "\\123\\123 zz \\125\\125\n")).map
          (fun t => (t.line, t.pos, t.text))
          = some (0, 11, bytesOf "\\123\\123 zz \\125\\125\n")
      ∧ (parse (World.answering []) 1 (bytesOf "\\123\\123 zz \\125\\125\n")).map
          (fun t => t.line)
          ≠ some (newlines (bytesOf "\\123\\123 zz \\125\\125\n") : Int) := by
  rw [parse_of_pure (World.answering []) 1 (bytesOf "\\123\\123 zz \\125\\125\n")
    ((parseLoopPure 1 (scanText (newTemplate (bytesOf "\\123\\123 zz \\125\\125\n"))).1
      (scanText (newTemplate (bytesOf "\\123\\123 zz \\125\\125\n"))).2).getD none)
    (by decide!)]
  decide!

/-- C16, amended: when a run of the state machine over an input text finishes, the
line counter equals the number of newline characters of the consumed part
`text[:pos]` of the buffer; so when the buffer is still the input text (no insertion
changed it) and the run has consumed all of it, the line counter equals the number of
newline characters of the input. -/
theorem C16_line_counts_the_consumed_newlines (w : World) (fuel : Nat) (b : Str)
    (u : template) (hr : parse w fuel b = some u) :
    u.line = (newlines (u.text.take u.pos) : Int)
      ∧ (u.text = b → u.pos = b.length → u.line = (newlines b : Int)) := by
  have h := parse_line w fuel b u hr
  refine ⟨h.2, fun ht hp => ?_⟩
  rw [h.2, hp, ht, List.take_length]

/-- C16, amended, at the text of a newline and `12345678`: the run consumes the whole
text and counts its one newline. -/
theorem C16_line_counts_the_consumed_newlines_witness :
    ∃ u : template, parse (World.answering []) 1 (bytesOf "\n12345678") = some u
      ∧ u.text = bytesOf "\n12345678" ∧ u.pos = (bytesOf "\n12345678").length
      ∧ u.line = (newlines (bytesOf "\n12345678") : Int) ∧ u.line = 1 := by
  have hp : parse (World.answering []) 1 (bytesOf "\n12345678")
      = some (((parseLoopPure 1 (scanText (newTemplate (bytesOf "\n12345678"))).1
          (scanText (newTemplate (bytesOf "\n12345678"))).2).getD none).getD (newTemplate [])) :=
    parse_of_pure _ 1 _ _ (by decide!)
  have ht : (((parseLoopPure 1 (scanText (newTemplate (bytesOf "\n12345678"))).1
      (scanText (newTemplate (bytesOf "\n12345678"))).2).getD none).getD (newTemplate [])).text
        = bytesOf "\n12345678" := by decide!
  have hq : (((parseLoopPure 1 (scanText (newTemplate (bytesOf "\n12345678"))).1
      (scanText (newTemplate (bytesOf "\n12345678"))).2).getD none).getD (newTemplate [])).pos
        = (bytesOf "\n12345678").length := by decide!
  have hc := (C16_line_counts_the_consumed_newlines _ 1 _ _ hp).2 ht hq
  exact ⟨_, hp, ht, hq, hc, by rw [hc]; decide!⟩


/-- C19: in every world whose `exec` output trims to the empty string and whose file
reader fails or yields an empty file (getenv and the clipboard are arbitrary), the
loop of `parse` reaches the stop signal within `4 * len(text) + 5` transitions for
every input text: every transition leaves the text as it is and moves `pos` forward
or not at all, text-mode moves `pos` strictly forward while there is text left, and at
the end of the text text-mode is followed by `scanForFunc` and then by the stop
signal. -/
theorem C19_state_loop_terminates (w : World)
    (hexec : ∀ c, Trim (w.exec c) (byteOf 10) = [])
    (hfile : ∀ f, w.readFile f = none ∨ w.readFile f = some []) (b : Str) :
    (∃ u, parse w (4 * b.length + 5) b = some u)
      ∧ (∀ (f : scanfunc) (t : template),
          (f.call w t).2.text = t.text ∧ t.pos ≤ (f.call w t).2.pos)
      ∧ (∀ t : template, t.pos < t.text.length → t.pos < (scanText t).2.pos)
      ∧ (∀ t : template, t.funcs = funcMap → t.text.length ≤ t.pos →
          (scanText t).1 = some scanfunc.scanForFunc
            ∧ (scanForFunc (scanText t).2).1 = none) :=
  ⟨parse_terminates w hexec hfile b,
    fun f t => ⟨(call_adv w hexec hfile f t).1, (call_adv w hexec hfile f t).2.2⟩,
    fun t h => scanText_pos_lt t h,
    fun t hf h => ⟨scanText_never_nil t,
      scanForFunc_at_end _ ((scanText_adv t).2.1.trans hf)
        (by rw [(scanText_adv t).1]; exact Nat.le_trans h (scanText_adv t).2.2)⟩⟩

/-- C19 in the world whose commands print nothing and whose files cannot be read, at
the text `ab`. -/
theorem C19_state_loop_terminates_witness :
    (∀ c, Trim ((World.answering []).exec c) (byteOf 10) = [])
      ∧ (∀ f, (World.answering []).readFile f = none
          ∨ (World.answering []).readFile f = some [])
      ∧ ∃ u, parse (World.answering []) (4 * (bytesOf "ab").length + 5) (bytesOf "ab")
          = some u :=
  ⟨fun _ => rfl, fun _ => Or.inl rfl,
    (C19_state_loop_terminates (World.answering []) (fun _ => rfl) (fun _ => Or.inl rfl)
      (bytesOf "ab")).1⟩


/-- C17: for every list `ins` and every non-empty list `outs`, `matchio` returns
`len(ins)` pairs; the pair at index `i` has `in = ins[i]`, and when the output name
assigned to it (`outs[i]` for `i < len(outs)`, the last element of `outs` otherwise)
does not begin with `/`, that name is its `out`. -/
theorem C17_matchio_pairs_ins_with_outs (ins outs : List Str) (ho : outs ≠ []) :
    (matchio ins outs).length = ins.length
      ∧ ∀ i : Nat, i < ins.length →
          ((matchio ins outs)[i]?).map (fun p => p.in_) = ins[i]?
            ∧ ∀ o : Str, (if i < outs.length then outs[i]? else outs.getLast?) = some o →
                HasPrefix o (bytesOf "/") = false →
                ((matchio ins outs)[i]?).map (fun p => p.out) = some o := by
  constructor
  · have hl : (outs.length : Int) ≠ 0 := by
      intro h
      exact ho (List.length_eq_zero.mp (by omega))
    unfold matchio
    dsimp only
    rw [if_neg hl, List.length_map, assignOuts_length, List.length_map]
  · intro i hi
    rw [matchio_getElem? ins outs ho i, List.getElem?_eq_getElem hi]
    refine ⟨rfl, fun o hso hp => ?_⟩
    rw [← assignedOut_of_lt ins outs ho i hi] at hso
    simp only [Option.map_some']
    rw [wildcardOut_of_plain _ (by rw [Option.some.inj hso]; exact hp),
      Option.some.inj hso]

/-- C17 at three inputs and the two outputs `x` and `y`: the third input is paired
with the last output `y`. -/
theorem C17_matchio_pairs_ins_with_outs_witness :
    [bytesOf "x", bytesOf "y"] ≠ []
      ∧ ((matchio [bytesOf "a", bytesOf "b", bytesOf "c"] [bytesOf "x", bytesOf "y"])[2]?).map
          (fun p => p.out) = some (bytesOf "y") :=
  ⟨List.cons_ne_nil _ _,
    ((C17_matchio_pairs_ins_with_outs [bytesOf "a", bytesOf "b", bytesOf "c"]
      [bytesOf "x", bytesOf "y"] (List.cons_ne_nil _ _)).2 2 (by decide)).2 (bytesOf "y")
      (by decide!) (by decide!)⟩

/-- C18, evaluated on the code: called without output names, `matchio` pairs the
template name `source.tpl` with `source.tpl.exec`, not with `source.exec`: the
extension is kept and `.exec` comes after it, also in the function with its run-time
checks. -/
theorem C18_extension_is_kept_and_exec_appended :
    matchio [bytesOf "source.tpl"] []
        = [{ in_ := bytesOf "source.tpl", out := bytesOf "source.tpl.exec" }]
      ∧ matchioChecked [bytesOf "source.tpl"] []
          = some [{ in_ := bytesOf "source.tpl", out := bytesOf "source.tpl.exec" }]
      ∧ matchio [bytesOf "source.tpl"] []
          ≠ [{ in_ := bytesOf "source.tpl", out := bytesOf "source.exec" }] := by
  decide!

/-- C18, amended: for every list `ins`, `matchio` called with an empty `outs` returns
one pair for each template name, in order, whose `out` is that name followed by the
extension `defExt`, which is `.exec`. -/
theorem C18_matchio_without_outs_appends_exec (ins : List Str) :
    matchio ins [] = ins.map (fun f => ({ in_ := f, out := f ++ defExt } : pair))
      ∧ defExt = bytesOf ".exec" :=
  ⟨matchio_nil_outs ins, rfl⟩

/-- C20: for all lists `ins` and `outs` the function `matchio` with every index and
slice expression checked (`matched[i]`, `outs[i]`, `outs[olen-1]`, `m.out[1]`,
`m.out[1:]`, `ss[0]`, `ss[1:]`, `args[argnum]`, `tmp[2:]`, `tmp[1:]`) never fails and
returns what `matchio` returns; and when `args` is not shorter than `direct`, which is
what the guard before the wildcard loop establishes, every byte index `argnum` of
`range direct` is an index of `args` and the loop passes its checks. -/
theorem C20_matchio_is_total (ins outs : List Str) :
    matchioChecked ins outs = some (matchio ins outs)
      ∧ (∀ m : pair, wildcardOutChecked m = some (wildcardOut m))
      ∧ ∀ (args : List Str) (direct tmp : Str), ¬ args.length < direct.length →
          (∀ p ∈ rangeString direct, p.1 < args.length)
            ∧ wildcardLoopChecked args (rangeString direct) tmp
                = some (wildcardLoop args (rangeString direct) tmp) :=
  ⟨matchioChecked_eq ins outs, wildcardOutChecked_eq,
    fun args direct tmp hg =>
      ⟨fun p hp => Nat.lt_of_lt_of_le (rangeString_lt direct p hp) (Nat.not_lt.mp hg),
        wildcardLoopChecked_eq args (rangeString direct) tmp
          (fun p hp => Nat.lt_of_lt_of_le (rangeString_lt direct p hp) (Nat.not_lt.mp hg))⟩⟩

/-- C20 at the wildcard `/ps pre suf` with its two arguments. -/
theorem C20_matchio_is_total_witness :
    ¬ [bytesOf "pre", bytesOf "suf"].length < (bytesOf "ps").length
      ∧ wildcardLoopChecked [bytesOf "pre", bytesOf "suf"] (rangeString (bytesOf "ps"))
          (bytesOf "a.tpl")
          = some (wildcardLoop [bytesOf "pre", bytesOf "suf"] (rangeString (bytesOf "ps"))
              (bytesOf "a.tpl")) :=
  ⟨by decide!,
    ((C20_matchio_is_total [bytesOf "a.tpl"] [bytesOf "/ps pre suf"]).2.2
      [bytesOf "pre", bytesOf "suf"] (bytesOf "ps") (bytesOf "a.tpl") (by decide!)).2⟩

end Westarver
